import Mathlib

/-!
# iso2repo: the archive tree (`pkg/sevenz`)

A shallow embedding of the tree builder (`recurseFileAdd`), the listing parser
(`SevenZ.readFilesFromISO`), the path resolver (`SevenZ.ReadPath`) and the
repository detector (`SevenZ.createSourceString`, with `readDir` and `ReadFile`)
and the runner of the external program (`SevenZ.exec7zOnce`) of `pkg/sevenz`,
with the properties of the specification proved about them.

Modelling conventions.

* A Go `string` is modelled as a list of Unicode code points (`Str`).  For
  well-formed UTF-8 text the byte-wise order of Go's `<` on strings is the
  lexicographic order of the code points, which is what `strLess` computes.
* A Go slice is modelled as a `List`; `nil` and the empty slice are both `[]`.
  A function that mutates a slice through a pointer returns the new slice.
* Logging is not modelled: it has no effect on any returned value.
* The external program `7z` is an argument of the functions that run it: its
  runs are given by a value of type `Exec`.
-/

namespace Iso2Repo

/-- A Go string, as the list of its code points. -/
abbrev Str := List Char

/-! ## Library functions on strings (`strings`, `path`, `path/filepath`)

These are functions of the Go standard library, modelled from their documented behaviour. -/

/-- The predicate `unicode.IsSpace`. -/
def isSpace (c : Char) : Bool :=
  let n := c.toNat
  n = 9 || n = 10 || n = 11 || n = 12 || n = 13 || n = 32 || n = 0x85 || n = 0xA0 ||
    n = 0x1680 || (0x2000 ≤ n && n ≤ 0x200A) || n = 0x2028 || n = 0x2029 || n = 0x202F ||
    n = 0x205F || n = 0x3000

/-- The function `strings.TrimSpace`. -/
def TrimSpace (s : Str) : Str :=
  ((s.dropWhile isSpace).reverse.dropWhile isSpace).reverse

/-- The function `strings.HasPrefix`. -/
def HasPrefix : Str → Str → Bool
  | _, [] => true
  | [], _ :: _ => false
  | c :: s, d :: pre => c = d && HasPrefix s pre

/-- The function `strings.TrimPrefix`: one occurrence of the prefix is removed. -/
def TrimPrefix (s pre : Str) : Str :=
  if HasPrefix s pre then s.drop pre.length else s

/-- The function `strings.TrimSuffix`: one occurrence of the suffix is removed. -/
def TrimSuffix (s suf : Str) : Str :=
  (TrimPrefix s.reverse suf.reverse).reverse

/-- The function `strings.Split` for a separator of one character; the result is never empty. -/
def Split (sep : Char) : Str → List Str
  | [] => [[]]
  | c :: cs =>
    if c = sep then [] :: Split sep cs
    else
      match Split sep cs with
      | [] => [[c]]
      | p :: ps => (c :: p) :: ps

/-- The function `strings.ReplaceAll` for a pattern and a replacement of one character each. -/
def ReplaceAll (s : Str) (old new : Char) : Str :=
  s.map (fun c => if c = old then new else c)

/-- The function `strings.Join` for a separator of one character: the path
`s1<sep>s2<sep>...<sep>sn` written from its segments. -/
def joinSep (sep : Char) : List Str → Str
  | [] => []
  | [s] => s
  | s :: t :: rest => s ++ sep :: joinSep sep (t :: rest)

/-- The function `strings.TrimLeft` for a cutset of one character. -/
def TrimLeft (s : Str) (c : Char) : Str :=
  s.dropWhile fun x => x = c

/-- The function `unicode.ToLower` on the runes that matter for a comparison with ASCII text:
the ASCII capitals, and the two runes outside ASCII whose lower case is an ASCII letter (the
dotted capital I and the Kelvin sign).  The lower case of every other rune lies outside ASCII;
such a rune is left as it is. -/
def toLowerRune (c : Char) : Char :=
  if 'A' ≤ c ∧ c ≤ 'Z' then Char.ofNat (c.toNat + 32)
  else if c.toNat = 0x130 then 'i'
  else if c.toNat = 0x212A then 'k'
  else c

/-- The function `strings.ToLower`. -/
def ToLower (s : Str) : Str := s.map toLowerRune

/-- The loop of `path.Clean` over the elements of a path; `out` holds the elements kept so far,
the last one first.  An empty element and `.` are dropped; `..` removes the last element kept,
unless there is none or it is itself `..`, in which case `..` is kept when the path is not
rooted. -/
def cleanElems (rooted : Bool) : List Str → List Str → List Str
  | out, [] => out.reverse
  | out, e :: es =>
    if e = [] ∨ e = ['.'] then cleanElems rooted out es
    else if e = ['.', '.'] then
      match out with
      | [] => if rooted then cleanElems rooted [] es else cleanElems rooted [e] es
      | top :: below =>
        if top = ['.', '.'] then cleanElems rooted (e :: out) es
        else cleanElems rooted below es
    else cleanElems rooted (e :: out) es

/-- The function `path.Clean`. -/
def pathClean (path : Str) : Str :=
  if path = [] then ['.']
  else
    let rooted := decide (path.head? = some '/')
    let out := cleanElems rooted [] (Split '/' path)
    if rooted then '/' :: joinSep '/' out
    else if out = [] then ['.'] else joinSep '/' out

/-- The function `path.Join`: the leading empty elements are ignored, the others are joined with
slashes, and the result is cleaned. -/
def pathJoin (elem : List Str) : Str :=
  let kept := elem.dropWhile fun e => e = []
  if kept = [] then [] else pathClean (joinSep '/' kept)

/-- Go's `<` on strings: byte-wise lexicographic order, here on code points. -/
def strLess : Str → Str → Bool
  | [], [] => false
  | [], _ :: _ => true
  | _ :: _, [] => false
  | a :: as, b :: bs =>
    if a.toNat < b.toNat then true else if b.toNat < a.toNat then false else strLess as bs

/-- The platform-dependent part of `path/filepath`. -/
structure Platform where
  /-- The predicate `os.IsPathSeparator`. -/
  IsPathSeparator : Char → Bool
  /-- The constant `filepath.Separator`. -/
  Separator : Char
  /-- The length of `filepath.VolumeName`. -/
  volumeNameLen : Str → Nat

/-- The common body of `path.Base` and `filepath.Base`: strip the trailing separators, drop the
volume name, keep what follows the last separator; an empty path gives `.` and a path of
separators only gives the separator. -/
def baseWith (isSep : Char → Bool) (sep : Char) (volumeNameLen : Str → Nat) (path : Str) : Str :=
  if path = [] then ['.']
  else
    let stripped := (path.reverse.dropWhile isSep).reverse
    let noVolume := stripped.drop (volumeNameLen stripped)
    let last := (noVolume.reverse.takeWhile (fun c => !isSep c)).reverse
    if last = [] then [sep] else last

/-- The function `path.Base`: the separator is always the slash. -/
def pathBase (path : Str) : Str :=
  baseWith (fun c => c = '/') '/' (fun _ => 0) path

/-- The function `filepath.Base`. -/
def filepathBase (P : Platform) (path : Str) : Str :=
  baseWith P.IsPathSeparator P.Separator P.volumeNameLen path

/-- The build for Linux (`sevenz_linux.go`): the slash is the only separator, no volume names. -/
def linux : Platform := ⟨fun c => c = '/', '/', fun _ => 0⟩

/-- The test `isSlash` of `path_windows.go`. -/
def isSlash (c : Char) : Bool := c = '\\' || c = '/'

/-- The function `toUpper` of `path_windows.go`: the capital of an ASCII small letter, every
other byte unchanged. -/
def toUpperByte (c : Char) : Char :=
  if 'a' ≤ c ∧ c ≤ 'z' then Char.ofNat (c.toNat - 32) else c

/-- The function `pathHasPrefixFold` of `path_windows.go`: the path begins with the pattern,
letters compared without case and all separators taken as equal, and what follows the pattern
in the path, if anything, is a separator. -/
def pathHasPrefixFold : Str → Str → Bool
  | [], [] => true
  | c :: _, [] => isSlash c
  | [], _ :: _ => false
  | c :: s, p :: pattern =>
    (if isSlash p then isSlash c else decide (toUpperByte p = toUpperByte c))
      && pathHasPrefixFold s pattern

/-- The loop of `uncLen` of `path_windows.go` from the index `n`, `count` separators having been
seen: the index of the second separator, or the index of the end of the path. -/
def uncLenFrom : Str → Nat → Nat → Nat
  | [], n, _ => n
  | c :: cs, n, count =>
    if isSlash c then (if count = 1 then n else uncLenFrom cs (n + 1) (count + 1))
    else uncLenFrom cs (n + 1) count

/-- The function `uncLen` of `path_windows.go`: the length of the volume of a UNC path whose
host name starts at the index `prefixLen`. -/
def uncLen (path : Str) (prefixLen : Nat) : Nat :=
  min path.length (uncLenFrom (path.drop prefixLen) prefixLen 0)

/-- The index of the first separator at or after the index `n`, the index of the end of the path
when there is none: what `cutPath` gives `volumeNameLen`. -/
def firstSeparator : Str → Nat → Nat
  | [], n => n
  | c :: cs, n => if isSlash c then n else firstSeparator cs (n + 1)

/-- The function `volumeNameLen` of `path_windows.go`, as in the current releases of Go: any
first byte followed by a colon is a drive; a path that starts with a separator may be a local
device path (`\\.\`, `\\?\`, `\??\`), whose next component belongs to the volume, or a UNC path,
whose host and share belong to the volume.  The first byte of the path is its first code point
only when that code point is ASCII. -/
def volumeNameLenWindows (path : Str) : Nat :=
  let drive :=
    match path with
    | c0 :: c1 :: _ => decide (c0.toNat < 128) && decide (c1 = ':')
    | _ => false
  if drive then 2
  else
    match path with
    | [] => 0
    | c0 :: rest =>
      if !isSlash c0 then 0
      else if pathHasPrefixFold path "\\\\.\\UNC".toList then uncLen path 8
      else if pathHasPrefixFold path "\\\\.".toList || pathHasPrefixFold path "\\\\?".toList
          || pathHasPrefixFold path "\\??".toList then
        if path.length = 3 then 3 else firstSeparator (path.drop 4) 4
      else
        match rest with
        | c1 :: _ => if isSlash c1 then uncLen path 2 else 0
        | [] => 0

/-- The build for Windows (`sevenz_windows.go`): slash and backslash both separate. -/
def windows : Platform := ⟨isSlash, '\\', volumeNameLenWindows⟩

/-! ## Data model (`files.go`) -/

/-- The part of `time.Time` the program uses: a calendar date and a time of day (UTC). -/
structure Time where
  year : Nat
  month : Nat
  day : Nat
  hour : Nat
  minute : Nat
  second : Nat
deriving DecidableEq, Repr

/-- The zero value `time.Time{}`: January 1, year 1, 00:00:00 UTC. -/
def Time.zero : Time := ⟨1, 1, 1, 0, 0, 0⟩

/-- The struct `File` of `files.go`; the fields are in the order of the source. -/
inductive File where
  | mk (CreateAt : Time) (IsRoot : Bool) (IsDir : Bool) (Size : Int) (FilePath : Str)
      (Children : List File) (Name : Str)
deriving Repr

namespace File

def CreateAt : File → Time
  | mk t _ _ _ _ _ _ => t

def IsRoot : File → Bool
  | mk _ r _ _ _ _ _ => r

def IsDir : File → Bool
  | mk _ _ d _ _ _ _ => d

def Size : File → Int
  | mk _ _ _ s _ _ _ => s

def FilePath : File → Str
  | mk _ _ _ _ p _ _ => p

def Children : File → List File
  | mk _ _ _ _ _ c _ => c

def Name : File → Str
  | mk _ _ _ _ _ _ n => n

/-- The assignment `v.Children = c` on a struct value. -/
def setChildren : File → List File → File
  | mk t r d s p _ n, c => mk t r d s p c n

end File

/-- The function `NewRoot` of `files.go`. -/
def NewRoot : File := File.mk Time.zero true true 0 [] [] []

/-! ## Tree builder (`tools.go`) -/

/-- The search loop of `recurseFileAdd` (`for i, v := range *pathTree`): the index of the first
element whose `Name` equals `name`, or `none` for `foundedIndex == -1`.  Only the name is
compared. -/
def foundedIndex (name : Str) : List File → Option Nat
  | [] => none
  | v :: vs => if v.Name = name then some 0 else (foundedIndex name vs).map (· + 1)

/-- The in-place update `(*pathTree)[i].Children = c`. -/
def setChildrenAt : List File → Nat → List File → List File
  | [], _, _ => []
  | v :: vs, 0, c => v.setChildren c :: vs
  | v :: vs, i + 1, c => v :: setChildrenAt vs i c

/-- The children of `(*pathTree)[i]`. -/
def childrenAt : List File → Nat → List File
  | [], _ => []
  | v :: _, 0 => v.Children
  | _ :: vs, i + 1 => childrenAt vs i

/-- The body of `recurseFileAdd` on the remaining segments `pathParts[positionInPath:]`.
A directory segment reuses the first node of that name or appends a new directory built from
the remaining segments; a file segment appends a new file node and ends the insertion. -/
def recurseFileAddFrom : List File → List File → List File
  | [], pathTree => pathTree
  | part :: rest, pathTree =>
    if part.IsDir then
      match foundedIndex part.Name pathTree with
      | none =>
        pathTree ++ [File.mk Time.zero false true 0 [] (recurseFileAddFrom rest []) part.Name]
      | some i =>
        setChildrenAt pathTree i (recurseFileAddFrom rest (childrenAt pathTree i))
    else
      pathTree ++ [File.mk Time.zero false false part.Size part.FilePath [] part.Name]

/-- The function `recurseFileAdd` of `tools.go`; the result is the new value of `*pathTree`. -/
def recurseFileAdd (pathParts : List File) (positionInPath : Nat) (pathTree : List File) :
    List File :=
  recurseFileAddFrom (pathParts.drop positionInPath) pathTree

/-! ## Listing parser (`sevenz.go`) -/

/-- The errors the package returns: the package variable `ErrIsNotRepo`, the errors made at
the point of failure with `errors.Errorf` or `errors.New`, which carry a message, and the
variable `os.ErrNotExist`.  `errors.Trace` keeps the cause and the text of an error and is
modelled as the identity. -/
inductive Error where
  | ErrIsNotRepo
  | errorf (message : Str)
  | ErrNotExist
deriving DecidableEq, Repr

/-- The method `Error()`: the text of an error.  `ErrIsNotRepo` is `errors.New("is not repo")`
and `ErrNotExist` is `os.ErrNotExist`. -/
def Error.message : Error → Str
  | Error.ErrIsNotRepo => "is not repo".toList
  | Error.errorf message => message
  | Error.ErrNotExist => "file does not exist".toList

/-- The fields of the struct `SevenZ` that the modelled methods read or write. -/
structure SevenZ where
  ISOPath : Str
  Version : Str
  sevenZPath : Str
  filesTree : List File
  sourceString : Str
  pathPrefix : Str

/-- How often one piece of the line pattern repeats. -/
inductive Rep where
  | one
  | plus
  | star
deriving DecidableEq, Repr

/-- One piece of the line pattern: a character class and its repetition. -/
structure Piece where
  cls : Char → Bool
  rep : Rep

/-- A greedy repetition of a class with backtracking: the longest run is tried first, then the
shorter ones; `k` receives the text matched and the rest of the input. -/
def greedy {α : Type} (cls : Char → Bool) (k : Str → Str → Option α) : Str → Str → Option α
  | acc, [] => k acc []
  | acc, c :: cs =>
    if cls c then
      match greedy cls k (acc ++ [c]) cs with
      | some r => some r
      | none => k acc (c :: cs)
    else k acc (c :: cs)

/-- A match of a sequence of pieces against the whole input (the pattern is anchored at both
ends), with the preference order of Go's `regexp`: leftmost-first, every repetition greedy.
The result is the text matched by each piece. -/
def matchPieces : List Piece → Str → Option (List Str)
  | [], [] => some []
  | [], _ :: _ => none
  | p :: ps, s =>
    match p.rep with
    | Rep.one =>
      match s with
      | [] => none
      | c :: cs => if p.cls c then (matchPieces ps cs).map (fun r => [c] :: r) else none
    | Rep.star => greedy p.cls (fun m rest => (matchPieces ps rest).map (fun r => m :: r)) [] s
    | Rep.plus =>
      match s with
      | [] => none
      | c :: cs =>
        if p.cls c then
          greedy p.cls (fun m rest => (matchPieces ps rest).map (fun r => m :: r)) [c] cs
        else none

/-- The class `\d`. -/
def reDigit (c : Char) : Bool := '0' ≤ c && c ≤ '9'

/-- The class `\s`. -/
def reSpace (c : Char) : Bool := c = '\t' || c = '\n' || c.toNat = 12 || c = '\r' || c = ' '

/-- The class of the literal character `x`. -/
def reLit (x : Char) (c : Char) : Bool := c = x

/-- The pattern `reLine`, piece by piece:
`^(\d+-\d+-\d+)\s+(\d+:\d+:\d+)\s+(.|D)\.\.\.\.\s+(\d*)\s+(\d*)\s+([^ ]+)$`. -/
def reLine : List Piece :=
  [⟨reDigit, Rep.plus⟩, ⟨reLit '-', Rep.one⟩, ⟨reDigit, Rep.plus⟩, ⟨reLit '-', Rep.one⟩,
   ⟨reDigit, Rep.plus⟩,
   ⟨reSpace, Rep.plus⟩,
   ⟨reDigit, Rep.plus⟩, ⟨reLit ':', Rep.one⟩, ⟨reDigit, Rep.plus⟩, ⟨reLit ':', Rep.one⟩,
   ⟨reDigit, Rep.plus⟩,
   ⟨reSpace, Rep.plus⟩,
   ⟨fun c => c ≠ '\n' || c = 'D', Rep.one⟩,
   ⟨reLit '.', Rep.one⟩, ⟨reLit '.', Rep.one⟩, ⟨reLit '.', Rep.one⟩, ⟨reLit '.', Rep.one⟩,
   ⟨reSpace, Rep.plus⟩,
   ⟨reDigit, Rep.star⟩,
   ⟨reSpace, Rep.plus⟩,
   ⟨reDigit, Rep.star⟩,
   ⟨reSpace, Rep.plus⟩,
   ⟨fun c => c ≠ ' ', Rep.plus⟩]

/-- The six capture groups of a match of `reLine`. -/
structure Match where
  date : Str
  time : Str
  flag : Str
  size1 : Str
  size2 : Str
  path : Str
deriving DecidableEq, Repr

/-- The call `reLine.FindStringSubmatch(line)`: `none` when the line does not match, else the
groups `match[1]` to `match[6]`. -/
def FindStringSubmatch (line : Str) : Option Match :=
  match matchPieces reLine line with
  | some [y, d1, m, d2, d, _, h, c1, mi, c2, se, _, fl, _, _, _, _, _, s1, _, s2, _, pa] =>
    some ⟨y ++ d1 ++ m ++ d2 ++ d, h ++ c1 ++ mi ++ c2 ++ se, fl, s1, s2, pa⟩
  | _ => none

/-- The value of a string of decimal digits in the given base, `none` at a digit that is not
below the base. -/
def digitsValue (base : Nat) : Nat → Str → Option Nat
  | acc, [] => some acc
  | acc, c :: cs =>
    if reDigit c && c.toNat - 48 < base then digitsValue base (acc * base + (c.toNat - 48)) cs
    else none

/-- The call `cast.ToInt(s)` on a string (`github.com/spf13/cast`), for the strings of digits
that `reLine` captures: `strconv.ParseInt(s, 0, 0)`, and `0` when that fails.  With base `0` a
leading `0` makes the numeral octal; the empty string, a digit out of the base and a value that
does not fit 64 bits fail.  For a string with another character the result here is `0`. -/
def castToInt (s : Str) : Int :=
  match s with
  | [] => 0
  | c :: cs =>
    let parsed := if c = '0' then digitsValue 8 0 cs else digitsValue 10 0 (c :: cs)
    match parsed with
    | some n => if n < 2 ^ 63 then (n : Int) else 0
    | none => 0

/-- The function `getnum` of package `time`: one or two digits, exactly two when `fixed`. -/
def getnum (fixed : Bool) : Str → Option (Nat × Str)
  | [] => none
  | [c] => if reDigit c && !fixed then some (c.toNat - 48, []) else none
  | c :: d :: rest =>
    if reDigit c then
      if reDigit d then some ((c.toNat - 48) * 10 + (d.toNat - 48), rest)
      else if fixed then none else some (c.toNat - 48, d :: rest)
    else none

/-- The function `daysIn` of package `time`. -/
def daysIn (month year : Nat) : Nat :=
  if month = 2 then
    if year % 4 = 0 && (year % 100 ≠ 0 || year % 400 = 0) then 29 else 28
  else if month = 4 || month = 6 || month = 9 || month = 11 then 30
  else 31

/-- The literal text between two fields of the layout: the next character must be `x`. -/
def skipLit (x : Char) : Str → Option Str
  | [] => none
  | c :: cs => if c = x then some cs else none

/-- The call `time.Parse("2006-01-02 15:04:05", value)`, `none` for a parse error: a year of four
digits, a month and a day of two digits, an hour of one or two digits, minutes and seconds of two
digits, each in its range, and nothing after them.  The space of the layout stands for a run of
spaces.  A fraction of a second, which `time.Parse` accepts after the seconds, cannot occur in
the text that `reLine` captures and is not modelled. -/
def timeParse (value : Str) : Option Time :=
  match value with
  | y1 :: y2 :: y3 :: y4 :: v1 =>
    if reDigit y1 && reDigit y2 && reDigit y3 && reDigit y4 then
      (skipLit '-' v1).bind fun v2 =>
      (getnum true v2).bind fun (month, v3) =>
      if month = 0 || 12 < month then none else
      (skipLit '-' v3).bind fun v4 =>
      (getnum true v4).bind fun (day, v5) =>
      (match v5 with
        | [] => some []
        | c :: cs => if c = ' ' then some ((c :: cs).dropWhile (fun x => x = ' ')) else none).bind
      fun v6 =>
      (getnum false v6).bind fun (hour, v7) =>
      if 24 ≤ hour then none else
      (skipLit ':' v7).bind fun v8 =>
      (getnum true v8).bind fun (minute, v9) =>
      if 60 ≤ minute then none else
      (skipLit ':' v9).bind fun v10 =>
      (getnum true v10).bind fun (second, v11) =>
      if 60 ≤ second then none else
      if v11 ≠ [] then none else
      let year := (y1.toNat - 48) * 1000 + (y2.toNat - 48) * 100 + (y3.toNat - 48) * 10
        + (y4.toNat - 48)
      if day < 1 || daysIn month year < day then none
      else some ⟨year, month, day, hour, minute, second⟩
    else none
  | _ => none

/-- The part of the loop body of `readFilesFromISO` after the match: the chain of segments that
is handed to `recurseFileAdd`, from the path `match[6]` with the prefix already removed. -/
def filePathParts (P : Platform) (m : Match) (path : Str) : List File :=
  let newFileOrDir :=
    File.mk ((timeParse (m.date ++ [' '] ++ m.time)).getD Time.zero) false
      (decide (m.flag = ['D'])) (castToInt m.size1) [] [] (filepathBase P path)
  let filePath := ReplaceAll path '\\' '/'
  let filePath := TrimPrefix filePath ['/']
  let filePath := TrimSuffix filePath ['/']
  let filePathSplit := Split '/' filePath
  (filePathSplit.dropLast.map fun pathPart => File.mk Time.zero false true 0 [] [] pathPart)
    ++ [newFileOrDir]

/-- The value `newFileOrDir` of `readFilesFromISO` for a line with the groups `m`, once its time
is set, with `name` for what `filepath.Base` gives. -/
def lineEntry (m : Match) (name : Str) : File :=
  File.mk ((timeParse (m.date ++ [' '] ++ m.time)).getD Time.zero) false
    (decide (m.flag = ['D'])) (castToInt m.size1) [] [] name

/-- The state of the loop of `readFilesFromISO`: the field `m.pathPrefix` and the local
`result`. -/
structure ParseState where
  pathPrefix : Str
  result : List File

/-- The body of the loop of `readFilesFromISO` for one line of the output. -/
def readLine (P : Platform) (st : ParseState) (line : Str) : ParseState :=
  match FindStringSubmatch (TrimSpace line) with
  | none => st
  | some m =>
    if m.path = ['.'] then { st with pathPrefix := ['.', '\\'] }
    else
      let path := TrimPrefix m.path st.pathPrefix
      { st with result := recurseFileAdd (filePathParts P m path) 0 st.result }

/-- The loop of `readFilesFromISO` over the lines of the output of `7z l`. -/
def readLines (P : Platform) (st : ParseState) (output : Str) : ParseState :=
  (Split '\n' output).foldl (readLine P) st

/-- The method `SevenZ.readFilesFromISO`.  The call of the external program is the argument
`exec7zOnce`, its output or its error; the result is the receiver, whose `pathPrefix` the method
may set, and the returned pair. -/
def readFilesFromISO (P : Platform) (m : SevenZ) (exec7zOnce : Except Error Str) :
    SevenZ × Except Error (List File) :=
  match exec7zOnce with
  | Except.error err => (m, Except.error err)
  | Except.ok output =>
    let st := readLines P ⟨m.pathPrefix, []⟩ output
    ({ m with pathPrefix := st.pathPrefix }, Except.ok st.result)

/-! ## Path resolver (`sevenz.go`) -/

/-- What `sort.Slice` guarantees when the comparison is `Name < Name`: the result is a
rearrangement of the slice in which no element is followed by one with a smaller name.  The sort
is not stable, so the order among equal names is left open. -/
structure SortSlice where
  sort : List File → List File
  perm : ∀ l, (sort l).Perm l
  sorted : ∀ l, (sort l).Pairwise (fun a b => strLess b.Name a.Name = false)

/-- The three results of `ReadPath`: `*File`, `[]File` and `error`, each `none` for `nil`. -/
structure ReadPathResult where
  file : Option File
  list : Option (List File)
  err : Option Error

/-- The character `'`. -/
def quote : Char := Char.ofNat 39

/-- The inner loop of the walk over the directories of a path (`for _, v := range currentLevel`):
the children of the first element named `pathPart`, `none` for `!found`. -/
def findLevel (pathPart : Str) : List File → Option (List File)
  | [] => none
  | v :: vs => if v.Name = pathPart then some v.Children else findLevel pathPart vs

/-- The loop of `ReadPath` over `pathParts[:len(pathParts)-1]`: the level reached, `none` when a
segment is not found. -/
def walkLevels : List Str → List File → Option (List File)
  | [], currentLevel => some currentLevel
  | pathPart :: rest, currentLevel =>
    match findLevel pathPart currentLevel with
    | none => none
    | some children => walkLevels rest children

/-- The loop of `ReadPath` that looks for `pathEndFile`: the first element of that name. -/
def findEntry (pathEndFile : Str) : List File → Option File
  | [] => none
  | v :: vs => if v.Name = pathEndFile then some v else findEntry pathEndFile vs

/-- The end of `ReadPath` (from `inDirs := make([]File, 0)`): the directories of the level, sorted
by name, followed by its files, sorted by name. -/
def readLevel (srt : SortSlice) (currentLevel : List File) : List File :=
  srt.sort (currentLevel.filter fun v => v.IsDir)
    ++ srt.sort (currentLevel.filter fun v => !v.IsDir)

/-- The normalisation at the start of `ReadPath`: `TrimSpace`, then one leading and one trailing
slash removed. -/
def pathItem (pathDirOrFile : Str) : Str :=
  TrimSuffix ( TrimPrefix (TrimSpace pathDirOrFile) ['/']) ['/']

/-- The outcome of the first part of `ReadPath` (up to `// Читаем содержимое папки`): an early
return with an error, an early return with a file, or the level `currentLevel` to be listed. -/
inductive Resolved where
  | notFound (err : Error)
  | file (v : File)
  | level (currentLevel : List File)

/-- The first part of `ReadPath`: the walk over the directories of the path, then the lookup of
`pathEndFile := path.Base(pathItem)` unless the path is that of the root. -/
def resolve (m : SevenZ) (pathDirOrFile : Str) : Resolved :=
  let pathParts := Split '/' (pathItem pathDirOrFile)
  match walkLevels pathParts.dropLast m.filesTree with
  | none =>
    Resolved.notFound (Error.errorf ("не найден путь ".toList ++ [quote] ++ pathDirOrFile
      ++ [quote]))
  | some currentLevel =>
    if pathItem pathDirOrFile ≠ [] then
      match findEntry (pathBase (pathItem pathDirOrFile)) currentLevel with
      | none =>
        Resolved.notFound (Error.errorf ("не найден путь ".toList ++ [quote] ++ pathDirOrFile))
      | some v => if v.IsDir then Resolved.level v.Children else Resolved.file v
    else Resolved.level currentLevel

/-- The method `SevenZ.ReadPath`. -/
def ReadPath (srt : SortSlice) (m : SevenZ) (pathDirOrFile : Str) : ReadPathResult :=
  match resolve m pathDirOrFile with
  | Resolved.notFound err => ⟨none, none, some err⟩
  | Resolved.file v => ⟨some v, some [], none⟩
  | Resolved.level currentLevel => ⟨none, some (readLevel srt currentLevel), none⟩

/-- The sort that `sort.Slice` performs on a slice of at most twelve elements: an insertion
sort.  It shows that the guarantee `SortSlice` can be met. -/
def insertionSort : SortSlice where
  sort l := l.insertionSort (fun a b => strLess b.Name a.Name = false)
  perm l := List.perm_insertionSort _ l
  sorted l := by
    have total : ∀ a b : Str, strLess b a = false ∨ strLess a b = false := by
      intro a
      induction a with
      | nil => intro b; cases b <;> simp [strLess]
      | cons x xs ih =>
        intro b
        cases b with
        | nil => simp [strLess]
        | cons y ys =>
          simp only [strLess]
          rcases Nat.lt_trichotomy x.toNat y.toNat with h | h | h
          · left; simp [h, Nat.lt_asymm h]
          · have := ih ys; simpa [h] using this
          · right; simp [h, Nat.lt_asymm h]
    have trans : ∀ a b c : Str, strLess b a = false → strLess c b = false →
        strLess c a = false := by
      intro a
      induction a with
      | nil => intro b c hab hbc; cases b <;> cases c <;> simp_all [strLess]
      | cons x xs ih =>
        intro b c hab hbc
        cases b with
        | nil => simp [strLess] at hab
        | cons y ys =>
          cases c with
          | nil => simp [strLess] at hbc
          | cons z zs =>
            simp only [strLess] at hab hbc ⊢
            split_ifs at hab hbc ⊢ <;> first | rfl | omega | (exact ih ys zs hab hbc)
    haveI : IsTotal File (fun a b => strLess b.Name a.Name = false) :=
      ⟨fun a b => total a.Name b.Name⟩
    haveI : IsTrans File (fun a b => strLess b.Name a.Name = false) :=
      ⟨fun a b c hab hbc => trans a.Name b.Name c.Name hab hbc⟩
    exact List.sorted_insertionSort _ l

/-! ## Repository detector (`sevenz.go`) and file reader (`sevenz_linux.go`, `sevenz_windows.go`) -/

/-- The inner loop of `readDir` (`for i := range currentFolder`): the children of the first
element that has the name `pathBit` and is a directory, `none` for `!foundDir`. -/
def findDir (pathBit : Str) : List File → Option (List File)
  | [] => none
  | v :: vs => if v.Name = pathBit ∧ v.IsDir = true then some v.Children else findDir pathBit vs

/-- The loop of `readDir` over `absDirPathSplit`. -/
def walkDirs : List Str → List File → Option (List File)
  | [], currentFolder => some currentFolder
  | pathBit :: rest, currentFolder =>
    match findDir pathBit currentFolder with
    | none => none
    | some children => walkDirs rest children

/-- The method `SevenZ.readDir`. -/
def readDir (m : SevenZ) (absDirPath : Str) : Except Error (List File) :=
  let absDirPathClean := TrimLeft (TrimSpace (ReplaceAll absDirPath '\\' '/')) '/'
  match walkDirs (Split '/' absDirPathClean) m.filesTree with
  | none => Except.error Error.ErrNotExist
  | some currentFolder => Except.ok currentFolder

/-- One run of the external program, as `os/exec` reports it: the error of `Start`, the error
text of `Wait` (`none` for the exit status 0), what the program wrote to its standard output,
and what it wrote to its standard output and its standard error together, in the order of
writing. -/
structure Run where
  startErr : Option Str
  waitErr : Option Str
  stdout : Str
  combined : Str

/-- The external world of `exec.Command`: the run that a program and its arguments give. -/
abbrev Exec := Str → List Str → Run

/-- A match of `exit status (-?\d+)` that starts at the head of the text: the group. -/
def exitStatusAt (s : Str) : Option Str :=
  if HasPrefix s "exit status ".toList then
    match s.drop 12 with
    | '-' :: ds => if ds.takeWhile reDigit = [] then none else some ('-' :: ds.takeWhile reDigit)
    | ds => if ds.takeWhile reDigit = [] then none else some (ds.takeWhile reDigit)
  else none

/-- The call `regexp.MustCompile("exit status (-?\\d+)").FindStringSubmatch(s)`: the group of
the leftmost match. -/
def findExitStatus : Str → Option Str
  | [] => none
  | c :: cs =>
    match exitStatusAt (c :: cs) with
    | some code => some code
    | none => findExitStatus cs

/-- The error that `ReadFile` and `exec7zOnce` make of a failed `Wait`: the exit code of the
error text, or `-1`, annotated with the command line. -/
def exitError (m : SevenZ) (args : List Str) (waitErr : Str) : Error :=
  Error.errorf (m.sevenZPath ++ [' '] ++ joinSep ' ' args ++ ": код выхода ".toList ++
    (match findExitStatus waitErr with
      | none => "-1".toList
      | some code => code))

/-- The method `SevenZ.ReadFile`: the bytes written to `out` and the returned error. -/
def ReadFile (m : SevenZ) (exec : Exec) (fileAbsPath : Str) : Str × Option Error :=
  let file := m.pathPrefix ++ TrimLeft fileAbsPath '/'
  let args := ["e".toList, m.ISOPath, "-so".toList, file]
  let run := exec m.sevenZPath args
  match run.startErr with
  | some err => ([], some (Error.errorf err))
  | none =>
    match run.waitErr with
    | some err => (run.stdout, some (exitError m args err))
    | none => (run.stdout, none)

/-- The method `SevenZ.exec7zOnce`: the returned string and the returned error.  Both output
streams of the program go to the one buffer `buffOut`. -/
def exec7zOnce (m : SevenZ) (exec : Exec) (args : List Str) : Str × Option Error :=
  let run := exec m.sevenZPath args
  match run.startErr with
  | some err => ([], some (Error.errorf err))
  | none =>
    match run.waitErr with
    | some err =>
      let buffOutStr := TrimSpace run.combined
      if buffOutStr ≠ [] then (buffOutStr, none) else ([], some (exitError m args err))
    | none => (TrimSpace run.combined, none)

/-- The constant `distPath` of `createSourceString`. -/
def distPath : Str := "dists".toList

/-- The constant `findPrefix` of `createSourceString`. -/
def findPrefix : Str := "components:".toList

/-- The first loop of `createSourceString`: the name of the last directory of `inDist`, the
empty string when there is none. -/
def distributeName (inDist : List File) : Str :=
  inDist.foldl (fun name v => if v.IsDir then v.Name else name) []

/-- The second loop of `createSourceString`: `Release` when `inDistSub` holds a file of that
name, else the empty string. -/
def releaseName : List File → Str
  | [] => []
  | v :: vs =>
    if v.Name = "Release".toList ∧ v.IsDir = false then v.Name else releaseName vs

/-- The loop of `createSourceString` over `linePart`, for the line `line` that begins with
`components:`.  The prefix is cut off by its length in bytes, which is its length in runes
because a line whose lower case begins with `components:` begins with eleven ASCII runes. -/
def lineComponents (m : SevenZ) (distributeName : Str) (line : Str) : List Str :=
  let lineClean := ReplaceAll line '\t' ' '
  let linePart := Split ' ' (lineClean.drop findPrefix.length)
  linePart.foldl (fun components p =>
    let pClean := TrimSpace p
    if pClean ≠ [] ∧ pClean ∉ components then
      match readDir m (pathJoin [distPath, distributeName, pClean]) with
      | Except.error _ => components
      | Except.ok _ => components ++ [pClean]
    else components) []

/-- The loop of `createSourceString` over the lines of the file `Release`: the components of
the first line that begins with `components:`, whatever the case of its letters. -/
def findComponents (m : SevenZ) (distributeName : Str) : List Str → List Str
  | [] => []
  | v :: vs =>
    if HasPrefix (ToLower (TrimSpace v)) findPrefix then
      lineComponents m distributeName (TrimSpace v)
    else findComponents m distributeName vs

/-- The call `sort.Strings`.  The slice it is applied to holds no string twice, so that every
sort gives the same result as this insertion sort. -/
def sortStrings (l : List Str) : List Str :=
  l.insertionSort fun a b => strLess b a = false

/-- The result string of `createSourceString`. -/
def descriptor (P : Platform) (m : SevenZ) (distributeName : Str) (components : List Str) :
    Str :=
  "deb http://0.0.0.0/repo/".toList ++ filepathBase P m.ISOPath ++ [' '] ++ distributeName ++
    [' '] ++ joinSep ' ' components

/-- The part of `createSourceString` after the distribution name is known (from
`if distributeName == ""`): the descriptor and the error. -/
def sourceStringFor (P : Platform) (m : SevenZ) (exec : Exec) (distributeName : Str) :
    Str × Option Error :=
  if distributeName = [] then ([], some Error.ErrIsNotRepo)
  else
    match readDir m (pathJoin [distPath, distributeName]) with
    | Except.error _ => ([], some Error.ErrIsNotRepo)
    | Except.ok inDistSub =>
      if releaseName inDistSub = [] then ([], some Error.ErrIsNotRepo)
      else
        match ReadFile m exec (pathJoin [distPath, distributeName, releaseName inDistSub]) with
        | (_, some err) => ([], some err)
        | (releaseBuff, none) =>
          let components := findComponents m distributeName (Split '\n' releaseBuff)
          if components = [] then
            ([], some (Error.errorf ("в файле ".toList ++ [quote] ++ distPath ++ ['/'] ++
              distributeName ++ "/Release".toList ++ [quote] ++ " не найден блок ".toList ++
              [quote] ++ findPrefix ++ [quote])))
          else (descriptor P m distributeName (sortStrings components), none)

/-- The method `SevenZ.createSourceString`: the descriptor and the error. -/
def createSourceString (P : Platform) (m : SevenZ) (exec : Exec) : Str × Option Error :=
  match readDir m distPath with
  | Except.error _ => ([], some Error.ErrIsNotRepo)
  | Except.ok inDist => sourceStringFor P m exec (distributeName inDist)

/-- The method `SevenZ.GetRepoString`. -/
def GetRepoString (m : SevenZ) : Str := m.sourceString

/-- What the environment answers to `NewSevenZ`: the error of `os.Stat` when the archive does
not exist, the results of `find7ZBin`, of `read7ZVersion` and of `exec7zOnce` for the listing,
and the runs of the program for `ReadFile`.  The version only goes into the field `Version` and
into warnings of the log. -/
structure Env where
  statNotExist : Option Str
  find7ZBin : Except Error Str
  read7ZVersion : Except Error Str
  listing : Except Error Str
  exec : Exec

/-- The function `NewSevenZ`. -/
def NewSevenZ (P : Platform) (env : Env) (ISOPath : Str) : Except Error SevenZ :=
  match env.statNotExist with
  | some err => Except.error (Error.errorf (ISOPath ++ ": ".toList ++ err))
  | none =>
    match env.find7ZBin with
    | Except.error err => Except.error err
    | Except.ok sevenZPath =>
      match env.read7ZVersion with
      | Except.error err => Except.error err
      | Except.ok version =>
        let m : SevenZ := ⟨ISOPath, version, sevenZPath, [], [], []⟩
        match readFilesFromISO P m env.listing with
        | (_, Except.error err) =>
          Except.error (Error.errorf (ISOPath ++ ": ".toList ++ err.message))
        | (m1, Except.ok filesTree) =>
          let m2 : SevenZ := { m1 with filesTree := filesTree }
          match createSourceString P m2 env.exec with
          | (_, some err) => Except.error err
          | (sourceString, none) => Except.ok { m2 with sourceString := sourceString }

/-! ## Predicates of the specification -/

/-- The names of the directory nodes of one child list. -/
def dirNames (l : List File) : List Str :=
  (l.filter fun v => v.IsDir).map File.Name

mutual
/-- Below the node, no child list holds two directory nodes of the same name. -/
def File.uniqueDirs : File → Bool
  | .mk _ _ _ _ _ c _ => decide (dirNames c).Nodup && File.uniqueDirsList c
/-- Every node of the list satisfies `File.uniqueDirs`. -/
def File.uniqueDirsList : List File → Bool
  | [] => true
  | v :: vs => File.uniqueDirs v && File.uniqueDirsList vs
end

/-- Directory uniqueness for a tree given by its top level: in no child list of the tree, at any
depth, do two directory nodes have the same name. -/
def UniqueDirs (tree : List File) : Prop :=
  (dirNames tree).Nodup ∧ File.uniqueDirsList tree = true

instance (tree : List File) : Decidable (UniqueDirs tree) := by
  unfold UniqueDirs; infer_instance

mutual
/-- The number of file (non-directory) nodes at the node and below it. -/
def File.countFiles : File → Nat
  | .mk _ _ d _ _ c _ => (if d then 0 else 1) + File.countFilesList c
/-- The number of file nodes in the trees of a list. -/
def File.countFilesList : List File → Nat
  | [] => 0
  | v :: vs => File.countFiles v + File.countFilesList vs
end

mutual
/-- The number of nodes at the node and below it. -/
def File.countNodes : File → Nat
  | .mk _ _ _ _ _ c _ => 1 + File.countNodesList c
/-- The number of nodes in the trees of a list. -/
def File.countNodesList : List File → Nat
  | [] => 0
  | v :: vs => File.countNodes v + File.countNodesList vs
end

/-- The listing `l` of the level `lvl` as the specification wants it: a rearrangement of the
level, the directories first, the names of the directories in non-decreasing order and the names
of the files in non-decreasing order. -/
def SortedListing (l lvl : List File) : Prop :=
  l.Perm lvl ∧ ∃ dirs files, l = dirs ++ files ∧
    (∀ d ∈ dirs, d.IsDir = true) ∧ (∀ f ∈ files, f.IsDir = false) ∧
    dirs.Pairwise (fun a b => strLess b.Name a.Name = false) ∧
    files.Pairwise (fun a b => strLess b.Name a.Name = false)

/-- The segments that `ReadPath` looks up for a path that is not the root: the pieces of the
normalised path between slashes, the last of them as `path.Base` gives it. -/
def segments (pathDirOrFile : Str) : List Str :=
  (Split '/' (pathItem pathDirOrFile)).dropLast ++ [pathBase (pathItem pathDirOrFile)]

/-- A directory segment of a chain, as `readFilesFromISO` makes it. -/
def dirPart (name : Str) : File := File.mk Time.zero false true 0 [] [] name

/-- The file node that `recurseFileAdd` appends for the file segment `part`. -/
def newFile (part : File) : File :=
  File.mk Time.zero false false part.Size part.FilePath [] part.Name

/-- The first line of the file `Release` that begins with `components:`, whatever the case of
its letters, without the white space around it. -/
def componentsLine : List Str → Option Str
  | [] => none
  | v :: vs =>
    if HasPrefix (ToLower (TrimSpace v)) findPrefix then some (TrimSpace v)
    else componentsLine vs

/-- The tokens that follow `components:` in the content of the file `Release`: the pieces
between spaces (a tab counts as a space) of the rest of that line, each without the white space
around it.  There is none when no line begins with `components:`. -/
def candidates (content : Str) : List Str :=
  match componentsLine (Split '\n' content) with
  | none => []
  | some line => (Split ' ' ((ReplaceAll line '\t' ' ').drop findPrefix.length)).map TrimSpace

/-- The token names a directory of the distribution: `readDir` finds
`dists/<distribution>/<token>`. -/
def IsComponentDir (m : SevenZ) (distribution token : Str) : Prop :=
  ∃ l, readDir m (pathJoin [distPath, distribution, token]) = Except.ok l

/-- The markers of a repository are present in the tree and the file `Release` was read: the
top-level directory `dists` exists and the name of its last directory is `distribution`, not
empty; the directory `dists/<distribution>` exists and holds a file named `Release`; and
`ReadFile` wrote `content` for `dists/<distribution>/Release` without an error. -/
def RepositoryWith (m : SevenZ) (exec : Exec) (distribution content : Str) : Prop :=
  ∃ inDist inDistSub, readDir m distPath = Except.ok inDist ∧
    distributeName inDist = distribution ∧ distribution ≠ [] ∧
    readDir m (pathJoin [distPath, distribution]) = Except.ok inDistSub ∧
    (∃ v ∈ inDistSub, v.Name = "Release".toList ∧ v.IsDir = false) ∧
    ReadFile m exec (pathJoin [distPath, distribution, "Release".toList]) = (content, none)

/-- The text of the error of `createSourceString` for a file `Release` without a usable
component. -/
def noComponentsMessage (distribution : Str) : Str :=
  "в файле ".toList ++ [quote] ++ distPath ++ ['/'] ++ distribution ++ "/Release".toList ++
    [quote] ++ " не найден блок ".toList ++ [quote] ++ findPrefix ++ [quote]

/-- The tree `new` is the tree `old` with at most one subtree added: nothing is added, or one
node is appended to the level, or one node of the level has got new children, which are its old
children with at most one subtree added.  Every node of `old` keeps its place among its
siblings and its fields other than `Children`. -/
inductive Grows : List File → List File → Prop
  | same (l : List File) : Grows l l
  | appended (l : List File) (t : File) : Grows l (l ++ [t])
  | inside (pre : List File) (v : File) (post c : List File) :
      Grows v.Children c → Grows (pre ++ v :: post) (pre ++ v.setChildren c :: post)

/-- The linear chain of new directories with the given names, with the level `leaf` at its
end. -/
def chain : List Str → List File → List File
  | [], leaf => leaf
  | name :: names, leaf => [File.mk Time.zero false true 0 [] (chain names leaf) name]

mutual
/-- At the node and below it, every file (non-directory) node has an empty child list. -/
def File.filesAreLeaves : File → Bool
  | .mk _ _ d _ _ c _ => (d || c.isEmpty) && File.filesAreLeavesList c
/-- Every node of the list satisfies `File.filesAreLeaves`. -/
def File.filesAreLeavesList : List File → Bool
  | [] => true
  | v :: vs => File.filesAreLeaves v && File.filesAreLeavesList vs
end

/-- The line applies to the same entry as a match `m`, under the path `path`: it matches the
line shape with the groups of `m`, except that its path is `path`. -/
def MatchesWithPath (line : Str) (m : Match) (path : Str) : Prop :=
  FindStringSubmatch (TrimSpace line) = some { m with path := path }

/-- The line matches the line shape (after `TrimSpace`, as `readFilesFromISO` tests it). -/
def matchesLine (line : Str) : Bool :=
  (FindStringSubmatch (TrimSpace line)).isSome

mutual
/-- Below the node, no child list holds two nodes of the same name. -/
def File.uniqueNames : File → Bool
  | .mk _ _ _ _ _ c _ => decide (c.map File.Name).Nodup && File.uniqueNamesList c
/-- Every node of the list satisfies `File.uniqueNames`. -/
def File.uniqueNamesList : List File → Bool
  | [] => true
  | v :: vs => File.uniqueNames v && File.uniqueNamesList vs
end

/-- Sibling names are pairwise distinct in a tree given by its top level: in no child list of
the tree, at any depth, do two nodes (files or directories) have the same name. -/
def UniqueNames (tree : List File) : Prop :=
  (tree.map File.Name).Nodup ∧ File.uniqueNamesList tree = true

instance (tree : List File) : Decidable (UniqueNames tree) := by
  unfold UniqueNames; infer_instance

mutual
/-- The paths, as lists of names from the top level, of the directory nodes at the node and
below it. -/
def File.dirPaths : File → List (List Str)
  | .mk _ _ d _ _ c n => (if d then [[n]] else []) ++ (File.dirPathsList c).map fun p => n :: p
/-- The paths of the directory nodes in the trees of a list. -/
def File.dirPathsList : List File → List (List Str)
  | [] => []
  | v :: vs => File.dirPaths v ++ File.dirPathsList vs
end

mutual
/-- The paths, as lists of names from the top level, of the file (non-directory) nodes at the
node and below it. -/
def File.filePaths : File → List (List Str)
  | .mk _ _ d _ _ c n => (if d then [] else [[n]]) ++ (File.filePathsList c).map fun p => n :: p
/-- The paths of the file nodes in the trees of a list. -/
def File.filePathsList : List File → List (List Str)
  | [] => []
  | v :: vs => File.filePaths v ++ File.filePathsList vs
end

mutual
/-- The number of directory nodes at the node and below it. -/
def File.countDirs : File → Nat
  | .mk _ _ d _ _ c _ => (if d then 1 else 0) + File.countDirsList c
/-- The number of directory nodes in the trees of a list. -/
def File.countDirsList : List File → Nat
  | [] => 0
  | v :: vs => File.countDirs v + File.countDirsList vs
end

/-- The directory paths that a chain of segments describes: the path of every segment that is a
directory, ancestors included. -/
def chainDirPaths : List File → List (List Str)
  | [] => []
  | d :: rest =>
    (if d.IsDir then [[d.Name]] else []) ++ (chainDirPaths rest).map fun p => d.Name :: p

/-- The file paths that a chain of segments describes: the path of every segment that is a
file. -/
def chainFilePaths : List File → List (List Str)
  | [] => []
  | d :: rest =>
    (if d.IsDir then [] else [[d.Name]]) ++ (chainFilePaths rest).map fun p => d.Name :: p

/-- The shape of the chains that `readFilesFromISO` builds: every segment but the last is a
directory. -/
def ancestorsAreDirs : List File → Bool
  | [] => true
  | [_] => true
  | d :: t :: rest => d.IsDir && ancestorsAreDirs (t :: rest)

/-- The directory paths described by the chains of a listing, one after the other. -/
def allDirPaths : List (List File) → List (List Str)
  | [] => []
  | c :: cs => chainDirPaths c ++ allDirPaths cs

/-- The file paths described by the chains of a listing, one after the other, a path as often as
it is described. -/
def allFilePaths : List (List File) → List (List Str)
  | [] => []
  | c :: cs => chainFilePaths c ++ allFilePaths cs

/-- No path is described as a file by one chain and as a directory by a chain. -/
def NoClash (chains : List (List File)) : Prop :=
  ∀ p ∈ allFilePaths chains, p ∉ allDirPaths chains

instance (chains : List (List File)) : Decidable (NoClash chains) := by
  unfold NoClash; infer_instance

/-- The chains that the loop of `readFilesFromISO` hands to `recurseFileAdd` for the lines of a
listing, in order, the path prefix being `pathPrefix` at the first line: a line that does not
match gives none, the line of the path `.` gives none and sets the prefix, every other line
gives the chain of its path after the removal of the prefix. -/
def listingChains (P : Platform) : Str → List Str → List (List File)
  | _, [] => []
  | pathPrefix, line :: rest =>
    match FindStringSubmatch (TrimSpace line) with
    | none => listingChains P pathPrefix rest
    | some m =>
      if m.path = ['.'] then listingChains P ['.', '\\'] rest
      else filePathParts P m ( TrimPrefix m.path pathPrefix) :: listingChains P pathPrefix rest

/-! ## Example data -/

/-- The directory line of the tests of the line pattern. -/
def bootLine : Str :=
  "2018-06-20 20:52:22 D....                            boot\\grub\\i386-efi".toList

/-- A line for the entry `.` of a TAR archive. -/
def dotLine : Str :=
  "2018-06-20 20:32:10 D....                            .".toList

/-- A directory line whose path is `.\.`: the prefix of a TAR archive followed by `.`. -/
def dotDotLine : Str :=
  "2018-06-20 20:32:10 D....                            .\\.".toList

/-- The summary line of the tests of the line pattern, which must not match. -/
def summaryLine : Str :=
  "2022-07-22 12:33:04         5916878426   5917296640  407 files, 91 folders".toList

/-- A listing of a TAR archive: the entry `.` and two entries below it. -/
def tarListing : List Str :=
  [dotLine,
   "2018-06-20 20:32:10 D....                            .\\dists".toList,
   "2018-06-20 20:32:10 .....          120          512  .\\dists\\Release".toList]

/-- The listing of the same two entries without the prefix. -/
def isoListing : List Str :=
  ["2018-06-20 20:32:10 D....                            dists".toList,
   "2018-06-20 20:32:10 .....          120          512  dists\\Release".toList]

/-- The file line of the tests of the line pattern with two different sizes. -/
def keyLine : Str :=
  "2022-07-22 12:33:04 .....         4766         6144  info@axxonsoft.com.gpg.key".toList

/-- A segment of a chain with the given flag and name, as in `Test_recurseFileAdd`. -/
def part (isDir : Bool) (name : String) : File :=
  File.mk Time.zero false isDir 0 [] [] name.toList

/-- An archive handle with the given tree. -/
def handle (tree : List File) : SevenZ := ⟨[], [], [], tree, [], []⟩

/-- A small tree: directories `boot` (holding the file `grub.cfg` and the directory `grub`) and
`astra`, and the files `b.txt` and `a.txt`, not in sorted order. -/
def sampleTree : List File :=
  [File.mk Time.zero false false 7 [] [] "b.txt".toList,
   File.mk Time.zero false true 0 []
     [File.mk Time.zero false false 12 [] [] "grub.cfg".toList,
      File.mk Time.zero false true 0 [] [] "grub".toList] "boot".toList,
   File.mk Time.zero false false 3 [] [] "a.txt".toList,
   File.mk Time.zero false true 0 [] [] "astra".toList]

/-- A repository tree: `dists` holds the directories `old` and `stable` and a file; `stable`
holds the file `Release` and the directory `main`; `old` holds a directory `main` only. -/
def repoTree : List File :=
  [File.mk Time.zero false true 0 [] [] "boot".toList,
   File.mk Time.zero false true 0 []
     [File.mk Time.zero false true 0 []
        [File.mk Time.zero false true 0 [] [] "main".toList] "old".toList,
      File.mk Time.zero false true 0 []
        [File.mk Time.zero false false 120 [] [] "Release".toList,
         File.mk Time.zero false true 0 [] [] "main".toList] "stable".toList,
      File.mk Time.zero false false 5 [] [] "README".toList] "dists".toList]

/-- An archive handle for `repoTree`. -/
def repoHandle : SevenZ :=
  ⟨"/srv/iso/astra.iso".toList, "22.1.0".toList, "/usr/bin/7z".toList, repoTree, [], []⟩

/-- A run of the program that writes a `Release` file with the components `main` and
`contrib` and exits with the status 0. -/
def repoExec : Exec := fun _ _ =>
  ⟨none, none, "Origin: Astra\nComponents: main contrib\nArchitectures: amd64".toList,
    "Origin: Astra\nComponents: main contrib\nArchitectures: amd64".toList⟩

/-- A run of the program that writes a `Release` file without a components line. -/
def bareExec : Exec := fun _ _ =>
  ⟨none, none, "Origin: Astra\nArchitectures: amd64".toList,
    "Origin: Astra\nArchitectures: amd64".toList⟩

/-- A run of the program that ends with the exit status 2 and has written a line break
only. -/
def blankFailure : Exec := fun _ _ => ⟨none, some "exit status 2".toList, [], "\n".toList⟩

/-- A run of the program that ends with the exit status 7 and has written a message. -/
def loudFailure : Exec := fun _ _ =>
  ⟨none, some "exit status 7".toList, [], "\nCommand Line Error:\nUnsupported command\n".toList⟩

/-- A tree whose only node is a directory named `a\b`, holding the file `c`. -/
def backslashTree : List File :=
  [File.mk Time.zero false true 0 [] [part false "c"] "a\\b".toList]

/-! # Properties -/

/-! ## The listing of a level -/

theorem readLevel_perm (srt : SortSlice) (lvl : List File) : (readLevel srt lvl).Perm lvl := by
  unfold readLevel
  refine ((srt.perm _).append (srt.perm _)).trans ?_
  have h := List.filter_append_perm (fun v : File => v.IsDir) lvl
  have e : (lvl.filter fun v => !v.IsDir) = lvl.filter (fun v => ¬ (v.IsDir = true)) := by
    congr 1; funext v; simp
  rw [e]
  simpa using h

theorem readLevel_sorted (srt : SortSlice) (lvl : List File) :
    SortedListing (readLevel srt lvl) lvl := by
  refine ⟨readLevel_perm srt lvl, srt.sort (lvl.filter fun v => v.IsDir),
    srt.sort (lvl.filter fun v => !v.IsDir), rfl, ?_, ?_, srt.sorted _, srt.sorted _⟩
  · intro d hd
    have := ((srt.perm _).mem_iff).1 hd
    simpa using (List.mem_filter.1 this).2
  · intro f hf
    have := ((srt.perm _).mem_iff).1 hf
    simpa using (List.mem_filter.1 this).2

theorem findEntry_some {name : Str} {lvl : List File} {v : File}
    (h : findEntry name lvl = some v) : v ∈ lvl ∧ v.Name = name := by
  induction lvl with
  | nil => simp [findEntry] at h
  | cons u us ih =>
    simp only [findEntry] at h
    split_ifs at h with hu
    · cases h; exact ⟨List.mem_cons_self _ _, hu⟩
    · exact ⟨List.mem_cons_of_mem _ (ih h).1, (ih h).2⟩

/-- C1: for every tree and every path that `ReadPath` resolves to a directory level `lvl` (the
tree itself for the root path, else the child list of the directory entry that the last segment
names), `ReadPath` returns no file, no error and a listing that is a permutation of `lvl` with
every directory before every file, the directory names in non-decreasing order and the file
names in non-decreasing order. -/
theorem C1_ReadPath_listing_sorted (srt : SortSlice) (m : SevenZ) (pathDirOrFile : Str)
    (lvl : List File) (h : resolve m pathDirOrFile = Resolved.level lvl) :
    (∃ l, ReadPath srt m pathDirOrFile = ⟨none, some l, none⟩ ∧ SortedListing l lvl) ∧
    ((pathItem pathDirOrFile = [] ∧ lvl = m.filesTree) ∨
      ∃ cur v, walkLevels (Split '/' (pathItem pathDirOrFile)).dropLast m.filesTree = some cur ∧
        v ∈ cur ∧ v.IsDir = true ∧ v.Name = pathBase (pathItem pathDirOrFile) ∧
        lvl = v.Children) := by
  refine ⟨⟨readLevel srt lvl, by simp [ReadPath, h], readLevel_sorted srt lvl⟩, ?_⟩
  unfold resolve at h
  simp only at h
  split at h
  · cases h
  · rename_i cur hcur
    split_ifs at h with hne
    · right
      split at h
      · cases h
      · rename_i v hv
        split_ifs at h with hd
        · cases h
          exact ⟨cur, v, hcur, (findEntry_some hv).1, hd, (findEntry_some hv).2, rfl⟩
    · left
      cases h
      have hp : pathItem pathDirOrFile = [] := by simpa using hne
      refine ⟨hp, ?_⟩
      rw [hp] at hcur
      simpa [Split, walkLevels] using hcur.symm

/-- A witness of C1: listing the directory `boot` of the sample tree. -/
theorem C1_ReadPath_listing_sorted_witness :
    resolve (handle sampleTree) "/boot/".toList = Resolved.level
      [File.mk Time.zero false false 12 [] [] "grub.cfg".toList,
       File.mk Time.zero false true 0 [] [] "grub".toList] ∧
    ∃ l, ReadPath insertionSort (handle sampleTree) "/boot/".toList = ⟨none, some l, none⟩ ∧
      SortedListing l [File.mk Time.zero false false 12 [] [] "grub.cfg".toList,
       File.mk Time.zero false true 0 [] [] "grub".toList] :=
  ⟨rfl, (C1_ReadPath_listing_sorted insertionSort (handle sampleTree) "/boot/".toList _ rfl).1⟩

/-- C6: for every tree `ReadPath("")` does not fail: it returns no file, no error and the
listing of the top level of the tree, which is a permutation of the top level, sorted and
directories first; for the empty tree the listing is empty. -/
theorem C6_ReadPath_root (srt : SortSlice) (m : SevenZ) :
    ReadPath srt m [] = ⟨none, some (readLevel srt m.filesTree), none⟩ ∧
    SortedListing (readLevel srt m.filesTree) m.filesTree ∧
    ReadPath srt { m with filesTree := [] } [] = ⟨none, some [], none⟩ := by
  have h : ReadPath srt m [] = ⟨none, some (readLevel srt m.filesTree), none⟩ := by
    simp [ReadPath, resolve, pathItem, TrimSpace, TrimPrefix, TrimSuffix, HasPrefix, Split,
      walkLevels]
  refine ⟨h, readLevel_sorted srt m.filesTree, ?_⟩
  have hp := readLevel_perm srt []
  simp [ReadPath, resolve, pathItem, TrimSpace, TrimPrefix, TrimSuffix, HasPrefix, Split,
    walkLevels, List.perm_nil.1 hp]

/-! ## The tree builder -/

@[simp] theorem File.Name_setChildren (v : File) (c : List File) :
    (v.setChildren c).Name = v.Name := by
  cases v; rfl

@[simp] theorem File.IsDir_setChildren (v : File) (c : List File) :
    (v.setChildren c).IsDir = v.IsDir := by
  cases v; rfl

@[simp] theorem File.Children_setChildren (v : File) (c : List File) :
    (v.setChildren c).Children = c := by
  cases v; rfl

theorem foundedIndex_none {name : Str} {tree : List File}
    (h : foundedIndex name tree = none) : ∀ u ∈ tree, u.Name ≠ name := by
  induction tree with
  | nil => simp
  | cons v vs ih =>
    simp only [foundedIndex] at h
    split_ifs at h with hv
    intro u hu
    rcases List.mem_cons.1 hu with rfl | hu
    · exact hv
    · exact ih (by simpa using h) u hu

theorem foundedIndex_some {name : Str} {tree : List File} {i : Nat}
    (h : foundedIndex name tree = some i) :
    ∃ pre v post, tree = pre ++ v :: post ∧ (∀ u ∈ pre, u.Name ≠ name) ∧ v.Name = name ∧
      childrenAt tree i = v.Children ∧
      ∀ c, setChildrenAt tree i c = pre ++ v.setChildren c :: post := by
  induction tree generalizing i with
  | nil => simp [foundedIndex] at h
  | cons w ws ih =>
    simp only [foundedIndex] at h
    split_ifs at h with hw
    · cases h
      exact ⟨[], w, ws, rfl, by simp, hw, rfl, fun c => rfl⟩
    · cases hj : foundedIndex name ws with
      | none => simp [hj] at h
      | some j =>
        simp [hj] at h
        subst h
        obtain ⟨pre, v, post, e, hpre, hv, hc, hs⟩ := ih hj
        refine ⟨w :: pre, v, post, by simp [e], ?_, hv, ?_, ?_⟩
        · intro u hu
          rcases List.mem_cons.1 hu with rfl | hu
          · exact hw
          · exact hpre u hu
        · simpa [childrenAt] using hc
        · intro c
          simp [setChildrenAt, hs c]

/-- The three ways in which `recurseFileAdd` treats the first remaining segment. -/
theorem recurseFileAddFrom_cons (part : File) (rest tree : List File) :
    (part.IsDir = false ∧ recurseFileAddFrom (part :: rest) tree = tree ++ [newFile part]) ∨
    (part.IsDir = true ∧ (∀ u ∈ tree, u.Name ≠ part.Name) ∧
      recurseFileAddFrom (part :: rest) tree =
        tree ++ [File.mk Time.zero false true 0 [] (recurseFileAddFrom rest []) part.Name]) ∨
    (part.IsDir = true ∧ ∃ pre v post, tree = pre ++ v :: post ∧
      (∀ u ∈ pre, u.Name ≠ part.Name) ∧ v.Name = part.Name ∧
      recurseFileAddFrom (part :: rest) tree =
        pre ++ v.setChildren (recurseFileAddFrom rest v.Children) :: post) := by
  cases hd : part.IsDir with
  | false => left; simp [recurseFileAddFrom, hd, newFile]
  | true =>
    right
    cases hi : foundedIndex part.Name tree with
    | none =>
      left
      exact ⟨rfl, foundedIndex_none hi, by simp [recurseFileAddFrom, hd, hi]⟩
    | some i =>
      right
      obtain ⟨pre, v, post, e, hpre, hv, hc, hs⟩ := foundedIndex_some hi
      refine ⟨rfl, pre, v, post, e, hpre, hv, ?_⟩
      simp only [recurseFileAddFrom, hd, hi, if_true]
      rw [hs, hc]

theorem findLevel_none {name : Str} {tree : List File} (h : ∀ u ∈ tree, u.Name ≠ name) :
    findLevel name tree = none := by
  induction tree with
  | nil => rfl
  | cons v vs ih =>
    simp only [findLevel]
    rw [if_neg (h v (List.mem_cons_self _ _))]
    exact ih fun u hu => h u (List.mem_cons_of_mem _ hu)

theorem findLevel_append {name : Str} {pre : List File} (v : File) (post : List File)
    (h : ∀ u ∈ pre, u.Name ≠ name) (hv : v.Name = name) :
    findLevel name (pre ++ v :: post) = some v.Children := by
  induction pre with
  | nil => simp [findLevel, hv]
  | cons w ws ih =>
    simp only [List.cons_append, findLevel]
    rw [if_neg (h w (List.mem_cons_self _ _))]
    exact ih fun u hu => h u (List.mem_cons_of_mem _ hu)

theorem walkLevels_nil_getD (names : List Str) : (walkLevels names []).getD [] = [] := by
  cases names <;> simp [walkLevels, findLevel]

/-- After a chain that starts with the directories `dirs` is inserted, the walk along the names
of `dirs` reaches the level into which the rest of the chain was inserted: the level the walk
reached before, or a fresh empty level when the walk failed before. -/
theorem walkLevels_recurseFileAddFrom (dirs rest : List File) (hd : ∀ d ∈ dirs, d.IsDir = true) :
    ∀ tree, walkLevels (dirs.map File.Name) (recurseFileAddFrom (dirs ++ rest) tree) =
      some (recurseFileAddFrom rest ((walkLevels (dirs.map File.Name) tree).getD [])) := by
  induction dirs with
  | nil => intro tree; simp [walkLevels]
  | cons d ds ih =>
    intro tree
    have hds : ∀ x ∈ ds, x.IsDir = true := fun x hx => hd x (List.mem_cons_of_mem _ hx)
    have hdd : d.IsDir = true := hd d (List.mem_cons_self _ _)
    rcases recurseFileAddFrom_cons d (ds ++ rest) tree with ⟨hf, _⟩ | ⟨_, hno, e⟩ |
      ⟨_, pre, v, post, et, hpre, hv, e⟩
    · rw [hdd] at hf; cases hf
    · rw [List.cons_append, e]
      simp only [List.map_cons, walkLevels]
      rw [findLevel_append (File.mk Time.zero false true 0 []
        (recurseFileAddFrom (ds ++ rest) []) d.Name) [] hno rfl, findLevel_none hno]
      simp only [File.Children]
      rw [ih hds [], walkLevels_nil_getD]
      rfl
    · rw [List.cons_append, e]
      simp only [List.map_cons, walkLevels]
      rw [findLevel_append _ post hpre (by simpa using hv), et, findLevel_append _ post hpre hv]
      simp only [File.Children_setChildren]
      exact ih hds v.Children

/-- C2 (the code at the input of the claim): inserting the chain `a`, `b`, file `c` into the
empty tree and then the chain `a`, `b`, directory `c` leaves a single node under `a/b`, the file
`c`: the search by name takes the file for the directory to reuse, and no directory `c` is
made. -/
theorem C2_recurseFileAdd_file_then_dir :
    recurseFileAdd [part true "a", part true "b", part true "c"] 0
      (recurseFileAdd [part true "a", part true "b", part false "c"] 0 []) =
    [File.mk Time.zero false true 0 []
      [File.mk Time.zero false true 0 []
        [File.mk Time.zero false false 0 [] [] "c".toList] "b".toList] "a".toList] := rfl

/-! ## Directory uniqueness -/

theorem dirNames_append (a b : List File) : dirNames (a ++ b) = dirNames a ++ dirNames b := by
  simp [dirNames]

theorem uniqueDirsList_append (a b : List File) :
    File.uniqueDirsList (a ++ b) = (File.uniqueDirsList a && File.uniqueDirsList b) := by
  induction a with
  | nil => simp [File.uniqueDirsList]
  | cons v vs ih => simp [File.uniqueDirsList, ih, Bool.and_assoc]

theorem uniqueDirs_eq (v : File) :
    File.uniqueDirs v = (decide (dirNames v.Children).Nodup && File.uniqueDirsList v.Children) := by
  cases v; simp [File.uniqueDirs, File.Children]

theorem uniqueDirs_iff (v : File) : File.uniqueDirs v = true ↔ UniqueDirs v.Children := by
  rw [uniqueDirs_eq]; simp [UniqueDirs]

theorem dirNames_setChildren (v : File) (c : List File) :
    dirNames [v.setChildren c] = dirNames [v] := by
  simp [dirNames, List.filter_cons]
  split_ifs <;> simp

theorem not_mem_dirNames {name : Str} {tree : List File} (h : ∀ u ∈ tree, u.Name ≠ name) :
    name ∉ dirNames tree := by
  intro hm
  simp only [dirNames, List.mem_map, List.mem_filter] at hm
  obtain ⟨u, ⟨hu, _⟩, hn⟩ := hm
  exact h u hu hn

/-- The tree builder keeps directory uniqueness, for every chain of segments. -/
theorem uniqueDirs_recurseFileAddFrom (parts : List File) :
    ∀ tree, UniqueDirs tree → UniqueDirs (recurseFileAddFrom parts tree) := by
  induction parts with
  | nil => intro tree h; simpa [recurseFileAddFrom] using h
  | cons d rest ih =>
    intro tree h
    rcases recurseFileAddFrom_cons d rest tree with ⟨_, e⟩ | ⟨_, hno, e⟩ |
      ⟨_, pre, v, post, et, _, _, e⟩
    · rw [e]
      refine ⟨?_, ?_⟩
      · rw [dirNames_append]
        simpa [dirNames, newFile, File.IsDir] using h.1
      · rw [uniqueDirsList_append, h.2]
        simp [File.uniqueDirsList, File.uniqueDirs, newFile, dirNames]
    · rw [e]
      have hnew := ih [] ⟨by simp [dirNames], rfl⟩
      refine ⟨?_, ?_⟩
      · rw [dirNames_append]
        have : dirNames [File.mk Time.zero false true 0 [] (recurseFileAddFrom rest []) d.Name]
            = [d.Name] := by simp [dirNames, File.IsDir, File.Name]
        rw [this]
        exact List.Nodup.append h.1 (List.nodup_singleton _)
          (by simpa using not_mem_dirNames hno)
      · rw [uniqueDirsList_append, h.2]
        simp only [File.uniqueDirsList, Bool.and_true, Bool.true_and]
        exact (uniqueDirs_iff _).2 (by simpa [File.Children] using hnew)
    · rw [e]
      subst et
      have hv : UniqueDirs v.Children := by
        have := h.2
        rw [uniqueDirsList_append] at this
        simp only [File.uniqueDirsList, Bool.and_eq_true] at this
        exact (uniqueDirs_iff v).1 this.2.1
      have hnew := ih v.Children hv
      refine ⟨?_, ?_⟩
      · have h1 := h.1
        rw [dirNames_append] at h1 ⊢
        have e1 : ∀ (w : File) (l : List File), dirNames (w :: l) = dirNames [w] ++ dirNames l :=
          fun w l => dirNames_append [w] l
        rw [e1] at h1 ⊢
        rw [dirNames_setChildren]
        exact h1
      · have h2 := h.2
        rw [uniqueDirsList_append] at h2 ⊢
        simp only [File.uniqueDirsList, Bool.and_eq_true] at h2 ⊢
        exact ⟨h2.1, (uniqueDirs_iff _).2 (by simpa using hnew), h2.2.2⟩

theorem uniqueDirs_readLine (P : Platform) (st : ParseState) (line : Str)
    (h : UniqueDirs st.result) : UniqueDirs (readLine P st line).result := by
  unfold readLine
  split
  · exact h
  · split_ifs
    · exact h
    · exact uniqueDirs_recurseFileAddFrom _ _ h

theorem uniqueDirs_foldl (P : Platform) (lines : List Str) :
    ∀ st : ParseState, UniqueDirs st.result →
      UniqueDirs (lines.foldl (readLine P) st).result := by
  induction lines with
  | nil => intro st h; exact h
  | cons l ls ih => intro st h; exact ih _ (uniqueDirs_readLine P st l h)

/-- C3: directory uniqueness is an invariant of tree building.  If in no child list of a tree
two directory nodes have the same name, the same holds after `recurseFileAdd` has inserted any
chain from any position; and `readFilesFromISO` returns, for every listing text, a tree in
which no child list holds two directory nodes of the same name. -/
theorem C3_directories_unique (pathParts : List File) (positionInPath : Nat)
    (pathTree : List File) (h : UniqueDirs pathTree) (P : Platform) (m : SevenZ) (output : Str) :
    UniqueDirs (recurseFileAdd pathParts positionInPath pathTree) ∧
    ∃ tree, (readFilesFromISO P m (Except.ok output)).2 = Except.ok tree ∧ UniqueDirs tree :=
  ⟨uniqueDirs_recurseFileAddFrom _ _ h,
    _, rfl, uniqueDirs_foldl P _ _ ⟨by simp [dirNames], rfl⟩⟩

/-- A witness of C3: the sample tree satisfies the invariant, and so does the tree after the
insertion of `boot/grub/x86` and the tree read from a listing of two lines. -/
theorem C3_directories_unique_witness :
    UniqueDirs sampleTree ∧
    UniqueDirs (recurseFileAdd [part true "boot", part true "grub", part true "x86"] 0
      sampleTree) ∧
    ∃ tree, (readFilesFromISO windows (handle [])
      (Except.ok "2018-06-20 20:32:10 D....    boot\n2018-06-20 20:32:10 D....    boot".toList)).2
        = Except.ok tree ∧ UniqueDirs tree :=
  ⟨by decide, C3_directories_unique _ 0 sampleTree (by decide) windows (handle []) _⟩

/-! ## File nodes are not deduplicated -/

theorem countFilesList_append (a b : List File) :
    File.countFilesList (a ++ b) = File.countFilesList a + File.countFilesList b := by
  induction a with
  | nil => simp [File.countFilesList]
  | cons v vs ih => simp [File.countFilesList, ih, Nat.add_assoc]

theorem countNodesList_append (a b : List File) :
    File.countNodesList (a ++ b) = File.countNodesList a + File.countNodesList b := by
  induction a with
  | nil => simp [File.countNodesList]
  | cons v vs ih => simp [File.countNodesList, ih, Nat.add_assoc]

theorem countFiles_setChildren (v : File) (c : List File) :
    File.countFiles (v.setChildren c) + File.countFilesList v.Children =
      File.countFiles v + File.countFilesList c := by
  cases v
  simp only [File.setChildren, File.countFiles, File.Children]
  omega

theorem countNodes_setChildren (v : File) (c : List File) :
    File.countNodes (v.setChildren c) + File.countNodesList v.Children =
      File.countNodes v + File.countNodesList c := by
  cases v
  simp only [File.setChildren, File.countNodes, File.Children]
  omega

/-- Inserting a chain of directories that ends in a file adds one file node to the tree. -/
theorem countFilesList_recurseFileAddFrom (dirs : List File) (file : File)
    (hd : ∀ d ∈ dirs, d.IsDir = true) (hf : file.IsDir = false) :
    ∀ tree, File.countFilesList (recurseFileAddFrom (dirs ++ [file]) tree) =
      File.countFilesList tree + 1 := by
  induction dirs with
  | nil =>
    intro tree
    rcases recurseFileAddFrom_cons file [] tree with ⟨_, e⟩ | ⟨h, _⟩ | ⟨h, _⟩
    · rw [List.nil_append, e, countFilesList_append]
      simp [File.countFilesList, File.countFiles, newFile]
    · rw [hf] at h; cases h
    · rw [hf] at h; cases h
  | cons d ds ih =>
    intro tree
    have hds : ∀ x ∈ ds, x.IsDir = true := fun x hx => hd x (List.mem_cons_of_mem _ hx)
    have hdd : d.IsDir = true := hd d (List.mem_cons_self _ _)
    rcases recurseFileAddFrom_cons d (ds ++ [file]) tree with ⟨h, _⟩ | ⟨_, _, e⟩ |
      ⟨_, pre, v, post, et, _, _, e⟩
    · rw [hdd] at h; cases h
    · rw [List.cons_append, e, countFilesList_append]
      have := ih hds []
      simp only [File.countFilesList, File.countFiles] at this ⊢
      simp [this]
    · rw [List.cons_append, e, et]
      have h1 := ih hds v.Children
      have h2 := countFiles_setChildren v (recurseFileAddFrom (ds ++ [file]) v.Children)
      simp only [countFilesList_append, File.countFilesList]
      omega

/-- When the walk along the directories of the chain succeeds, inserting the chain adds one
node to the tree (the file), so no directory is made. -/
theorem countNodesList_recurseFileAddFrom (dirs : List File) (file : File)
    (hd : ∀ d ∈ dirs, d.IsDir = true) (hf : file.IsDir = false) :
    ∀ tree lvl, walkLevels (dirs.map File.Name) tree = some lvl →
      File.countNodesList (recurseFileAddFrom (dirs ++ [file]) tree) =
        File.countNodesList tree + 1 := by
  induction dirs with
  | nil =>
    intro tree lvl _
    rcases recurseFileAddFrom_cons file [] tree with ⟨_, e⟩ | ⟨h, _⟩ | ⟨h, _⟩
    · rw [List.nil_append, e, countNodesList_append]
      simp [File.countNodesList, File.countNodes, newFile]
    · rw [hf] at h; cases h
    · rw [hf] at h; cases h
  | cons d ds ih =>
    intro tree lvl hw
    have hds : ∀ x ∈ ds, x.IsDir = true := fun x hx => hd x (List.mem_cons_of_mem _ hx)
    have hdd : d.IsDir = true := hd d (List.mem_cons_self _ _)
    rcases recurseFileAddFrom_cons d (ds ++ [file]) tree with ⟨h, _⟩ | ⟨_, hno, _⟩ |
      ⟨_, pre, v, post, et, hpre, hv, e⟩
    · rw [hdd] at h; cases h
    · simp [walkLevels, findLevel_none hno] at hw
    · rw [List.cons_append, e, et]
      rw [et] at hw
      simp only [List.map_cons, walkLevels, findLevel_append v post hpre hv] at hw
      have h1 := ih hds v.Children lvl hw
      have h2 := countNodes_setChildren v (recurseFileAddFrom (ds ++ [file]) v.Children)
      simp only [countNodesList_append, File.countNodesList]
      omega

/-- C4: file nodes are never deduplicated.  For every tree and every chain of directory
segments that ends in a file segment, the first insertion of the chain appends the file node to
the level that the walk along the directories reaches, and the second insertion of the same
chain appends a second file node with the same fields to that same level, next to the first;
the second insertion adds exactly one node to the tree, a file node. -/
theorem C4_files_not_deduplicated (dirs : List File) (file : File) (tree : List File)
    (hd : ∀ d ∈ dirs, d.IsDir = true) (hf : file.IsDir = false) :
    ∃ lvl,
      walkLevels (dirs.map File.Name) (recurseFileAdd (dirs ++ [file]) 0 tree)
        = some (lvl ++ [newFile file]) ∧
      walkLevels (dirs.map File.Name)
          (recurseFileAdd (dirs ++ [file]) 0 (recurseFileAdd (dirs ++ [file]) 0 tree))
        = some (lvl ++ [newFile file, newFile file]) ∧
      (newFile file).Name = file.Name ∧ (newFile file).IsDir = false ∧
      File.countFilesList
          (recurseFileAdd (dirs ++ [file]) 0 (recurseFileAdd (dirs ++ [file]) 0 tree))
        = File.countFilesList (recurseFileAdd (dirs ++ [file]) 0 tree) + 1 ∧
      File.countNodesList
          (recurseFileAdd (dirs ++ [file]) 0 (recurseFileAdd (dirs ++ [file]) 0 tree))
        = File.countNodesList (recurseFileAdd (dirs ++ [file]) 0 tree) + 1 := by
  have one : ∀ l, recurseFileAddFrom [file] l = l ++ [newFile file] := by
    intro l
    rcases recurseFileAddFrom_cons file [] l with ⟨_, e⟩ | ⟨h, _⟩ | ⟨h, _⟩
    · exact e
    · rw [hf] at h; cases h
    · rw [hf] at h; cases h
  have w1 := walkLevels_recurseFileAddFrom dirs [file] hd tree
  have w2 := walkLevels_recurseFileAddFrom dirs [file] hd (recurseFileAddFrom (dirs ++ [file]) tree)
  rw [w1] at w2
  simp only [one, Option.getD_some] at w1 w2
  refine ⟨(walkLevels (dirs.map File.Name) tree).getD [], ?_, ?_, rfl, rfl, ?_, ?_⟩
  · simpa [recurseFileAdd] using w1
  · simpa [recurseFileAdd] using w2
  · simpa [recurseFileAdd] using countFilesList_recurseFileAddFrom dirs file hd hf _
  · simpa [recurseFileAdd] using countNodesList_recurseFileAddFrom dirs file hd hf _ _ w1

/-- A witness of C4: the file `boot/grub/fdt.lst` inserted twice into the sample tree. -/
theorem C4_files_not_deduplicated_witness :
    (∀ d ∈ [part true "boot", part true "grub"], d.IsDir = true) ∧
    (part false "fdt.lst").IsDir = false ∧
    ∃ lvl,
      walkLevels (["boot".toList, "grub".toList])
          (recurseFileAdd ([part true "boot", part true "grub"] ++ [part false "fdt.lst"]) 0
            sampleTree)
        = some (lvl ++ [newFile (part false "fdt.lst")]) ∧
      walkLevels (["boot".toList, "grub".toList])
          (recurseFileAdd ([part true "boot", part true "grub"] ++ [part false "fdt.lst"]) 0
            (recurseFileAdd ([part true "boot", part true "grub"] ++ [part false "fdt.lst"]) 0
              sampleTree))
        = some (lvl ++ [newFile (part false "fdt.lst"), newFile (part false "fdt.lst")]) :=
  ⟨by decide, rfl,
    (C4_files_not_deduplicated [part true "boot", part true "grub"] (part false "fdt.lst")
      sampleTree (by decide) rfl).imp fun _ h => ⟨h.1, h.2.1⟩⟩

/-! ## The path resolver -/

theorem findEntry_append {name : Str} {pre : List File} (v : File) (post : List File)
    (h : ∀ u ∈ pre, u.Name ≠ name) (hv : v.Name = name) :
    findEntry name (pre ++ v :: post) = some v := by
  induction pre with
  | nil => simp [findEntry, hv]
  | cons w ws ih =>
    simp only [List.cons_append, findEntry]
    rw [if_neg (h w (List.mem_cons_self _ _))]
    exact ih fun u hu => h u (List.mem_cons_of_mem _ hu)

theorem findEntry_none {name : Str} {lvl : List File} (h : ∀ u ∈ lvl, u.Name ≠ name) :
    findEntry name lvl = none := by
  induction lvl with
  | nil => rfl
  | cons v vs ih =>
    simp only [findEntry]
    rw [if_neg (h v (List.mem_cons_self _ _))]
    exact ih fun u hu => h u (List.mem_cons_of_mem _ hu)

theorem walkLevels_append (a b : List Str) :
    ∀ tree, walkLevels (a ++ b) tree = (walkLevels a tree).bind (walkLevels b) := by
  induction a with
  | nil => intro tree; simp [walkLevels]
  | cons x xs ih =>
    intro tree
    simp only [List.cons_append, walkLevels]
    cases findLevel x tree with
    | none => rfl
    | some c => exact ih c

/-- C5: for every tree and every path that is not the root, if the walk over all segments but
the last reaches the level `lvl`, and the first child of `lvl` whose name equals the last segment
is the node `v`, and `v` is a file, then `ReadPath` returns no error, the node `v` itself (so its
name and size are those of the node in the tree) and an empty listing. -/
theorem C5_ReadPath_file (srt : SortSlice) (m : SevenZ) (pathDirOrFile : Str)
    (lvl pre : List File) (v : File) (post : List File)
    (hne : pathItem pathDirOrFile ≠ [])
    (hw : walkLevels (Split '/' (pathItem pathDirOrFile)).dropLast m.filesTree = some lvl)
    (hl : lvl = pre ++ v :: post)
    (hpre : ∀ u ∈ pre, u.Name ≠ pathBase (pathItem pathDirOrFile))
    (hv : v.Name = pathBase (pathItem pathDirOrFile))
    (hf : v.IsDir = false) :
    ReadPath srt m pathDirOrFile = ⟨some v, some [], none⟩ := by
  subst hl
  simp [ReadPath, resolve, hw, hne, findEntry_append v post hpre hv, hf]

/-- A witness of C5: the file `boot/grub.cfg` of the sample tree, of size 12. -/
theorem C5_ReadPath_file_witness :
    pathItem "boot/grub.cfg".toList ≠ [] ∧
    ReadPath insertionSort (handle sampleTree) "boot/grub.cfg".toList =
      ⟨some (File.mk Time.zero false false 12 [] [] "grub.cfg".toList), some [], none⟩ :=
  ⟨by decide,
    C5_ReadPath_file insertionSort (handle sampleTree) "boot/grub.cfg".toList
      [File.mk Time.zero false false 12 [] [] "grub.cfg".toList,
       File.mk Time.zero false true 0 [] [] "grub".toList] []
      (File.mk Time.zero false false 12 [] [] "grub.cfg".toList)
      [File.mk Time.zero false true 0 [] [] "grub".toList]
      (by decide) rfl rfl (by simp) rfl rfl⟩

/-- C7 (the code at a failing input): the listing of the file `a` followed by the file `a\b`
gives a tree in which the file node `a` has the child `b`, and on that tree `ReadPath("a/b")`
walks through the file `a` and returns the file `b` without an error: the walk over the
directories of a path compares names only and does not ask for a directory. -/
theorem C7_ReadPath_through_file (srt : SortSlice) :
    (readLines windows ⟨[], []⟩
      ("2018-06-20 20:32:10 .....  1  1  a\n".toList ++
       "2018-06-20 20:32:10 .....  2  2  a\\b".toList)).result =
      [File.mk Time.zero false false 1 []
        [File.mk Time.zero false false 2 [] [] "b".toList] "a".toList] ∧
    ReadPath srt (handle [File.mk Time.zero false false 1 []
        [File.mk Time.zero false false 2 [] [] "b".toList] "a".toList]) "a/b".toList =
      ⟨some (File.mk Time.zero false false 2 [] [] "b".toList), some [], none⟩ :=
  ⟨rfl, rfl⟩

/-- C8: for every tree and every path that is not the root, if on the walk some segment
(a directory of the path or its last segment) has no child of exactly that name at the level
reached so far, `ReadPath` returns an error, no file and no listing.  The segments are those
that `ReadPath` looks up, `segments`. -/
theorem C8_ReadPath_not_found (srt : SortSlice) (m : SevenZ) (pathDirOrFile : Str)
    (pre : List Str) (s : Str) (post : List Str) (lvl : List File)
    (hne : pathItem pathDirOrFile ≠ [])
    (hseg : segments pathDirOrFile = pre ++ s :: post)
    (hw : walkLevels pre m.filesTree = some lvl)
    (hmiss : ∀ v ∈ lvl, v.Name ≠ s) :
    ∃ err, ReadPath srt m pathDirOrFile = ⟨none, none, some err⟩ := by
  unfold segments at hseg
  rcases List.eq_nil_or_concat post with rfl | ⟨post2, x, rfl⟩
  · have h := List.append_inj' hseg rfl
    have h2 : pathBase (pathItem pathDirOrFile) = s := by simpa using h.2
    simp [ReadPath, resolve, h.1, hw, hne, findEntry_none (h2 ▸ hmiss)]
  · have e : pre ++ s :: (post2 ++ [x]) = (pre ++ s :: post2) ++ [x] := by simp
    rw [List.concat_eq_append] at hseg
    rw [e] at hseg
    have h := List.append_inj' hseg rfl
    have hnone : walkLevels (Split '/' (pathItem pathDirOrFile)).dropLast m.filesTree
        = none := by
      rw [h.1, walkLevels_append, hw]
      simp [walkLevels, findLevel_none hmiss]
    simp [ReadPath, resolve, hnone]

/-- A witness of C8: in the sample tree `boot` has no child `efi`, so `boot/efi/x` is not
found. -/
theorem C8_ReadPath_not_found_witness :
    pathItem "boot/efi/x".toList ≠ [] ∧
    segments "boot/efi/x".toList = ["boot".toList] ++ "efi".toList :: ["x".toList] ∧
    ∃ err, ReadPath insertionSort (handle sampleTree) "boot/efi/x".toList
      = ⟨none, none, some err⟩ :=
  ⟨by decide, by decide,
    C8_ReadPath_not_found insertionSort (handle sampleTree) "boot/efi/x".toList
      ["boot".toList] "efi".toList ["x".toList]
      [File.mk Time.zero false false 12 [] [] "grub.cfg".toList,
       File.mk Time.zero false true 0 [] [] "grub".toList]
      (by decide) (by decide) rfl (by decide)⟩

/-- On a tree in which the node that a directory segment of the path names has no children (as
a file node should), the walk fails: `ReadPath` returns an error, no file and no listing. -/
theorem ReadPath_through_leaf (srt : SortSlice) (m : SevenZ) (pathDirOrFile : Str)
    (pre : List Str) (s : Str) (post : List Str) (lvl : List File)
    (hseg : (Split '/' (pathItem pathDirOrFile)).dropLast = pre ++ s :: post)
    (hw : walkLevels pre m.filesTree = some lvl)
    (hleaf : findLevel s lvl = some []) :
    ∃ err, ReadPath srt m pathDirOrFile = ⟨none, none, some err⟩ := by
  have hne : pathItem pathDirOrFile ≠ [] := by
    intro h
    rw [h] at hseg
    simp [Split] at hseg
  have h1 : walkLevels (pre ++ s :: post) m.filesTree = walkLevels post [] := by
    rw [walkLevels_append, hw]
    simp [walkLevels, hleaf]
  cases post with
  | nil =>
    simp [ReadPath, resolve, hseg, h1, walkLevels, hne, findEntry]
  | cons x xs =>
    simp [ReadPath, resolve, hseg, h1, walkLevels, findLevel]

/-! ## The listing parser -/

theorem Split_of_not_mem (sep : Char) (s : Str) (h : sep ∉ s) : Split sep s = [s] := by
  induction s with
  | nil => rfl
  | cons c cs ih =>
    have hc : c ≠ sep := fun e => h (e ▸ List.mem_cons_self _ _)
    have hcs : sep ∉ cs := fun e => h (List.mem_cons_of_mem _ e)
    simp [Split, hc, ih hcs]

theorem Split_append (sep : Char) (s r : Str) (h : sep ∉ s) :
    Split sep (s ++ sep :: r) = s :: Split sep r := by
  induction s with
  | nil => simp [Split]
  | cons c cs ih =>
    have hc : c ≠ sep := fun e => h (e ▸ List.mem_cons_self _ _)
    have hcs : sep ∉ cs := fun e => h (List.mem_cons_of_mem _ e)
    simp [Split, hc, ih hcs]

theorem Split_joinSep (sep : Char) (segs : List Str) (hne : segs ≠ [])
    (h : ∀ s ∈ segs, sep ∉ s) : Split sep (joinSep sep segs) = segs := by
  induction segs with
  | nil => exact absurd rfl hne
  | cons s rest ih =>
    cases rest with
    | nil => simpa [joinSep] using Split_of_not_mem sep s (h s (List.mem_cons_self _ _))
    | cons t r =>
      simp only [joinSep]
      rw [Split_append sep s _ (h s (List.mem_cons_self _ _)),
        ih (by simp) fun x hx => h x (List.mem_cons_of_mem _ hx)]

theorem joinSep_concat (sep : Char) (init : List Str) (last : Str) (hne : init ≠ []) :
    joinSep sep (init ++ [last]) = joinSep sep init ++ sep :: last := by
  induction init with
  | nil => exact absurd rfl hne
  | cons s rest ih =>
    cases rest with
    | nil => simp [joinSep]
    | cons t r =>
      have := ih (by simp)
      simp only [List.cons_append] at this
      show s ++ sep :: joinSep sep (t :: (r ++ [last])) =
        (s ++ sep :: joinSep sep (t :: r)) ++ sep :: last
      rw [this]
      simp

theorem ReplaceAll_joinSep (old new : Char) (segs : List Str) (h : ∀ s ∈ segs, old ∉ s) :
    ReplaceAll (joinSep old segs) old new = joinSep new segs := by
  have one : ∀ s : Str, old ∉ s → ReplaceAll s old new = s := by
    intro s hs
    induction s with
    | nil => rfl
    | cons c cs ih =>
      have hc : c ≠ old := fun e => hs (e ▸ List.mem_cons_self _ _)
      have hcs : old ∉ cs := fun e => hs (List.mem_cons_of_mem _ e)
      have := ih hcs
      simp only [ReplaceAll] at this ⊢
      simp [hc, this]
  induction segs with
  | nil => rfl
  | cons s rest ih =>
    cases rest with
    | nil => simpa [joinSep] using one s (h s (List.mem_cons_self _ _))
    | cons t r =>
      have h1 := one s (h s (List.mem_cons_self _ _))
      have h2 := ih fun x hx => h x (List.mem_cons_of_mem _ hx)
      simp only [ReplaceAll, joinSep, List.map_append, List.map_cons] at h1 h2 ⊢
      rw [h1, h2]
      simp

theorem joinSep_head (sep c : Char) (cs : Str) (rest : List Str) :
    ∃ t, joinSep sep ((c :: cs) :: rest) = c :: t := by
  cases rest with
  | nil => exact ⟨cs, rfl⟩
  | cons t r => exact ⟨_, rfl⟩

theorem joinSep_reverse (sep : Char) (init : List Str) (last : Str) :
    ∃ X, (joinSep sep (init ++ [last])).reverse = last.reverse ++ X ∧
      (X = [] ∨ ∃ r, X = sep :: r) := by
  cases init with
  | nil => exact ⟨[], by simp [joinSep], Or.inl rfl⟩
  | cons s rest =>
    rw [joinSep_concat sep (s :: rest) last (by simp)]
    exact ⟨sep :: (joinSep sep (s :: rest)).reverse, by simp, Or.inr ⟨_, rfl⟩⟩

theorem takeWhile_append_stop (p : Char → Bool) (a X : Str) (ha : ∀ c ∈ a, p c = true)
    (hX : X = [] ∨ ∃ x r, X = x :: r ∧ p x = false) : (a ++ X).takeWhile p = a := by
  induction a with
  | nil =>
    rcases hX with rfl | ⟨x, r, rfl, hx⟩
    · rfl
    · simp [List.takeWhile, hx]
  | cons c cs ih =>
    rw [List.cons_append, List.takeWhile_cons]
    simp [ha c (List.mem_cons_self _ _), ih fun x hx => ha x (List.mem_cons_of_mem _ hx)]

/-- The base name of a path whose last segment is not empty and holds no separator, when the
path has no volume name: that last segment. -/
theorem baseWith_joinSep (isSep : Char → Bool) (sepc : Char) (vol : Str → Nat) (sep : Char)
    (init : List Str) (last : Str) (hsep : isSep sep = true) (hne : last ≠ [])
    (hlast : ∀ c ∈ last, isSep c = false) (hvol : vol (joinSep sep (init ++ [last])) = 0) :
    baseWith isSep sepc vol (joinSep sep (init ++ [last])) = last := by
  obtain ⟨X, hr, hX⟩ := joinSep_reverse sep init last
  obtain ⟨c, l, hl⟩ : ∃ c l, last.reverse = c :: l := by
    cases h : last.reverse with
    | nil => exact absurd (List.reverse_eq_nil_iff.1 h) hne
    | cons c l => exact ⟨c, l, rfl⟩
  have hc : isSep c = false := hlast c (by
    have : c ∈ last.reverse := by rw [hl]; exact List.mem_cons_self _ _
    simpa using this)
  have hpath : joinSep sep (init ++ [last]) ≠ [] := by
    intro h
    rw [h] at hr
    simp [hl] at hr
  have hstrip : ((joinSep sep (init ++ [last])).reverse.dropWhile isSep).reverse
      = joinSep sep (init ++ [last]) := by
    have e : (last.reverse ++ X).dropWhile isSep = last.reverse ++ X := by
      rw [hl, List.cons_append, List.dropWhile_cons]
      simp [hc]
    rw [hr, e, ← hr, List.reverse_reverse]
  have htake : (joinSep sep (init ++ [last])).reverse.takeWhile (fun c => !isSep c)
      = last.reverse := by
    rw [hr]
    refine takeWhile_append_stop _ _ _ ?_ ?_
    · intro x hx
      simp [hlast x (by simpa using hx)]
    · rcases hX with h | ⟨r, h⟩
      · exact Or.inl h
      · exact Or.inr ⟨sep, r, h, by simp [hsep]⟩
  unfold baseWith
  simp only [hstrip, hvol, List.drop_zero, htake, List.reverse_reverse, if_neg hpath, if_neg hne]

theorem HasPrefix_singleton (c x : Char) (t : Str) (h : c ≠ x) : HasPrefix (c :: t) [x] = false := by
  simp [HasPrefix, h]

/-- The normalisation of the path in `readFilesFromISO` leaves a path unchanged whose segments
are not empty and hold no slash. -/
theorem trim_joinSep (init : List Str) (last : Str)
    (h : ∀ s ∈ init ++ [last], s ≠ [] ∧ '/' ∉ s) :
    TrimSuffix ( TrimPrefix (joinSep '/' (init ++ [last])) ['/']) ['/']
      = joinSep '/' (init ++ [last]) := by
  have h1 : TrimPrefix (joinSep '/' (init ++ [last])) ['/'] = joinSep '/' (init ++ [last]) := by
    cases hs : init ++ [last] with
    | nil => simp at hs
    | cons f rest =>
      have hf := h f (by rw [hs]; exact List.mem_cons_self _ _)
      cases f with
      | nil => exact absurd rfl hf.1
      | cons c cs =>
        obtain ⟨t, ht⟩ := joinSep_head '/' c cs rest
        have hc : c ≠ '/' := fun e => hf.2 (e ▸ List.mem_cons_self _ _)
        rw [ht]
        simp [TrimPrefix, HasPrefix_singleton c '/' t hc]
  rw [h1]
  obtain ⟨X, hr, _⟩ := joinSep_reverse '/' init last
  have hl := h last (by simp)
  obtain ⟨c, l, hcl⟩ : ∃ c l, last.reverse = c :: l := by
    cases hx : last.reverse with
    | nil => exact absurd (List.reverse_eq_nil_iff.1 hx) hl.1
    | cons c l => exact ⟨c, l, rfl⟩
  have hc : c ≠ '/' := by
    intro e
    apply hl.2
    have : c ∈ last.reverse := by rw [hcl]; exact List.mem_cons_self _ _
    simpa [e] using this
  have e : TrimPrefix (last.reverse ++ X) ['/'].reverse = last.reverse ++ X := by
    rw [hcl, List.cons_append]
    simp [TrimPrefix, HasPrefix_singleton c '/' _ hc]
  unfold TrimSuffix
  rw [hr, e, ← hr, List.reverse_reverse]

theorem map_Name_dirPart (names : List Str) : (names.map dirPart).map File.Name = names := by
  induction names with
  | nil => rfl
  | cons n ns ih => simp [dirPart, File.Name] at ih ⊢; exact ih

theorem dirPart_IsDir (names : List Str) : ∀ d ∈ names.map dirPart, d.IsDir = true := by
  intro d hd
  obtain ⟨n, _, rfl⟩ := List.mem_map.1 hd
  rfl

/-- After the insertion of a single segment, the level holds a node with the name of that
segment. -/
theorem exists_named_recurseFileAddFrom (t : File) (lvl : List File) :
    ∃ v ∈ recurseFileAddFrom [t] lvl, v.Name = t.Name := by
  rcases recurseFileAddFrom_cons t [] lvl with ⟨_, e⟩ | ⟨_, _, e⟩ | ⟨_, pre, v, post, _, _, hv, e⟩
  · exact ⟨newFile t, by rw [e]; simp, rfl⟩
  · exact ⟨File.mk Time.zero false true 0 [] (recurseFileAddFrom [] []) t.Name,
      by rw [e]; simp, rfl⟩
  · exact ⟨v.setChildren (recurseFileAddFrom [] v.Children), by rw [e]; simp,
      by simpa using hv⟩

/-- C10, as amended: for every line that matches the line shape, is not the marker line and
describes a file (its flag is not `D`), the file node that `readFilesFromISO` inserts has for
`Size` the value `cast.ToInt` of the first of the two numeric size fields, the one that follows
the attributes (`4766` for the line with the sizes 4766 and 6144): it is appended, with that
size and the base name of the path, to the level that the walk along the directories of the path
reaches. -/
theorem C10_file_size_first_field (P : Platform) (st : ParseState) (line : Str) (m : Match)
    (hm : FindStringSubmatch (TrimSpace line) = some m)
    (hdot : m.path ≠ ['.'])
    (hfile : m.flag ≠ ['D']) :
    ∃ dirs lvl, walkLevels dirs (readLine P st line).result =
      some (lvl ++ [File.mk Time.zero false false (castToInt m.size1) [] []
        (filepathBase P (TrimPrefix m.path st.pathPrefix))]) := by
  have e : ∃ names : List Str, (readLine P st line).result =
      recurseFileAddFrom (names.map dirPart ++
        [File.mk ((timeParse (m.date ++ [' '] ++ m.time)).getD Time.zero) false false
          (castToInt m.size1) [] [] (filepathBase P (TrimPrefix m.path st.pathPrefix))])
        st.result := by
    refine ⟨(Split '/' (TrimSuffix ( TrimPrefix
      (ReplaceAll (TrimPrefix m.path st.pathPrefix) '\\' '/') ['/']) ['/'])).dropLast, ?_⟩
    unfold readLine
    simp only [hm, if_neg hdot, recurseFileAdd, List.drop_zero, filePathParts,
      decide_eq_false hfile]
    rfl
  obtain ⟨names, e⟩ := e
  have w := walkLevels_recurseFileAddFrom (names.map dirPart)
    [File.mk ((timeParse (m.date ++ [' '] ++ m.time)).getD Time.zero) false false
      (castToInt m.size1) [] [] (filepathBase P (TrimPrefix m.path st.pathPrefix))]
    (dirPart_IsDir names) st.result
  rw [map_Name_dirPart] at w
  refine ⟨names, (walkLevels names st.result).getD [], ?_⟩
  rw [e, w]
  simp [recurseFileAddFrom, File.IsDir, File.Size, File.FilePath, File.Name]

/-- A witness of C10: the line with the sizes 4766 and 6144 gives a file node of size 4766. -/
theorem C10_file_size_first_field_witness :
    FindStringSubmatch (TrimSpace keyLine) =
      some ⟨"2022-07-22".toList, "12:33:04".toList, ".".toList, "4766".toList, "6144".toList,
        "info@axxonsoft.com.gpg.key".toList⟩ ∧
    castToInt "4766".toList = 4766 ∧
    ∃ dirs lvl, walkLevels dirs (readLine windows ⟨[], []⟩ keyLine).result =
      some (lvl ++ [File.mk Time.zero false false (castToInt "4766".toList) [] []
        (filepathBase windows (TrimPrefix "info@axxonsoft.com.gpg.key".toList []))]) :=
  ⟨rfl, rfl,
    C10_file_size_first_field windows ⟨[], []⟩ keyLine
      ⟨"2022-07-22".toList, "12:33:04".toList, ".".toList, "4766".toList, "6144".toList,
        "info@axxonsoft.com.gpg.key".toList⟩ rfl (by decide) (by decide)⟩

/-- C10 (counterexample): for the line with the sizes 4766 and 6144 the file node in the tree
has the size 4766, the first of the two fields, and not 6144, on both builds. -/
theorem C10_size_is_not_second_field :
    (FindStringSubmatch (TrimSpace keyLine)).map (fun m => (m.size1, m.size2)) =
      some ("4766".toList, "6144".toList) ∧
    (readFilesFromISO windows (handle []) (Except.ok keyLine)).2 =
      Except.ok [File.mk Time.zero false false 4766 [] [] "info@axxonsoft.com.gpg.key".toList] ∧
    (readFilesFromISO linux (handle []) (Except.ok keyLine)).2 =
      Except.ok [File.mk Time.zero false false 4766 [] [] "info@axxonsoft.com.gpg.key".toList] ∧
    (File.mk Time.zero false false 4766 [] [] "info@axxonsoft.com.gpg.key".toList).Size ≠
      castToInt "6144".toList :=
  ⟨rfl, rfl, rfl, by decide⟩

/-! ## The segments of a path -/

theorem Split_ne_nil (sep : Char) (s : Str) : Split sep s ≠ [] := by
  cases s with
  | nil => simp [Split]
  | cons c cs =>
    simp only [Split]
    split_ifs
    · simp
    · split <;> simp

theorem joinSep_cons_cons (sep c : Char) (p : Str) (ps : List Str) :
    joinSep sep ((c :: p) :: ps) = c :: joinSep sep (p :: ps) := by
  cases ps <;> rfl

theorem joinSep_Split (sep : Char) (s : Str) : joinSep sep (Split sep s) = s := by
  induction s with
  | nil => rfl
  | cons c cs ih =>
    simp only [Split]
    split_ifs with h
    · cases hs : Split sep cs with
      | nil => exact absurd hs (Split_ne_nil sep cs)
      | cons p ps =>
        rw [hs] at ih
        simp [joinSep, ih, h]
    · cases hs : Split sep cs with
      | nil => exact absurd hs (Split_ne_nil sep cs)
      | cons p ps =>
        rw [hs] at ih
        simp only [joinSep_cons_cons, ih]

theorem not_mem_of_mem_Split (sep : Char) (s : Str) : ∀ x ∈ Split sep s, sep ∉ x := by
  induction s with
  | nil => simp [Split]
  | cons c cs ih =>
    simp only [Split]
    split_ifs with h
    · intro x hx
      rcases List.mem_cons.1 hx with rfl | hx
      · simp
      · exact ih x hx
    · cases hs : Split sep cs with
      | nil => exact absurd hs (Split_ne_nil sep cs)
      | cons p ps =>
        rw [hs] at ih
        intro x hx
        rcases List.mem_cons.1 hx with rfl | hx
        · intro hm
          rcases List.mem_cons.1 hm with e | hm
          · exact h e.symm
          · exact ih p (List.mem_cons_self _ _) hm
        · exact ih x (List.mem_cons_of_mem _ hx)

/-- The segments that `ReadPath` looks up are the pieces of the normalised path between its
slashes whenever the last piece is not empty, that is, unless the path is the root or its
normalised form still ends in a slash. -/
theorem segments_eq_Split (pathDirOrFile : Str) (init : List Str) (last : Str)
    (h : Split '/' (pathItem pathDirOrFile) = init ++ [last]) (hne : last ≠ []) :
    segments pathDirOrFile = Split '/' (pathItem pathDirOrFile) := by
  have hj := joinSep_Split '/' (pathItem pathDirOrFile)
  rw [h] at hj
  have hl : ∀ c ∈ last, (fun c : Char => decide (c = '/')) c = false := by
    intro c hc
    have := not_mem_of_mem_Split '/' (pathItem pathDirOrFile) last (by rw [h]; simp)
    have hc2 : c ≠ '/' := fun e => this (e ▸ hc)
    simp [hc2]
  have hb := baseWith_joinSep (fun c => decide (c = '/')) '/' (fun _ => 0) '/' init last
    (by simp) hne hl rfl
  unfold segments pathBase
  rw [← hj, hb, hj, h]
  simp

/-! ## The repository detector -/

theorem findDir_none {name : Str} {l : List File}
    (h : ∀ v ∈ l, ¬ (v.Name = name ∧ v.IsDir = true)) : findDir name l = none := by
  induction l with
  | nil => rfl
  | cons v vs ih =>
    simp only [findDir]
    rw [if_neg (h v (List.mem_cons_self _ _))]
    exact ih fun u hu => h u (List.mem_cons_of_mem _ hu)

theorem findDir_append {name : Str} {pre : List File} (v : File) (post : List File)
    (h : ∀ u ∈ pre, ¬ (u.Name = name ∧ u.IsDir = true)) (hv : v.Name = name)
    (hd : v.IsDir = true) : findDir name (pre ++ v :: post) = some v.Children := by
  induction pre with
  | nil => simp [findDir, hv, hd]
  | cons w ws ih =>
    simp only [List.cons_append, findDir]
    rw [if_neg (h w (List.mem_cons_self _ _))]
    exact ih fun u hu => h u (List.mem_cons_of_mem _ hu)

/-- The call `readDir("dists")` looks for a directory named `dists` at the top of the tree. -/
theorem readDir_distPath (m : SevenZ) :
    readDir m distPath =
      match findDir distPath m.filesTree with
      | none => Except.error Error.ErrNotExist
      | some children => Except.ok children := by
  have e : Split '/' (TrimLeft (TrimSpace (ReplaceAll distPath '\\' '/')) '/') = [distPath] := by
    decide
  show (match walkDirs (Split '/' (TrimLeft (TrimSpace (ReplaceAll distPath '\\' '/')) '/'))
      m.filesTree with
    | none => Except.error Error.ErrNotExist
    | some currentFolder => Except.ok currentFolder) = _
  rw [e]
  simp only [walkDirs]
  cases findDir distPath m.filesTree <;> rfl

theorem distributeName_foldl_files (post : List File) (h : ∀ v ∈ post, v.IsDir = false)
    (name : Str) :
    post.foldl (fun name v => if v.IsDir then v.Name else name) name = name := by
  induction post generalizing name with
  | nil => rfl
  | cons v vs ih =>
    simp only [List.foldl_cons, h v (List.mem_cons_self _ _)]
    exact ih (fun u hu => h u (List.mem_cons_of_mem _ hu)) name

/-- The distribution name is the name of the last directory of the list. -/
theorem distributeName_last (pre : List File) (X : File) (post : List File)
    (hX : X.IsDir = true) (hpost : ∀ v ∈ post, v.IsDir = false) :
    distributeName (pre ++ X :: post) = X.Name := by
  unfold distributeName
  rw [List.foldl_append, List.foldl_cons]
  simp only [hX, if_true]
  exact distributeName_foldl_files post hpost X.Name

theorem releaseName_none {sub : List File}
    (h : ∀ v ∈ sub, ¬ (v.Name = "Release".toList ∧ v.IsDir = false)) : releaseName sub = [] := by
  induction sub with
  | nil => rfl
  | cons v vs ih =>
    simp only [releaseName]
    rw [if_neg (h v (List.mem_cons_self _ _))]
    exact ih fun u hu => h u (List.mem_cons_of_mem _ hu)

theorem releaseName_some {sub : List File}
    (h : ∃ v ∈ sub, v.Name = "Release".toList ∧ v.IsDir = false) :
    releaseName sub = "Release".toList := by
  induction sub with
  | nil => simp at h
  | cons v vs ih =>
    simp only [releaseName]
    split_ifs with hv
    · exact hv.1
    · obtain ⟨u, hu, hn⟩ := h
      rcases List.mem_cons.1 hu with rfl | hu
      · exact absurd hn hv
      · exact ih ⟨u, hu, hn⟩

/-- C11: `createSourceString` returns the empty descriptor and exactly the error `ErrIsNotRepo`
for every tree in which a marker of a repository is absent: the top level holds no directory
named `dists`; or `dists` holds no directory; or the directory `dists/<distribution>`, for the
distribution that is chosen, holds no file named `Release`.  The program that extracts files is
not consulted. -/
theorem C11_not_a_repository (P : Platform) (m : SevenZ) (exec : Exec)
    (h : (∀ v ∈ m.filesTree, ¬ (v.Name = distPath ∧ v.IsDir = true)) ∨
      (∃ inDist, readDir m distPath = Except.ok inDist ∧ ∀ v ∈ inDist, v.IsDir = false) ∨
      (∃ inDist inDistSub, readDir m distPath = Except.ok inDist ∧
        readDir m (pathJoin [distPath, distributeName inDist]) = Except.ok inDistSub ∧
        ∀ v ∈ inDistSub, ¬ (v.Name = "Release".toList ∧ v.IsDir = false))) :
    createSourceString P m exec = ([], some Error.ErrIsNotRepo) := by
  rcases h with h | ⟨inDist, hd, hn⟩ | ⟨inDist, inDistSub, hd, hs, hr⟩
  · unfold createSourceString
    rw [readDir_distPath, findDir_none h]
  · have e : distributeName inDist = [] := distributeName_foldl_files inDist hn []
    unfold createSourceString
    rw [hd]
    simp [sourceStringFor, e]
  · unfold createSourceString
    rw [hd]
    simp only [sourceStringFor, hs, releaseName_none hr]
    split_ifs <;> rfl

/-- A witness of C11: the sample tree has no directory `dists`; in the repository tree with the
file `Release` taken away, `dists/stable` holds no such file. -/
theorem C11_not_a_repository_witness :
    (∀ v ∈ (handle sampleTree).filesTree, ¬ (v.Name = distPath ∧ v.IsDir = true)) ∧
    createSourceString linux (handle sampleTree) repoExec = ([], some Error.ErrIsNotRepo) :=
  ⟨by decide, C11_not_a_repository linux (handle sampleTree) repoExec (Or.inl (by decide))⟩

/-- C14: for every tree whose top-level directory `dists` (the first directory of that name)
holds at least one directory, the distribution name is the name of the last directory `X` in
the child list of `dists`, whatever precedes it, and everything `createSourceString` does
afterwards (the search for `Release`, the check of the components, the descriptor) is done with
that name. -/
theorem C14_last_distribution (P : Platform) (m : SevenZ) (exec : Exec)
    (pre0 : List File) (D : File) (post0 pre : List File) (X : File) (post : List File)
    (htree : m.filesTree = pre0 ++ D :: post0)
    (hpre0 : ∀ u ∈ pre0, ¬ (u.Name = distPath ∧ u.IsDir = true))
    (hD : D.Name = distPath ∧ D.IsDir = true)
    (hch : D.Children = pre ++ X :: post)
    (hX : X.IsDir = true) (hpost : ∀ v ∈ post, v.IsDir = false) :
    readDir m distPath = Except.ok D.Children ∧
    distributeName D.Children = X.Name ∧
    createSourceString P m exec = sourceStringFor P m exec X.Name := by
  have hr : readDir m distPath = Except.ok D.Children := by
    rw [readDir_distPath, htree, findDir_append D post0 hpre0 hD.1 hD.2]
  have hn : distributeName D.Children = X.Name := by
    rw [hch]; exact distributeName_last pre X post hX hpost
  refine ⟨hr, hn, ?_⟩
  unfold createSourceString
  rw [hr]
  simp only [hn]

/-- A witness of C14: in the repository tree `dists` holds `old`, then `stable`, then a file;
the distribution is `stable`. -/
theorem C14_last_distribution_witness :
    distributeName
      [File.mk Time.zero false true 0 []
        [File.mk Time.zero false true 0 [] [] "main".toList] "old".toList,
       File.mk Time.zero false true 0 []
        [File.mk Time.zero false false 120 [] [] "Release".toList,
         File.mk Time.zero false true 0 [] [] "main".toList] "stable".toList,
       File.mk Time.zero false false 5 [] [] "README".toList] = "stable".toList ∧
    createSourceString linux repoHandle repoExec =
      sourceStringFor linux repoHandle repoExec "stable".toList :=
  (C14_last_distribution linux repoHandle repoExec
    [File.mk Time.zero false true 0 [] [] "boot".toList]
    (File.mk Time.zero false true 0 []
      [File.mk Time.zero false true 0 []
        [File.mk Time.zero false true 0 [] [] "main".toList] "old".toList,
       File.mk Time.zero false true 0 []
        [File.mk Time.zero false false 120 [] [] "Release".toList,
         File.mk Time.zero false true 0 [] [] "main".toList] "stable".toList,
       File.mk Time.zero false false 5 [] [] "README".toList] "dists".toList)
    []
    [File.mk Time.zero false true 0 []
      [File.mk Time.zero false true 0 [] [] "main".toList] "old".toList]
    (File.mk Time.zero false true 0 []
      [File.mk Time.zero false false 120 [] [] "Release".toList,
       File.mk Time.zero false true 0 [] [] "main".toList] "stable".toList)
    [File.mk Time.zero false false 5 [] [] "README".toList]
    rfl (by decide) (by decide) rfl rfl (by decide)).2

theorem foldl_components (m : SevenZ) (dist : Str) (xs : List Str) :
    ∀ acc : List Str, acc.Nodup →
      (xs.foldl (fun components p =>
        if TrimSpace p ≠ [] ∧ TrimSpace p ∉ components then
          match readDir m (pathJoin [distPath, dist, TrimSpace p]) with
          | Except.error _ => components
          | Except.ok _ => components ++ [TrimSpace p]
        else components) acc).Nodup ∧
      ∀ t, t ∈ xs.foldl (fun components p =>
        if TrimSpace p ≠ [] ∧ TrimSpace p ∉ components then
          match readDir m (pathJoin [distPath, dist, TrimSpace p]) with
          | Except.error _ => components
          | Except.ok _ => components ++ [TrimSpace p]
        else components) acc ↔
        t ∈ acc ∨ (t ∈ xs.map TrimSpace ∧ t ≠ [] ∧ IsComponentDir m dist t) := by
  induction xs with
  | nil => intro acc h; simp [h]
  | cons p ps ih =>
    intro acc h
    simp only [List.foldl_cons, List.map_cons, List.mem_cons]
    by_cases hc : TrimSpace p ≠ [] ∧ TrimSpace p ∉ acc
    · rw [if_pos hc]
      cases hr : readDir m (pathJoin [distPath, dist, TrimSpace p]) with
      | error e =>
        simp only []
        refine ⟨(ih acc h).1, fun t => ?_⟩
        rw [(ih acc h).2 t]
        constructor
        · rintro (ht | ⟨ht, hg⟩)
          · exact Or.inl ht
          · exact Or.inr ⟨Or.inr ht, hg⟩
        · rintro (ht | ⟨ht | ht, hg⟩)
          · exact Or.inl ht
          · obtain ⟨l, hl⟩ := hg.2
            rw [ht, hr] at hl
            cases hl
          · exact Or.inr ⟨ht, hg⟩
      | ok l =>
        simp only []
        have hn : (acc ++ [TrimSpace p]).Nodup :=
          List.Nodup.append h (List.nodup_singleton _) (by simpa using hc.2)
        refine ⟨(ih _ hn).1, fun t => ?_⟩
        rw [(ih _ hn).2 t]
        constructor
        · rintro (ht | ⟨ht, hg⟩)
          · rcases List.mem_append.1 ht with ht | ht
            · exact Or.inl ht
            · have e : t = TrimSpace p := by simpa using ht
              exact Or.inr ⟨Or.inl e, e ▸ hc.1, l, e ▸ hr⟩
          · exact Or.inr ⟨Or.inr ht, hg⟩
        · rintro (ht | ⟨ht | ht, hg⟩)
          · exact Or.inl (List.mem_append_left _ ht)
          · exact Or.inl (List.mem_append_right _ (by simp [ht]))
          · exact Or.inr ⟨ht, hg⟩
    · rw [if_neg hc]
      refine ⟨(ih acc h).1, fun t => ?_⟩
      rw [(ih acc h).2 t]
      constructor
      · rintro (ht | ⟨ht, hg⟩)
        · exact Or.inl ht
        · exact Or.inr ⟨Or.inr ht, hg⟩
      · rintro (ht | ⟨ht | ht, hg⟩)
        · exact Or.inl ht
        · left
          by_contra hna
          exact hc ⟨ht ▸ hg.1, ht ▸ hna⟩
        · exact Or.inr ⟨ht, hg⟩

theorem findComponents_eq (m : SevenZ) (dist : Str) (lines : List Str) :
    findComponents m dist lines =
      match componentsLine lines with
      | none => []
      | some line => lineComponents m dist line := by
  induction lines with
  | nil => rfl
  | cons v vs ih =>
    simp only [findComponents, componentsLine]
    split_ifs
    · rfl
    · exact ih

/-- The components that `createSourceString` keeps are the distinct tokens after `components:`
that are not empty and name a directory of the distribution. -/
theorem findComponents_spec (m : SevenZ) (dist content : Str) :
    (findComponents m dist (Split '\n' content)).Nodup ∧
    ∀ t, t ∈ findComponents m dist (Split '\n' content) ↔
      t ∈ candidates content ∧ t ≠ [] ∧ IsComponentDir m dist t := by
  rw [findComponents_eq]
  unfold candidates
  cases componentsLine (Split '\n' content) with
  | none => simp
  | some line =>
    have h := foldl_components m dist
      (Split ' ' ((ReplaceAll line '\t' ' ').drop findPrefix.length)) [] List.nodup_nil
    simp only [lineComponents]
    refine ⟨h.1, fun t => ?_⟩
    rw [h.2 t]
    simp only [List.not_mem_nil, false_or]

theorem strLess_total (a : Str) : ∀ b : Str, strLess b a = false ∨ strLess a b = false := by
  induction a with
  | nil => intro b; cases b <;> simp [strLess]
  | cons x xs ih =>
    intro b
    cases b with
    | nil => simp [strLess]
    | cons y ys =>
      simp only [strLess]
      rcases Nat.lt_trichotomy x.toNat y.toNat with h | h | h
      · left; simp [h, Nat.lt_asymm h]
      · have := ih ys; simpa [h] using this
      · right; simp [h, Nat.lt_asymm h]

theorem strLess_trans (a : Str) : ∀ b c : Str, strLess b a = false → strLess c b = false →
    strLess c a = false := by
  induction a with
  | nil => intro b c hab hbc; cases b <;> cases c <;> simp_all [strLess]
  | cons x xs ih =>
    intro b c hab hbc
    cases b with
    | nil => simp [strLess] at hab
    | cons y ys =>
      cases c with
      | nil => simp [strLess] at hbc
      | cons z zs =>
        simp only [strLess] at hab hbc ⊢
        split_ifs at hab hbc ⊢ <;> first | rfl | omega | (exact ih ys zs hab hbc)

theorem strLess_antisymm (a : Str) : ∀ b : Str, strLess a b = false → strLess b a = false →
    a = b := by
  induction a with
  | nil => intro b h1 h2; cases b <;> simp_all [strLess]
  | cons x xs ih =>
    intro b h1 h2
    cases b with
    | nil => simp [strLess] at h2
    | cons y ys =>
      simp only [strLess] at h1 h2
      split_ifs at h1 h2 with h3 h4
      have e : x.toNat = y.toNat := by omega
      have ex : x = y := by rw [← Char.ofNat_toNat x, e, Char.ofNat_toNat]
      rw [ex, ih ys h1 h2]

theorem sortStrings_perm (l : List Str) : (sortStrings l).Perm l :=
  List.perm_insertionSort _ l

theorem sortStrings_sorted (l : List Str) :
    (sortStrings l).Pairwise (fun a b => strLess b a = false) := by
  haveI : IsTotal Str (fun a b => strLess b a = false) := ⟨fun a b => strLess_total a b⟩
  haveI : IsTrans Str (fun a b => strLess b a = false) :=
    ⟨fun a b c hab hbc => strLess_trans a b c hab hbc⟩
  exact List.sorted_insertionSort _ l

/-- Sorting a list without repetition gives a list in strictly ascending order. -/
theorem sortStrings_strict (l : List Str) (h : l.Nodup) :
    (sortStrings l).Pairwise (fun a b => strLess a b = true) := by
  have hn : (sortStrings l).Nodup := (sortStrings_perm l).nodup_iff.2 h
  refine List.Pairwise.imp₂ ?_ (sortStrings_sorted l) hn
  intro a b hab hne
  by_contra hlt
  exact hne (strLess_antisymm a b (by simpa using hlt) hab)

theorem mem_of_mem_TrimSpace {c : Char} {s : Str} (h : c ∈ TrimSpace s) : c ∈ s := by
  unfold TrimSpace at h
  have h1 : c ∈ (s.dropWhile isSpace).reverse.dropWhile isSpace := by simpa using h
  have h2 := (List.dropWhile_sublist isSpace).subset h1
  have h3 : c ∈ s.dropWhile isSpace := by simpa using h2
  exact (List.dropWhile_sublist isSpace).subset h3

theorem not_mem_space_of_mem_candidates {content t : Str} (h : t ∈ candidates content) :
    ' ' ∉ t := by
  unfold candidates at h
  split at h
  · simp at h
  · obtain ⟨p, hp, rfl⟩ := List.mem_map.1 h
    exact fun hm => not_mem_of_mem_Split ' ' _ p hp (mem_of_mem_TrimSpace hm)

theorem releaseName_cases (sub : List File) :
    releaseName sub = [] ∨
      (releaseName sub = "Release".toList ∧
        ∃ v ∈ sub, v.Name = "Release".toList ∧ v.IsDir = false) := by
  induction sub with
  | nil => exact Or.inl rfl
  | cons v vs ih =>
    simp only [releaseName]
    split_ifs with hv
    · exact Or.inr ⟨hv.1, v, List.mem_cons_self _ _, hv⟩
    · rcases ih with h | ⟨h, u, hu, hn⟩
      · exact Or.inl h
      · exact Or.inr ⟨h, u, List.mem_cons_of_mem _ hu, hn⟩

/-- With the markers present and `Release` read, `createSourceString` fails exactly when no
component is kept, and else returns the descriptor of the sorted components. -/
theorem createSourceString_of_repository (P : Platform) (m : SevenZ) (exec : Exec)
    (distribution content : Str) (h : RepositoryWith m exec distribution content) :
    createSourceString P m exec =
      if findComponents m distribution (Split '\n' content) = [] then
        ([], some (Error.errorf (noComponentsMessage distribution)))
      else
        (descriptor P m distribution
          (sortStrings (findComponents m distribution (Split '\n' content))), none) := by
  obtain ⟨inDist, inDistSub, hd, hn, hne, hs, hr, hread⟩ := h
  have hrel : releaseName inDistSub = "Release".toList := releaseName_some hr
  have hrel2 : releaseName inDistSub ≠ [] := by rw [hrel]; decide
  unfold createSourceString
  rw [hd]
  simp only [sourceStringFor, hn, if_neg hne, hs, if_neg hrel2]
  rw [hrel, hread]
  simp only [noComponentsMessage]

/-- A descriptor is only returned when the markers are present and a component is kept. -/
theorem repository_of_createSourceString (P : Platform) (m : SevenZ) (exec : Exec) (desc : Str)
    (h : createSourceString P m exec = (desc, none)) :
    ∃ distribution content, RepositoryWith m exec distribution content ∧
      findComponents m distribution (Split '\n' content) ≠ [] ∧
      desc = descriptor P m distribution
        (sortStrings (findComponents m distribution (Split '\n' content))) := by
  unfold createSourceString at h
  cases hd : readDir m distPath with
  | error e => rw [hd] at h; simp at h
  | ok inDist =>
    rw [hd] at h
    simp only [sourceStringFor] at h
    by_cases hne : distributeName inDist = []
    · rw [if_pos hne] at h; simp at h
    · rw [if_neg hne] at h
      cases hs : readDir m (pathJoin [distPath, distributeName inDist]) with
      | error e => rw [hs] at h; simp at h
      | ok inDistSub =>
        rw [hs] at h
        simp only [] at h
        rcases releaseName_cases inDistSub with hrel | ⟨hrel, hr⟩
        · rw [if_pos hrel] at h; simp at h
        · have hrel2 : releaseName inDistSub ≠ [] := by rw [hrel]; decide
          rw [if_neg hrel2, hrel] at h
          cases hread : ReadFile m exec
              (pathJoin [distPath, distributeName inDist, "Release".toList]) with
          | mk content err =>
            rw [hread] at h
            cases err with
            | some e => simp at h
            | none =>
              simp only [] at h
              by_cases hc : findComponents m (distributeName inDist) (Split '\n' content) = []
              · rw [if_pos hc] at h; simp at h
              · rw [if_neg hc] at h
                refine ⟨distributeName inDist, content,
                  ⟨inDist, inDistSub, hd, rfl, hne, hs, hr, hread⟩, hc, ?_⟩
                exact ((Prod.mk.inj h).1).symm

theorem readDir_congr (m n : SevenZ) (h : m.filesTree = n.filesTree) : readDir m = readDir n := by
  funext p
  unfold readDir
  rw [h]

theorem ReadFile_congr (m n : SevenZ) (exec : Exec) (h1 : m.ISOPath = n.ISOPath)
    (h2 : m.sevenZPath = n.sevenZPath) (h3 : m.pathPrefix = n.pathPrefix) :
    ReadFile m exec = ReadFile n exec := by
  funext p
  unfold ReadFile exitError
  rw [h1, h2, h3]

theorem findComponents_congr (m n : SevenZ) (h : m.filesTree = n.filesTree) (dist : Str)
    (lines : List Str) : findComponents m dist lines = findComponents n dist lines := by
  induction lines with
  | nil => rfl
  | cons v vs ih =>
    simp only [findComponents, lineComponents, ih, readDir_congr m n h]

/-- `createSourceString` reads the fields `ISOPath`, `sevenZPath`, `filesTree` and `pathPrefix`
of the handle and no other. -/
theorem createSourceString_congr (P : Platform) (m n : SevenZ) (exec : Exec)
    (h0 : m.filesTree = n.filesTree) (h1 : m.ISOPath = n.ISOPath)
    (h2 : m.sevenZPath = n.sevenZPath) (h3 : m.pathPrefix = n.pathPrefix) :
    createSourceString P m exec = createSourceString P n exec := by
  unfold createSourceString sourceStringFor descriptor
  rw [readDir_congr m n h0, ReadFile_congr m n exec h1 h2 h3, h1]
  simp only [findComponents_congr m n h0]

/-- C12: for every repository tree and every content of the file `Release`, the components that
`createSourceString` keeps are exactly the distinct, non-empty tokens that follow `components:`
(on the first line that begins with it, whatever the case of its letters) for which
`dists/<distribution>/<token>` is found as a directory.  Either none is kept and no descriptor
is returned, or the descriptor is returned and the names it lists, separated by single spaces,
are a rearrangement of the components kept. -/
theorem C12_components (P : Platform) (m : SevenZ) (exec : Exec) (distribution content : Str)
    (h : RepositoryWith m exec distribution content) :
    ∃ components : List Str, components.Nodup ∧
      (∀ t, t ∈ components ↔
        t ∈ candidates content ∧ t ≠ [] ∧ IsComponentDir m distribution t) ∧
      ((components = [] ∧ (createSourceString P m exec).1 = []) ∨
        ∃ listed, createSourceString P m exec = (descriptor P m distribution listed, none) ∧
          listed.Perm components ∧ Split ' ' (joinSep ' ' listed) = listed) := by
  have hs := findComponents_spec m distribution content
  refine ⟨findComponents m distribution (Split '\n' content), hs.1, hs.2, ?_⟩
  rw [createSourceString_of_repository P m exec distribution content h]
  by_cases hc : findComponents m distribution (Split '\n' content) = []
  · left; simp [hc]
  · right
    refine ⟨sortStrings (findComponents m distribution (Split '\n' content)), by rw [if_neg hc],
      sortStrings_perm _, ?_⟩
    refine Split_joinSep ' ' _ ?_ ?_
    · intro e
      have := sortStrings_perm (findComponents m distribution (Split '\n' content))
      rw [e] at this
      exact hc (List.perm_nil.1 this.symm)
    · intro t ht
      have ht2 := ((sortStrings_perm _).mem_iff).1 ht
      exact not_mem_space_of_mem_candidates ((hs.2 t).1 ht2).1

/-- A witness of C12: `Components: main contrib` with only the directory `main` in
`dists/stable` gives a descriptor that lists `main` and not `contrib`. -/
theorem C12_components_witness :
    candidates "Origin: Astra\nComponents: main contrib\nArchitectures: amd64".toList =
      [[], "main".toList, "contrib".toList] ∧
    createSourceString linux repoHandle repoExec =
      ("deb http://0.0.0.0/repo/astra.iso stable main".toList, none) ∧
    ∃ components : List Str, components.Nodup ∧
      (∀ t, t ∈ components ↔
        t ∈ candidates "Origin: Astra\nComponents: main contrib\nArchitectures: amd64".toList ∧
          t ≠ [] ∧ IsComponentDir repoHandle "stable".toList t) ∧
      ((components = [] ∧ (createSourceString linux repoHandle repoExec).1 = []) ∨
        ∃ listed, createSourceString linux repoHandle repoExec =
            (descriptor linux repoHandle "stable".toList listed, none) ∧
          listed.Perm components ∧ Split ' ' (joinSep ' ' listed) = listed) :=
  ⟨by decide, by decide,
    C12_components linux repoHandle repoExec "stable".toList
      "Origin: Astra\nComponents: main contrib\nArchitectures: amd64".toList
      ⟨_, _, rfl, rfl, by decide, rfl,
        ⟨File.mk Time.zero false false 120 [] [] "Release".toList, List.mem_cons_self _ _,
          rfl, rfl⟩, rfl⟩⟩

/-- C13: whenever `createSourceString` succeeds, the descriptor is exactly
`deb http://0.0.0.0/repo/<base name of the archive path> <distribution> <components>`, where the
components are those kept from the file `Release`, in strictly ascending order and joined by
single spaces; and on a handle that `NewSevenZ` returns, `GetRepoString` is that string. -/
theorem C13_descriptor (P : Platform) (m : SevenZ) (exec : Exec) (desc : Str)
    (h : createSourceString P m exec = (desc, none)) :
    (∃ distribution content components, RepositoryWith m exec distribution content ∧
      components ≠ [] ∧
      (∀ t, t ∈ components ↔
        t ∈ candidates content ∧ t ≠ [] ∧ IsComponentDir m distribution t) ∧
      components.Pairwise (fun a b => strLess a b = true) ∧
      desc = "deb http://0.0.0.0/repo/".toList ++ filepathBase P m.ISOPath ++ [' '] ++
        distribution ++ [' '] ++ joinSep ' ' components) ∧
    ∀ (env : Env) (ISOPath : Str) (opened : SevenZ),
      NewSevenZ P env ISOPath = Except.ok opened →
      createSourceString P opened env.exec = (GetRepoString opened, none) := by
  constructor
  · obtain ⟨distribution, content, hrep, hc, hdesc⟩ :=
      repository_of_createSourceString P m exec desc h
    have hs := findComponents_spec m distribution content
    refine ⟨distribution, content,
      sortStrings (findComponents m distribution (Split '\n' content)), hrep, ?_, ?_,
      sortStrings_strict _ hs.1, hdesc⟩
    · intro e
      have := sortStrings_perm (findComponents m distribution (Split '\n' content))
      rw [e] at this
      exact hc (List.perm_nil.1 this.symm)
    · intro t
      rw [(sortStrings_perm _).mem_iff]
      exact hs.2 t
  · intro env ISOPath opened hopen
    unfold NewSevenZ at hopen
    split at hopen
    · cases hopen
    · split at hopen
      · cases hopen
      · split at hopen
        · cases hopen
        · rename_i version _
          simp only [] at hopen
          generalize readFilesFromISO P _ env.listing = r at hopen
          obtain ⟨m1, res⟩ := r
          cases res with
          | error e => simp at hopen
          | ok filesTree =>
            simp only [] at hopen
            generalize hC : createSourceString P _ env.exec = c at hopen
            obtain ⟨src, err⟩ := c
            cases err with
            | some e => simp at hopen
            | none =>
              simp only [Except.ok.injEq] at hopen
              subst hopen
              have e := createSourceString_congr P
                ⟨m1.ISOPath, m1.Version, m1.sevenZPath, filesTree, src, m1.pathPrefix⟩
                ⟨m1.ISOPath, m1.Version, m1.sevenZPath, filesTree, m1.sourceString,
                  m1.pathPrefix⟩ env.exec rfl rfl rfl rfl
              rw [hC] at e
              exact e

/-- A witness of C13: the descriptor of the repository tree. -/
theorem C13_descriptor_witness :
    createSourceString linux repoHandle repoExec =
      ("deb http://0.0.0.0/repo/astra.iso stable main".toList, none) ∧
    ∃ distribution content components, RepositoryWith repoHandle repoExec distribution content ∧
      components ≠ [] ∧
      (∀ t, t ∈ components ↔
        t ∈ candidates content ∧ t ≠ [] ∧ IsComponentDir repoHandle distribution t) ∧
      components.Pairwise (fun a b => strLess a b = true) ∧
      "deb http://0.0.0.0/repo/astra.iso stable main".toList =
        "deb http://0.0.0.0/repo/".toList ++ filepathBase linux repoHandle.ISOPath ++ [' '] ++
          distribution ++ [' '] ++ joinSep ' ' components :=
  ⟨by decide,
    (C13_descriptor linux repoHandle repoExec
      "deb http://0.0.0.0/repo/astra.iso stable main".toList (by decide)).1⟩

/-- C15: for every tree in which `dists`, a distribution directory and its file `Release` are
present and `Release` was read, if no token after `components:` is non-empty and names a
directory of the distribution (there is no such line, or it is empty, or none of its names has
a directory), `createSourceString` returns no descriptor and an error that is not
`ErrIsNotRepo`, neither as a value nor by its text. -/
theorem C15_malformed_release (P : Platform) (m : SevenZ) (exec : Exec)
    (distribution content : Str) (h : RepositoryWith m exec distribution content)
    (hnone : ∀ t ∈ candidates content, t ≠ [] → ¬ IsComponentDir m distribution t) :
    ∃ err, createSourceString P m exec = ([], some err) ∧ err ≠ Error.ErrIsNotRepo ∧
      err.message ≠ Error.ErrIsNotRepo.message := by
  have hs := findComponents_spec m distribution content
  have hc : findComponents m distribution (Split '\n' content) = [] := by
    apply List.eq_nil_iff_forall_not_mem.2
    intro t ht
    have := (hs.2 t).1 ht
    exact hnone t this.1 this.2.1 this.2.2
  refine ⟨Error.errorf (noComponentsMessage distribution), ?_, by simp, ?_⟩
  · rw [createSourceString_of_repository P m exec distribution content h, if_pos hc]
  · intro e
    have h1 : (Error.errorf (noComponentsMessage distribution)).message.head? =
        Error.ErrIsNotRepo.message.head? := by rw [e]
    have h2 : (Error.errorf (noComponentsMessage distribution)).message.head? = some 'в' := rfl
    rw [h2] at h1
    revert h1
    decide

/-- A witness of C15: the repository tree with a file `Release` that has no components line. -/
theorem C15_malformed_release_witness :
    candidates "Origin: Astra\nArchitectures: amd64".toList = [] ∧
    ∃ err, createSourceString linux repoHandle bareExec = ([], some err) ∧
      err ≠ Error.ErrIsNotRepo ∧ err.message ≠ Error.ErrIsNotRepo.message :=
  ⟨by decide,
    C15_malformed_release linux repoHandle bareExec "stable".toList
      "Origin: Astra\nArchitectures: amd64".toList
      ⟨_, _, rfl, rfl, by decide, rfl,
        ⟨File.mk Time.zero false false 120 [] [] "Release".toList, List.mem_cons_self _ _,
          rfl, rfl⟩, rfl⟩
      (by
        have e : candidates "Origin: Astra\nArchitectures: amd64".toList = [] := by decide
        intro t ht
        rw [e] at ht
        simp at ht)⟩

/-! ## The frame of the tree builder -/

/-- C16 (the code at a failing input): the chain of the directory `a` and the file `b`,
inserted into a level that holds the file `a`, is not appended to the level as a new directory
`a`: the search by name takes the file `a` for the directory of the chain, and `b` becomes a
child of that file. -/
theorem C16_recurseFileAdd_under_file :
    recurseFileAdd [part true "a", part false "b"] 0
      [File.mk Time.zero false false 7 [] [] "a".toList] =
    [File.mk Time.zero false false 7 []
      [File.mk Time.zero false false 0 [] [] "b".toList] "a".toList] := rfl

/-- The tree builder only adds, and it adds at most one subtree: every node keeps its place and
its fields other than `Children`. -/
theorem recurseFileAddFrom_grows (parts : List File) :
    ∀ tree, Grows tree (recurseFileAddFrom parts tree) := by
  induction parts with
  | nil => intro tree; exact Grows.same tree
  | cons d rest ih =>
    intro tree
    rcases recurseFileAddFrom_cons d rest tree with ⟨_, e⟩ | ⟨_, _, e⟩ |
      ⟨_, pre, v, post, et, _, _, e⟩
    · rw [e]; exact Grows.appended tree _
    · rw [e]; exact Grows.appended tree _
    · rw [e, et]; exact Grows.inside pre v post _ (ih v.Children)

/-- Inserted into an empty level, a chain that starts with directories gives the linear chain
of these directories. -/
theorem recurseFileAddFrom_nil (dirs rest : List File) (hd : ∀ d ∈ dirs, d.IsDir = true) :
    recurseFileAddFrom (dirs ++ rest) [] =
      chain (dirs.map File.Name) (recurseFileAddFrom rest []) := by
  induction dirs with
  | nil => rfl
  | cons d ds ih =>
    have hdd : d.IsDir = true := hd d (List.mem_cons_self _ _)
    rcases recurseFileAddFrom_cons d (ds ++ rest) [] with ⟨h, _⟩ | ⟨_, _, e⟩ |
      ⟨_, pre, v, post, et, _⟩
    · rw [hdd] at h; cases h
    · rw [List.cons_append, e, ih fun x hx => hd x (List.mem_cons_of_mem _ hx)]
      rfl
    · exact absurd et (by simp)

/-- C17 (the code at a failing input): the line of `2022-07-22 12:33:04` parses to that date
and time, but the file node in the tree has the zero time; for every file segment the node that
`recurseFileAdd` appends has the size of the segment and the zero time. -/
theorem C17_timestamp_dropped :
    timeParse "2022-07-22 12:33:04".toList = some ⟨2022, 7, 22, 12, 33, 4⟩ ∧
    (readFilesFromISO windows (handle []) (Except.ok keyLine)).2 =
      Except.ok [File.mk Time.zero false false 4766 [] [] "info@axxonsoft.com.gpg.key".toList] ∧
    (File.mk Time.zero false false 4766 [] [] "info@axxonsoft.com.gpg.key".toList).CreateAt ≠
      ⟨2022, 7, 22, 12, 33, 4⟩ ∧
    ∀ (entry : File) (tree : List File), entry.IsDir = false →
      ∃ node, recurseFileAdd [entry] 0 tree = tree ++ [node] ∧ node.Size = entry.Size ∧
        node.CreateAt = Time.zero := by
  refine ⟨by decide, rfl, by decide, ?_⟩
  intro entry tree h
  refine ⟨newFile entry, ?_, rfl, rfl⟩
  rcases recurseFileAddFrom_cons entry [] tree with ⟨_, e⟩ | ⟨h2, _⟩ | ⟨h2, _⟩
  · exact e
  · rw [h] at h2; cases h2
  · rw [h] at h2; cases h2

/-- C18 (the code at a failing input): the listing of the file `a` followed by the file `a\b`,
and likewise the two insertions with `recurseFileAdd` into the empty tree, give a tree in which
the file node `a` has a child. -/
theorem C18_file_with_children :
    (readFilesFromISO windows (handle [])
      (Except.ok ("2018-06-20 20:32:10 .....  1  1  a\n".toList ++
        "2018-06-20 20:32:10 .....  2  2  a\\b".toList))).2 =
      Except.ok [File.mk Time.zero false false 1 []
        [File.mk Time.zero false false 2 [] [] "b".toList] "a".toList] ∧
    recurseFileAdd [part true "a", part false "b"] 0 (recurseFileAdd [part false "a"] 0 []) =
      [File.mk Time.zero false false 0 []
        [File.mk Time.zero false false 0 [] [] "b".toList] "a".toList] ∧
    File.filesAreLeavesList [File.mk Time.zero false false 1 []
        [File.mk Time.zero false false 2 [] [] "b".toList] "a".toList] = false :=
  ⟨rfl, rfl, rfl⟩

/-! ## Lines that are skipped, and the path prefix -/

theorem readLines_joinSep (P : Platform) (st : ParseState) (lines : List Str)
    (hne : lines ≠ []) (hnl : ∀ l ∈ lines, '\n' ∉ l) :
    readLines P st (joinSep '\n' lines) = lines.foldl (readLine P) st := by
  unfold readLines
  rw [Split_joinSep '\n' lines hne hnl]

theorem readLine_of_not_matchesLine (P : Platform) (st : ParseState) (line : Str)
    (h : matchesLine line = false) : readLine P st line = st := by
  unfold matchesLine at h
  unfold readLine
  cases hm : FindStringSubmatch (TrimSpace line) with
  | none => rfl
  | some m => rw [hm] at h; cases h

theorem foldl_readLine_filter (P : Platform) (lines : List Str) :
    ∀ st, lines.foldl (readLine P) st = (lines.filter matchesLine).foldl (readLine P) st := by
  induction lines with
  | nil => intro st; rfl
  | cons l ls ih =>
    intro st
    cases hl : matchesLine l with
    | false =>
      rw [List.filter_cons_of_neg (by simp [hl]), List.foldl_cons,
        readLine_of_not_matchesLine P st l hl]
      exact ih st
    | true =>
      rw [List.filter_cons_of_pos hl, List.foldl_cons, List.foldl_cons]
      exact ih _

/-- Reading a text is reading its matching lines only. -/
theorem readLines_filter (P : Platform) (st : ParseState) (output : Str) :
    readLines P st output =
      readLines P st (joinSep '\n' ((Split '\n' output).filter matchesLine)) := by
  by_cases hf : (Split '\n' output).filter matchesLine = []
  · rw [hf]
    have e : readLines P st (joinSep '\n' []) = st :=
      readLine_of_not_matchesLine P st [] (by decide)
    rw [e]
    unfold readLines
    rw [foldl_readLine_filter, hf]
    rfl
  · rw [readLines_joinSep P st _ hf fun l hl =>
      not_mem_of_mem_Split '\n' output l (List.mem_filter.1 hl).1]
    unfold readLines
    exact foldl_readLine_filter P _ st

/-- C20: lines that do not match the line shape are skipped without an error.  For every
listing text `readFilesFromISO` returns a tree and no error, and it returns the same tree (and
leaves the same path prefix) as for the text from which all lines that do not match are removed;
a blank line and the summary line `... 407 files, 91 folders` are such lines. -/
theorem C20_non_matching_skipped (P : Platform) (m : SevenZ) (output : Str) :
    readFilesFromISO P m (Except.ok output) =
      readFilesFromISO P m
        (Except.ok (joinSep '\n' ((Split '\n' output).filter matchesLine))) ∧
    (∃ tree, (readFilesFromISO P m (Except.ok output)).2 = Except.ok tree) ∧
    matchesLine [] = false ∧ matchesLine summaryLine = false := by
  refine ⟨?_, ⟨_, rfl⟩, by decide, by decide⟩
  unfold readFilesFromISO
  simp only []
  rw [← readLines_filter]

theorem readLine_dot (P : Platform) (st : ParseState) (dot : Str)
    (h : (FindStringSubmatch (TrimSpace dot)).map (fun m => m.path) = some ['.']) :
    readLine P st dot = ⟨['.', '\\'], st.result⟩ := by
  unfold readLine
  cases hm : FindStringSubmatch (TrimSpace dot) with
  | none => rw [hm] at h; cases h
  | some m =>
    rw [hm] at h
    have hp : m.path = ['.'] := by simpa using h
    simp only [hp, if_true]

theorem readLine_with_prefix (P : Platform) (tree : List File) (line : Str) (m : Match)
    (p : Str) (h : MatchesWithPath line m ('.' :: '\\' :: p)) :
    readLine P ⟨['.', '\\'], tree⟩ line =
      ⟨['.', '\\'], recurseFileAdd (filePathParts P m p) 0 tree⟩ := by
  unfold MatchesWithPath at h
  unfold readLine
  rw [h]
  have hne : ('.' :: '\\' :: p) ≠ ['.'] := by simp
  have ht : TrimPrefix ('.' :: '\\' :: p) ['.', '\\'] = p := by simp [TrimPrefix, HasPrefix]
  simp only [if_neg hne, ht]
  rfl

theorem readLine_without_prefix (P : Platform) (tree : List File) (line : Str) (m : Match)
    (p : Str) (h : MatchesWithPath line m p) (hp : p ≠ ['.']) :
    readLine P ⟨[], tree⟩ line = ⟨[], recurseFileAdd (filePathParts P m p) 0 tree⟩ := by
  unfold MatchesWithPath at h
  unfold readLine
  rw [h]
  have ht : TrimPrefix p [] = p := by simp [TrimPrefix, HasPrefix]
  simp only [if_neg hp, ht]
  rfl

theorem foldl_readLine_prefix (P : Platform) (withPrefix without : List Str)
    (h : List.Forall₂ (fun a b => ∃ m p, MatchesWithPath a m ('.' :: '\\' :: p) ∧
      MatchesWithPath b m p ∧ p ≠ ['.']) withPrefix without) :
    ∀ tree, (withPrefix.foldl (readLine P) ⟨['.', '\\'], tree⟩).result =
      (without.foldl (readLine P) ⟨[], tree⟩).result := by
  induction h with
  | nil => intro tree; rfl
  | cons hab _ ih =>
    intro tree
    obtain ⟨m, p, ha, hb, hp⟩ := hab
    rw [List.foldl_cons, List.foldl_cons, readLine_with_prefix P tree _ m p ha,
      readLine_without_prefix P tree _ m p hb hp]
    exact ih _

/-- C19, as amended: a matching line whose path is the marker `.` is not inserted into the tree
and sets the path prefix; and a listing that consists of such a line followed by lines with the
paths `.\p1`, ..., `.\pk`, none of the `pi` being `.` itself, builds the same tree as the listing
of the same lines with the paths `p1`, ..., `pk`, read by a handle without a prefix. -/
theorem C19_prefix_stripped (P : Platform) (m : SevenZ) (dot : Str)
    (withPrefix without : List Str)
    (hm : m.pathPrefix = [])
    (hdot : (FindStringSubmatch (TrimSpace dot)).map (fun m => m.path) = some ['.'])
    (hnl : '\n' ∉ dot ∧ (∀ l ∈ withPrefix, '\n' ∉ l) ∧ ∀ l ∈ without, '\n' ∉ l)
    (hrel : List.Forall₂ (fun a b => ∃ m p, MatchesWithPath a m ('.' :: '\\' :: p) ∧
      MatchesWithPath b m p ∧ p ≠ ['.']) withPrefix without) :
    (∀ st, (readLine P st dot).result = st.result ∧
      (readLine P st dot).pathPrefix = ['.', '\\']) ∧
    (readFilesFromISO P m (Except.ok (joinSep '\n' (dot :: withPrefix)))).2 =
      (readFilesFromISO P m (Except.ok (joinSep '\n' without))).2 := by
  refine ⟨fun st => by rw [readLine_dot P st dot hdot]; exact ⟨rfl, rfl⟩, ?_⟩
  unfold readFilesFromISO
  simp only [hm]
  rw [readLines_joinSep P _ (dot :: withPrefix) (by simp) (by
    intro l hl
    rcases List.mem_cons.1 hl with rfl | hl
    · exact hnl.1
    · exact hnl.2.1 l hl)]
  rw [List.foldl_cons, readLine_dot P _ dot hdot]
  congr 1
  by_cases hw : without = []
  · subst hw
    cases hrel
    have e : readLines P ⟨[], []⟩ (joinSep '\n' []) = ⟨[], []⟩ :=
      readLine_of_not_matchesLine P _ [] (by decide)
    rw [e]
    rfl
  · rw [readLines_joinSep P _ without hw hnl.2.2]
    exact foldl_readLine_prefix P withPrefix without hrel []

/-- A witness of C19: the listing of a TAR archive with the entries `.`, `.\dists` and
`.\dists\Release` builds the tree of the listing with `dists` and `dists\Release`. -/
theorem C19_prefix_stripped_witness :
    (readFilesFromISO windows (handle []) (Except.ok (joinSep '\n' tarListing))).2 =
      Except.ok [File.mk Time.zero false true 0 []
        [File.mk Time.zero false false 120 [] [] "Release".toList] "dists".toList] ∧
    (readFilesFromISO windows (handle []) (Except.ok (joinSep '\n' tarListing))).2 =
      (readFilesFromISO windows (handle []) (Except.ok (joinSep '\n' isoListing))).2 :=
  ⟨rfl,
    (C19_prefix_stripped windows (handle []) dotLine tarListing.tail isoListing rfl rfl
      (by decide)
      (List.Forall₂.cons
        ⟨⟨"2018-06-20".toList, "20:32:10".toList, "D".toList, [], [], []⟩, "dists".toList,
          rfl, rfl, by decide⟩
        (List.Forall₂.cons
          ⟨⟨"2018-06-20".toList, "20:32:10".toList, ".".toList, "120".toList, "512".toList, []⟩,
            "dists\\Release".toList, rfl, rfl, by decide⟩
          List.Forall₂.nil))).2⟩

/-- C19 (counterexample): with `p1` the path `.`, the listing of the line `.` followed by the
line `.\.` builds a tree with a directory named `.`, whereas the listing of the line with the
path `.` alone builds the empty tree: the test for the marker comes before the prefix is
removed. -/
theorem C19_dot_after_prefix_inserted :
    (FindStringSubmatch (TrimSpace dotDotLine)).map (fun m => m.path) = some ['.', '\\', '.'] ∧
    (FindStringSubmatch (TrimSpace dotLine)).map (fun m => m.path) = some ['.'] ∧
    (readFilesFromISO windows (handle []) (Except.ok (joinSep '\n' [dotLine, dotDotLine]))).2 =
      Except.ok [File.mk Time.zero false true 0 [] [] ['.']] ∧
    (readFilesFromISO windows (handle []) (Except.ok (joinSep '\n' [dotLine]))).2 =
      Except.ok [] ∧
    (readFilesFromISO windows (handle []) (Except.ok (joinSep '\n' [dotLine, dotDotLine]))).2 ≠
      (readFilesFromISO windows (handle []) (Except.ok (joinSep '\n' [dotLine]))).2 := by
  refine ⟨rfl, rfl, rfl, rfl, ?_⟩
  intro h
  have h1 : (readFilesFromISO windows (handle []) (Except.ok (joinSep '\n'
      [dotLine, dotDotLine]))).2 = Except.ok [File.mk Time.zero false true 0 [] [] ['.']] := rfl
  have h2 : (readFilesFromISO windows (handle []) (Except.ok (joinSep '\n' [dotLine]))).2 =
      Except.ok [] := rfl
  rw [h1, h2] at h
  cases h

/-! ## The runs of the external program -/

theorem takeWhile_eq_self (p : Char → Bool) (l : Str) (h : ∀ c ∈ l, p c = true) :
    l.takeWhile p = l := by
  have := takeWhile_append_stop p l [] h (Or.inl rfl)
  simpa using this

/-- The text `exit status <code>` gives the exit code back. -/
theorem findExitStatus_exit (code : Str) (hne : code ≠ []) (hd : ∀ c ∈ code, reDigit c = true) :
    findExitStatus ("exit status ".toList ++ code) = some code := by
  have ht := takeWhile_eq_self reDigit code hd
  cases code with
  | nil => exact absurd rfl hne
  | cons d ds =>
    have hdd : d ≠ '-' := by
      intro e
      have := hd d (List.mem_cons_self _ _)
      rw [e] at this
      revert this
      decide
    show (match exitStatusAt ("exit status ".toList ++ d :: ds) with
      | some code => some code
      | none => findExitStatus ("xit status ".toList ++ d :: ds)) = some (d :: ds)
    have e : exitStatusAt ("exit status ".toList ++ d :: ds) = some (d :: ds) := by
      have hp : HasPrefix ("exit status ".toList ++ d :: ds) "exit status ".toList = true := by
        simp [HasPrefix]
      have hdrop : ("exit status ".toList ++ d :: ds).drop 12 = d :: ds := rfl
      unfold exitStatusAt
      rw [if_pos hp, hdrop]
      split
      · rename_i ds2 heq
        exact absurd (List.cons.inj heq).1 hdd
      · rename_i heq
        rw [ht]
        simp
    rw [e]

/-- C24, as amended: `exec7zOnce` as a function of the run of the program, once it has
started.  On a failing exit with captured output that is not empty after the white space
around it is removed, it returns that output, without the white space around it, and no error;
on a failing exit `exit status <code>` with captured output that is empty or white space only,
it returns an error whose text ends in the exit code; on a successful exit it returns the
captured output, without the white space around it, and no error. -/
theorem C24_exec7zOnce (m : SevenZ) (exec : Exec) (args : List Str)
    (hstart : (exec m.sevenZPath args).startErr = none) :
    (∀ err, (exec m.sevenZPath args).waitErr = some err →
      TrimSpace (exec m.sevenZPath args).combined ≠ [] →
      exec7zOnce m exec args = (TrimSpace (exec m.sevenZPath args).combined, none)) ∧
    (∀ code, code ≠ [] → (∀ c ∈ code, reDigit c = true) →
      (exec m.sevenZPath args).waitErr = some ("exit status ".toList ++ code) →
      TrimSpace (exec m.sevenZPath args).combined = [] →
      ∃ err, exec7zOnce m exec args = ([], some err) ∧
        err.message = m.sevenZPath ++ [' '] ++ joinSep ' ' args ++ ": код выхода ".toList ++
          code) ∧
    ((exec m.sevenZPath args).waitErr = none →
      exec7zOnce m exec args = (TrimSpace (exec m.sevenZPath args).combined, none)) := by
  refine ⟨?_, ?_, ?_⟩
  · intro err hw hne
    simp only [exec7zOnce, hstart, hw, if_pos hne]
  · intro code hne hd hw he
    refine ⟨exitError m args ("exit status ".toList ++ code), ?_, ?_⟩
    · simp only [exec7zOnce, hstart, hw, he]
      simp
    · simp only [exitError, findExitStatus_exit code hne hd, Error.message]
  · intro hw
    simp only [exec7zOnce, hstart, hw]

/-- A witness of C24: a failing run with a message gives the message without the line breaks
around it; a failing run with a line break only gives an error that ends in the exit code 2. -/
theorem C24_exec7zOnce_witness :
    exec7zOnce repoHandle loudFailure ["aaa".toList] =
      ("Command Line Error:\nUnsupported command".toList, none) ∧
    ∃ err, exec7zOnce repoHandle blankFailure ["l".toList] = ([], some err) ∧
      err.message = repoHandle.sevenZPath ++ [' '] ++ joinSep ' ' ["l".toList] ++
        ": код выхода ".toList ++ "2".toList :=
  ⟨(C24_exec7zOnce repoHandle loudFailure ["aaa".toList] rfl).1 "exit status 7".toList rfl
      (by decide),
    (C24_exec7zOnce repoHandle blankFailure ["l".toList] rfl).2.1 "2".toList (by decide)
      (by decide) rfl rfl⟩

/-- C24 (counterexample): a run that ends with the exit status 2 and has written a line break,
so that the captured output is not empty, gives an error and no output; and a successful run
that has written `ok` and a line break gives `ok`, not the captured output. -/
theorem C24_blank_output_is_error :
    (blankFailure repoHandle.sevenZPath ["l".toList]).combined ≠ [] ∧
    exec7zOnce repoHandle blankFailure ["l".toList] =
      ([], some (Error.errorf "/usr/bin/7z l: код выхода 2".toList)) ∧
    exec7zOnce repoHandle (fun _ _ => ⟨none, none, "ok\n".toList, "ok\n".toList⟩) ["l".toList] =
      ("ok".toList, none) ∧
    "ok".toList ≠ "ok\n".toList :=
  ⟨by decide, by decide, by decide, by decide⟩

/-! ## Slashes around a path -/

theorem TrimSpace_sublist (s : Str) : (TrimSpace s).Sublist s := by
  unfold TrimSpace
  have h1 : ((s.dropWhile isSpace).reverse.dropWhile isSpace).Sublist
      (s.dropWhile isSpace).reverse := List.dropWhile_sublist isSpace
  have h2 := List.reverse_sublist.2 h1
  rw [List.reverse_reverse] at h2
  exact h2.trans (List.dropWhile_sublist isSpace)

theorem TrimPrefix_sublist (s pre : Str) : (TrimPrefix s pre).Sublist s := by
  unfold TrimPrefix
  split_ifs
  · exact List.drop_sublist _ _
  · exact List.Sublist.refl _

theorem TrimSuffix_sublist (s suf : Str) : (TrimSuffix s suf).Sublist s := by
  unfold TrimSuffix
  have h := List.reverse_sublist.2 (TrimPrefix_sublist s.reverse suf.reverse)
  rwa [List.reverse_reverse] at h

theorem dropWhile_eq_self_head (f : Char → Bool) (x : Char) (r : Str)
    (h : (x :: r).dropWhile f = x :: r) : f x = false := by
  cases hx : f x with
  | false => rfl
  | true =>
    rw [List.dropWhile_cons, if_pos hx] at h
    have h1 := (List.dropWhile_sublist f (l := r)).length_le
    rw [h] at h1
    simp at h1

theorem dropWhile_append_self (f : Char → Bool) (s t : Str) (hs : s ≠ [])
    (h : s.dropWhile f = s) : (s ++ t).dropWhile f = s ++ t := by
  cases s with
  | nil => exact absurd rfl hs
  | cons x r =>
    have hx := dropWhile_eq_self_head f x r h
    rw [List.cons_append, List.dropWhile_cons]
    simp [hx]

theorem TrimSpace_eq_self (s : Str) (h1 : s.dropWhile isSpace = s)
    (h2 : s.reverse.dropWhile isSpace = s.reverse) : TrimSpace s = s := by
  unfold TrimSpace
  rw [h1, h2, List.reverse_reverse]

theorem dropWhile_of_TrimSpace (s : Str) (h : TrimSpace s = s) :
    s.dropWhile isSpace = s ∧ s.reverse.dropWhile isSpace = s.reverse := by
  have h1 : s.dropWhile isSpace = s := by
    apply List.Sublist.antisymm (List.dropWhile_sublist isSpace)
    have a : ((s.dropWhile isSpace).reverse.dropWhile isSpace).Sublist
        (s.dropWhile isSpace).reverse := List.dropWhile_sublist isSpace
    have b := List.reverse_sublist.2 a
    rw [List.reverse_reverse] at b
    unfold TrimSpace at h
    rw [h] at b
    exact b
  refine ⟨h1, ?_⟩
  unfold TrimSpace at h
  rw [h1] at h
  have := congrArg List.reverse h
  rwa [List.reverse_reverse] at this

/-- A path that the normalisation of `ReadPath` leaves as it is has no white space around it
and no slash at either end. -/
theorem pathItem_fixed (p : Str) (h : pathItem p = p) :
    TrimSpace p = p ∧ HasPrefix p ['/'] = false ∧ HasPrefix p.reverse ['/'] = false := by
  unfold pathItem at h
  have s1 := TrimSpace_sublist p
  have s2 := TrimPrefix_sublist (TrimSpace p) ['/']
  have s3 := TrimSuffix_sublist ( TrimPrefix (TrimSpace p) ['/']) ['/']
  rw [h] at s3
  have e2 : TrimPrefix (TrimSpace p) ['/'] = p :=
    List.Sublist.antisymm (s2.trans s1) s3
  have e1 : TrimSpace p = p := by
    apply List.Sublist.antisymm s1
    rw [e2] at s2
    exact s2
  rw [e1] at e2
  rw [e1, e2] at h
  refine ⟨e1, ?_, ?_⟩
  · cases hp : HasPrefix p ['/'] with
    | false => rfl
    | true =>
      unfold TrimPrefix at e2
      rw [if_pos hp] at e2
      have := congrArg List.length e2
      cases p with
      | nil => simp [HasPrefix] at hp
      | cons c cs => simp at this
  · cases hp : HasPrefix p.reverse ['/'] with
    | false => rfl
    | true =>
      unfold TrimSuffix TrimPrefix at h
      have hr : ['/'].reverse = ['/'] := rfl
      rw [hr, if_pos hp] at h
      have := congrArg List.length h
      cases hq : p.reverse with
      | nil => rw [hq] at hp; simp [HasPrefix] at hp
      | cons c cs =>
        rw [hq] at this
        have hl : p.length = (c :: cs).length := by rw [← hq, List.length_reverse]
        simp at this hl
        omega

/-- A normalised path with at most one slash put before it and at most one after it
normalises to itself. -/
theorem pathItem_padded (p : Str) (h : pathItem p = p) (before after : Bool) :
    pathItem ((if before then ['/'] else []) ++ p ++ (if after then ['/'] else [])) = p := by
  obtain ⟨ht, hpre, hsuf⟩ := pathItem_fixed p h
  cases p with
  | nil => cases before <;> cases after <;> decide
  | cons c cs =>
    obtain ⟨hd1, hd2⟩ := dropWhile_of_TrimSpace (c :: cs) ht
    have hne : (c :: cs).reverse ≠ [] := by simp
    have hslash : isSpace '/' = false := by decide
    have hc : c ≠ '/' := by
      intro e
      rw [e] at hpre
      simp [HasPrefix] at hpre
    cases before <;> cases after
    · simpa using h
    · -- a slash after the path
      have t : TrimSpace (c :: cs ++ ['/']) = c :: cs ++ ['/'] := by
        apply TrimSpace_eq_self
        · exact dropWhile_append_self isSpace (c :: cs) ['/'] (by simp) hd1
        · rw [List.reverse_append]
          show List.dropWhile isSpace ('/' :: (c :: cs).reverse) = _
          rw [List.dropWhile_cons]
          simp [hslash]
      have e1 : TrimPrefix (c :: cs ++ ['/']) ['/'] = c :: cs ++ ['/'] := by
        simp [TrimPrefix, HasPrefix, hc]
      have e2 : TrimSuffix (c :: cs ++ ['/']) ['/'] = c :: cs := by
        unfold TrimSuffix
        rw [List.reverse_append]
        show (TrimPrefix ('/' :: (c :: cs).reverse) ['/']).reverse = _
        simp [TrimPrefix, HasPrefix]
      show pathItem ([] ++ (c :: cs) ++ ['/']) = c :: cs
      unfold pathItem
      rw [List.nil_append, t, e1, e2]
    · -- a slash before the path
      have t : TrimSpace ('/' :: c :: cs) = '/' :: c :: cs := by
        apply TrimSpace_eq_self
        · rw [List.dropWhile_cons]; simp [hslash]
        · rw [List.reverse_cons]
          exact dropWhile_append_self isSpace _ ['/'] hne hd2
      have e1 : TrimPrefix ('/' :: c :: cs) ['/'] = c :: cs := by
        simp [TrimPrefix, HasPrefix]
      have e2 : TrimSuffix (c :: cs) ['/'] = c :: cs := by
        unfold TrimSuffix TrimPrefix
        have hr : ['/'].reverse = ['/'] := rfl
        rw [hr, hsuf]
        simp
      show pathItem (['/'] ++ (c :: cs) ++ []) = c :: cs
      unfold pathItem
      rw [List.append_nil]
      show TrimSuffix ( TrimPrefix (TrimSpace ('/' :: c :: cs)) ['/']) ['/'] = c :: cs
      rw [t, e1, e2]
    · -- a slash on both sides
      have t : TrimSpace ('/' :: (c :: cs ++ ['/'])) = '/' :: (c :: cs ++ ['/']) := by
        apply TrimSpace_eq_self
        · rw [List.dropWhile_cons]; simp [hslash]
        · rw [List.reverse_cons, List.reverse_append]
          show List.dropWhile isSpace ('/' :: ((c :: cs).reverse ++ ['/'])) = _
          rw [List.dropWhile_cons]
          simp [hslash]
      have e1 : TrimPrefix ('/' :: (c :: cs ++ ['/'])) ['/'] = c :: cs ++ ['/'] := by
        simp [TrimPrefix, HasPrefix]
      have e2 : TrimSuffix (c :: cs ++ ['/']) ['/'] = c :: cs := by
        unfold TrimSuffix
        rw [List.reverse_append]
        show (TrimPrefix ('/' :: (c :: cs).reverse) ['/']).reverse = _
        simp [TrimPrefix, HasPrefix]
      show pathItem (['/'] ++ (c :: cs) ++ ['/']) = c :: cs
      unfold pathItem
      show TrimSuffix ( TrimPrefix (TrimSpace ('/' :: (c :: cs ++ ['/']))) ['/']) ['/'] = c :: cs
      rw [t, e1, e2]

/-- `ReadPath` depends on its argument through the normalised path only, but for the text of
the error. -/
theorem ReadPath_congr (srt : SortSlice) (m : SevenZ) (a b : Str)
    (h : pathItem a = pathItem b) :
    (ReadPath srt m a).file = (ReadPath srt m b).file ∧
    (ReadPath srt m a).list = (ReadPath srt m b).list ∧
    (ReadPath srt m a).err.isSome = (ReadPath srt m b).err.isSome := by
  unfold ReadPath resolve
  simp only [h]
  cases walkLevels (Split '/' (pathItem b)).dropLast m.filesTree with
  | none => exact ⟨rfl, rfl, rfl⟩
  | some lvl =>
    simp only []
    split_ifs
    · cases findEntry (pathBase (pathItem b)) lvl with
      | none => exact ⟨rfl, rfl, rfl⟩
      | some v => exact ⟨rfl, rfl, rfl⟩
    · exact ⟨rfl, rfl, rfl⟩

/-- C23, as amended: for every tree and every path `p` in normal form (no white space around
it, no slash at either end; the empty path is one), `ReadPath` on `p` with at most one slash
put before it and at most one slash put after it returns the same file, the same listing and
the same error status as `ReadPath(p)`. -/
theorem C23_one_slash_ignored (srt : SortSlice) (m : SevenZ) (p : Str) (before after : Bool)
    (h : pathItem p = p) :
    (ReadPath srt m ((if before then ['/'] else []) ++ p ++ (if after then ['/'] else []))).file
      = (ReadPath srt m p).file ∧
    (ReadPath srt m ((if before then ['/'] else []) ++ p ++ (if after then ['/'] else []))).list
      = (ReadPath srt m p).list ∧
    (ReadPath srt m
        ((if before then ['/'] else []) ++ p ++ (if after then ['/'] else []))).err.isSome
      = (ReadPath srt m p).err.isSome :=
  ReadPath_congr srt m _ p (by rw [pathItem_padded p h before after, h])

/-- A witness of C23: `/boot/grub.cfg/` gives what `boot/grub.cfg` gives in the sample tree. -/
theorem C23_one_slash_ignored_witness :
    pathItem "boot/grub.cfg".toList = "boot/grub.cfg".toList ∧
    (ReadPath insertionSort (handle sampleTree) "/boot/grub.cfg/".toList).file =
      (ReadPath insertionSort (handle sampleTree) "boot/grub.cfg".toList).file ∧
    (ReadPath insertionSort (handle sampleTree) "/boot/grub.cfg/".toList).list =
      (ReadPath insertionSort (handle sampleTree) "boot/grub.cfg".toList).list ∧
    (ReadPath insertionSort (handle sampleTree) "/boot/grub.cfg/".toList).err.isSome =
      (ReadPath insertionSort (handle sampleTree) "boot/grub.cfg".toList).err.isSome :=
  ⟨by decide,
    C23_one_slash_ignored insertionSort (handle sampleTree) "boot/grub.cfg".toList true true
      (by decide)⟩

/-- C23 (counterexample): in the sample tree `ReadPath("boot")` lists the directory `boot`
without an error, but with two slashes before the path, or two after it, `ReadPath` returns an
error: one slash is removed on each side, not every slash. -/
theorem C23_two_slashes_not_found :
    (ReadPath insertionSort (handle sampleTree) "boot".toList).err.isSome = false ∧
    (ReadPath insertionSort (handle sampleTree) "//boot".toList).err.isSome = true ∧
    (ReadPath insertionSort (handle sampleTree) "boot//".toList).err.isSome = true ∧
    pathItem "//boot".toList = "/boot".toList ∧ pathItem "boot//".toList = "boot/".toList :=
  ⟨rfl, rfl, rfl, rfl, rfl⟩

/-! ## Insert, then resolve -/

theorem dropWhile_isSpace_cons (c : Char) (t : Str) (h : isSpace c = false) :
    (c :: t).dropWhile isSpace = c :: t := by
  rw [List.dropWhile_cons]
  simp [h]

/-- A path written from segments that are not empty and hold no slash and no white space is in
the normal form of `ReadPath`. -/
theorem pathItem_joinSep (init : List Str) (last : Str)
    (h : ∀ s ∈ init ++ [last], s ≠ [] ∧ '/' ∉ s ∧ ∀ c ∈ s, isSpace c = false) :
    pathItem (joinSep '/' (init ++ [last])) = joinSep '/' (init ++ [last]) := by
  have ht : TrimSpace (joinSep '/' (init ++ [last])) = joinSep '/' (init ++ [last]) := by
    apply TrimSpace_eq_self
    · cases hs : init ++ [last] with
      | nil => simp at hs
      | cons f rest =>
        have hf := h f (by rw [hs]; exact List.mem_cons_self _ _)
        cases f with
        | nil => exact absurd rfl hf.1
        | cons c cs =>
          obtain ⟨t, e⟩ := joinSep_head '/' c cs rest
          rw [e]
          exact dropWhile_isSpace_cons c t (hf.2.2 c (List.mem_cons_self _ _))
    · obtain ⟨X, hr, _⟩ := joinSep_reverse '/' init last
      have hl := h last (by simp)
      cases hq : last.reverse with
      | nil => exact absurd (List.reverse_eq_nil_iff.1 hq) hl.1
      | cons c l =>
        have hc : isSpace c = false := hl.2.2 c (by
          have : c ∈ last.reverse := by rw [hq]; exact List.mem_cons_self _ _
          simpa using this)
        rw [hr, hq, List.cons_append]
        exact dropWhile_isSpace_cons c _ hc
  unfold pathItem
  rw [ht]
  exact trim_joinSep init last fun s hs => ⟨(h s hs).1, (h s hs).2.1⟩

/-- The first part of `ReadPath` on a path written from such segments: the walk over all
segments but the last, then the lookup of the last. -/
theorem resolve_joinSep (m : SevenZ) (init : List Str) (last : Str)
    (h : ∀ s ∈ init ++ [last], s ≠ [] ∧ '/' ∉ s ∧ ∀ c ∈ s, isSpace c = false) :
    resolve m (joinSep '/' (init ++ [last])) =
      match walkLevels init m.filesTree with
      | none =>
        Resolved.notFound (Error.errorf ("не найден путь ".toList ++ [quote] ++
          joinSep '/' (init ++ [last]) ++ [quote]))
      | some currentLevel =>
        match findEntry last currentLevel with
        | none =>
          Resolved.notFound (Error.errorf ("не найден путь ".toList ++ [quote] ++
            joinSep '/' (init ++ [last])))
        | some v => if v.IsDir then Resolved.level v.Children else Resolved.file v := by
  have hp := pathItem_joinSep init last h
  have hl := h last (by simp)
  have hsplit : Split '/' (joinSep '/' (init ++ [last])) = init ++ [last] :=
    Split_joinSep '/' _ (by simp) fun s hs => (h s hs).2.1
  have hbase : pathBase (joinSep '/' (init ++ [last])) = last := by
    unfold pathBase
    refine baseWith_joinSep (fun c => decide (c = '/')) '/' (fun _ => 0) '/' init last (by simp)
      hl.1 ?_ rfl
    intro c hc
    have hc2 : c ≠ '/' := fun e => hl.2.1 (e ▸ hc)
    simp [hc2]
  have hne : joinSep '/' (init ++ [last]) ≠ [] := by
    intro e
    rw [e] at hsplit
    have : ([[]] : List Str) = init ++ [last] := hsplit
    have h2 : [([] : Str)].getLast? = (init ++ [last]).getLast? := by rw [this]
    rw [List.getLast?_concat] at h2
    exact hl.1 (by simpa using h2.symm)
  unfold resolve
  simp only [hp, hsplit, hbase, List.dropLast_concat]
  cases walkLevels init m.filesTree with
  | none => rfl
  | some cur => simp only [if_pos hne]

theorem findEntry_of_mem {name : Str} {lvl : List File} (h : ∃ v ∈ lvl, v.Name = name) :
    ∃ w, findEntry name lvl = some w := by
  induction lvl with
  | nil => simp at h
  | cons u us ih =>
    simp only [findEntry]
    split_ifs with hu
    · exact ⟨u, rfl⟩
    · obtain ⟨v, hv, hn⟩ := h
      rcases List.mem_cons.1 hv with rfl | hv
      · exact absurd hn hu
      · exact ih ⟨v, hv, hn⟩

/-- C25: for every tree and every chain of directory segments followed by a terminal entry (a
file or a directory) whose names are not empty and hold no slash and no white space, after
`recurseFileAdd` has inserted the chain, `ReadPath` on the names joined by `/` returns no error;
and when the terminal entry is a file and the level of the insertion held no node of its name
before, `ReadPath` returns the inserted file node, with the name and the size of the entry, and
an empty listing. -/
theorem C25_insert_then_resolve (srt : SortSlice) (m : SevenZ) (dirs : List File) (t : File)
    (hd : ∀ d ∈ dirs, d.IsDir = true)
    (hn : ∀ s ∈ dirs ++ [t], s.Name ≠ [] ∧ '/' ∉ s.Name ∧ ∀ c ∈ s.Name, isSpace c = false) :
    (ReadPath srt { m with filesTree := recurseFileAdd (dirs ++ [t]) 0 m.filesTree }
      (joinSep '/' (dirs.map File.Name ++ [t.Name]))).err = none ∧
    (t.IsDir = false →
      (∀ u ∈ (walkLevels (dirs.map File.Name) m.filesTree).getD [], u.Name ≠ t.Name) →
      ReadPath srt { m with filesTree := recurseFileAdd (dirs ++ [t]) 0 m.filesTree }
        (joinSep '/' (dirs.map File.Name ++ [t.Name])) = ⟨some (newFile t), some [], none⟩ ∧
      (newFile t).Name = t.Name ∧ (newFile t).Size = t.Size) := by
  have hseg : ∀ s ∈ dirs.map File.Name ++ [t.Name],
      s ≠ [] ∧ '/' ∉ s ∧ ∀ c ∈ s, isSpace c = false := by
    intro s hs
    have : s ∈ (dirs ++ [t]).map File.Name := by simpa using hs
    obtain ⟨x, hx, rfl⟩ := List.mem_map.1 this
    exact hn x hx
  have hw := walkLevels_recurseFileAddFrom dirs [t] hd m.filesTree
  have hres := resolve_joinSep
    { m with filesTree := recurseFileAdd (dirs ++ [t]) 0 m.filesTree }
    (dirs.map File.Name) t.Name hseg
  have hw2 : walkLevels (dirs.map File.Name) (recurseFileAdd (dirs ++ [t]) 0 m.filesTree) =
      some (recurseFileAddFrom [t] ((walkLevels (dirs.map File.Name) m.filesTree).getD [])) := by
    simpa [recurseFileAdd] using hw
  simp only [hw2] at hres
  constructor
  · obtain ⟨w, hfind⟩ := findEntry_of_mem (exists_named_recurseFileAddFrom t
      ((walkLevels (dirs.map File.Name) m.filesTree).getD []))
    unfold ReadPath
    rw [hres, hfind]
    simp only []
    split_ifs <;> rfl
  · intro hf hnone
    have e : recurseFileAddFrom [t] ((walkLevels (dirs.map File.Name) m.filesTree).getD []) =
        (walkLevels (dirs.map File.Name) m.filesTree).getD [] ++ [newFile t] := by
      rcases recurseFileAddFrom_cons t [] ((walkLevels (dirs.map File.Name) m.filesTree).getD [])
        with ⟨_, e⟩ | ⟨h2, _⟩ | ⟨h2, _⟩
      · exact e
      · rw [hf] at h2; cases h2
      · rw [hf] at h2; cases h2
    rw [e, findEntry_append (newFile t) [] hnone rfl] at hres
    refine ⟨?_, rfl, rfl⟩
    unfold ReadPath
    rw [hres]
    rfl

/-- A witness of C25: the file `boot/grub/fdt.lst` of size 9 inserted into the sample tree. -/
theorem C25_insert_then_resolve_witness :
    ReadPath insertionSort
      (handle (recurseFileAdd ([part true "boot", part true "grub"] ++
        [File.mk Time.zero false false 9 [] [] "fdt.lst".toList]) 0 sampleTree))
      (joinSep '/' ([part true "boot", part true "grub"].map File.Name ++ ["fdt.lst".toList])) =
    ⟨some (File.mk Time.zero false false 9 [] [] "fdt.lst".toList), some [], none⟩ :=
  ((C25_insert_then_resolve insertionSort (handle sampleTree)
    [part true "boot", part true "grub"]
    (File.mk Time.zero false false 9 [] [] "fdt.lst".toList) (by decide) (by decide)).2 rfl
    (by decide)).1

/-! ## The two walkers -/

theorem uniqueNames_iff (v : File) : File.uniqueNames v = true ↔ UniqueNames v.Children := by
  cases v; simp [File.uniqueNames, File.Children, UniqueNames]

theorem uniqueNames_of_mem {lvl : List File} (h : File.uniqueNamesList lvl = true) {v : File}
    (hv : v ∈ lvl) : UniqueNames v.Children := by
  induction lvl with
  | nil => simp at hv
  | cons u us ih =>
    simp only [File.uniqueNamesList, Bool.and_eq_true] at h
    rcases List.mem_cons.1 hv with rfl | hv
    · exact (uniqueNames_iff _).1 h.1
    · exact ih h.2 hv

theorem filesAreLeaves_of_mem {lvl : List File} (h : File.filesAreLeavesList lvl = true)
    {v : File} (hv : v ∈ lvl) :
    (v.IsDir = false → v.Children = []) ∧ File.filesAreLeavesList v.Children = true := by
  induction lvl with
  | nil => simp at hv
  | cons u us ih =>
    simp only [File.filesAreLeavesList, Bool.and_eq_true] at h
    rcases List.mem_cons.1 hv with rfl | hv
    · cases v with
      | mk a b d sz fp c n =>
        simp only [File.filesAreLeaves, Bool.and_eq_true, Bool.or_eq_true,
          List.isEmpty_iff] at h
        refine ⟨fun hd => ?_, h.1.2⟩
        rcases h.1.1 with h1 | h1
        · simp [File.IsDir] at hd; rw [hd] at h1; cases h1
        · exact h1
    · exact ih h.2 hv

/-- Among siblings of distinct names, the lookup of `readDir` finds the children of the node
that the lookup of `ReadPath` finds, when that node is a directory. -/
theorem findDir_iff_findEntry (s : Str) (lvl : List File) (hn : (lvl.map File.Name).Nodup)
    (l : List File) :
    findDir s lvl = some l ↔
      ∃ v, findEntry s lvl = some v ∧ v.IsDir = true ∧ v.Children = l := by
  induction lvl with
  | nil => simp [findDir, findEntry]
  | cons u us ih =>
    rw [List.map_cons, List.nodup_cons] at hn
    simp only [findDir, findEntry]
    by_cases hu : u.Name = s
    · rw [if_pos hu]
      by_cases hd : u.IsDir = true
      · rw [if_pos ⟨hu, hd⟩]
        constructor
        · intro e
          exact ⟨u, rfl, hd, Option.some.inj e⟩
        · rintro ⟨v, e, _, hc⟩
          cases e
          rw [hc]
      · rw [if_neg (fun h => hd h.2)]
        have hnone : findDir s us = none := by
          apply findDir_none
          intro v hv hh
          exact hn.1 (hu ▸ hh.1 ▸ List.mem_map_of_mem File.Name hv)
        rw [hnone]
        constructor
        · intro e; cases e
        · rintro ⟨v, e, hv, _⟩
          cases e
          exact absurd hv hd
    · rw [if_neg (fun h => hu h.1), if_neg hu]
      exact ih hn.2

theorem findLevel_eq_findEntry (s : Str) (lvl : List File) :
    findLevel s lvl = (findEntry s lvl).map File.Children := by
  induction lvl with
  | nil => rfl
  | cons u us ih =>
    simp only [findLevel, findEntry]
    split_ifs
    · rfl
    · exact ih

theorem findDir_eq_none_or (s : Str) (lvl : List File) (hn : (lvl.map File.Name).Nodup) :
    (findDir s lvl = none ∧ ∀ v, findEntry s lvl = some v → v.IsDir = false) ∨
      ∃ v, findEntry s lvl = some v ∧ v.IsDir = true ∧ findDir s lvl = some v.Children := by
  cases h : findDir s lvl with
  | none =>
    left
    refine ⟨rfl, fun v hv => ?_⟩
    cases hd : v.IsDir with
    | false => rfl
    | true =>
      have := (findDir_iff_findEntry s lvl hn v.Children).2 ⟨v, hv, hd, rfl⟩
      rw [h] at this
      cases this
  | some l =>
    right
    obtain ⟨v, hv, hd, hc⟩ := (findDir_iff_findEntry s lvl hn l).1 h
    exact ⟨v, hv, hd, by rw [hc]⟩

theorem walkLevels_nil_tree (rest : List Str) (last : Str) :
    ¬ ∃ cur v, walkLevels rest [] = some cur ∧ findEntry last cur = some v := by
  rintro ⟨cur, v, hw, hf⟩
  cases rest with
  | nil =>
    simp only [walkLevels] at hw
    cases hw
    simp [findEntry] at hf
  | cons r rs => simp [walkLevels, findLevel] at hw

/-- In a tree with distinct sibling names whose file nodes have no children, the walk of
`readDir` over all the segments reaches what the walk of `ReadPath` over all segments but the
last, followed by the lookup of the last, reaches when it ends on a directory. -/
theorem walkDirs_iff (init : List Str) (last : Str) :
    ∀ tree, UniqueNames tree → File.filesAreLeavesList tree = true → ∀ l,
      (walkDirs (init ++ [last]) tree = some l ↔
        ∃ cur v, walkLevels init tree = some cur ∧ findEntry last cur = some v ∧
          v.IsDir = true ∧ v.Children = l) := by
  induction init with
  | nil =>
    intro tree hu _ l
    have e : walkDirs ([] ++ [last]) tree = findDir last tree := by
      simp only [List.nil_append, walkDirs]
      cases findDir last tree <;> rfl
    rw [e, findDir_iff_findEntry last tree hu.1 l]
    simp only [walkLevels]
    constructor
    · rintro ⟨v, h⟩
      exact ⟨tree, v, rfl, h⟩
    · rintro ⟨cur, v, hc, h⟩
      cases hc
      exact ⟨v, h⟩
  | cons s rest ih =>
    intro tree hu hl l
    simp only [List.cons_append, walkDirs, walkLevels]
    rw [findLevel_eq_findEntry]
    rcases findDir_eq_none_or s tree hu.1 with ⟨hnone, hfile⟩ | ⟨v, hv, hd, hsome⟩
    · rw [hnone]
      simp only []
      constructor
      · intro e; cases e
      · rintro ⟨cur, w, hw, hf, _, _⟩
        exfalso
        cases hfe : findEntry s tree with
        | none => rw [hfe] at hw; cases hw
        | some v =>
          rw [hfe] at hw
          simp only [Option.map_some'] at hw
          have hleaf := (filesAreLeaves_of_mem hl (findEntry_some hfe).1).1 (hfile v hfe)
          rw [hleaf] at hw
          exact walkLevels_nil_tree rest last ⟨cur, w, hw, hf⟩
    · rw [hsome, hv]
      simp only [Option.map_some']
      have hm := (findEntry_some hv).1
      exact ih v.Children (uniqueNames_of_mem hu.2 hm) (filesAreLeaves_of_mem hl hm).2 l

theorem mem_joinSep {sep c : Char} {segs : List Str} (h : c ∈ joinSep sep segs) :
    c = sep ∨ ∃ s ∈ segs, c ∈ s := by
  induction segs with
  | nil => simp [joinSep] at h
  | cons s rest ih =>
    cases rest with
    | nil => exact Or.inr ⟨s, List.mem_cons_self _ _, by simpa [joinSep] using h⟩
    | cons t r =>
      simp only [joinSep, List.mem_append, List.mem_cons] at h
      rcases h with h | h | h
      · exact Or.inr ⟨s, List.mem_cons_self _ _, h⟩
      · exact Or.inl h
      · rcases ih h with e | ⟨x, hx, hc⟩
        · exact Or.inl e
        · exact Or.inr ⟨x, List.mem_cons_of_mem _ hx, hc⟩

theorem ReplaceAll_of_not_mem (s : Str) (old new : Char) (h : old ∉ s) :
    ReplaceAll s old new = s := by
  unfold ReplaceAll
  induction s with
  | nil => rfl
  | cons c cs ih =>
    have hc : c ≠ old := fun e => h (e ▸ List.mem_cons_self _ _)
    rw [List.map_cons, if_neg hc, ih fun e => h (List.mem_cons_of_mem _ e)]

theorem TrimSpace_joinSep (init : List Str) (last : Str)
    (h : ∀ s ∈ init ++ [last], s ≠ [] ∧ ∀ c ∈ s, isSpace c = false) :
    TrimSpace (joinSep '/' (init ++ [last])) = joinSep '/' (init ++ [last]) := by
  apply TrimSpace_eq_self
  · cases hs : init ++ [last] with
    | nil => simp at hs
    | cons f rest =>
      have hf := h f (by rw [hs]; exact List.mem_cons_self _ _)
      cases f with
      | nil => exact absurd rfl hf.1
      | cons c cs =>
        obtain ⟨t, e⟩ := joinSep_head '/' c cs rest
        rw [e]
        exact dropWhile_isSpace_cons c t (hf.2 c (List.mem_cons_self _ _))
  · obtain ⟨X, hr, _⟩ := joinSep_reverse '/' init last
    have hl := h last (by simp)
    cases hq : last.reverse with
    | nil => exact absurd (List.reverse_eq_nil_iff.1 hq) hl.1
    | cons c l =>
      have hc : isSpace c = false := hl.2 c (by
        have : c ∈ last.reverse := by rw [hq]; exact List.mem_cons_self _ _
        simpa using this)
      rw [hr, hq, List.cons_append]
      exact dropWhile_isSpace_cons c _ hc

/-- The walk that `readDir` performs on a path written from segments that are not empty and
hold no slash, no backslash and no white space. -/
theorem readDir_joinSep (m : SevenZ) (init : List Str) (last : Str)
    (h : ∀ s ∈ init ++ [last], s ≠ [] ∧ '/' ∉ s ∧ '\\' ∉ s ∧ ∀ c ∈ s, isSpace c = false) :
    readDir m (joinSep '/' (init ++ [last])) =
      match walkDirs (init ++ [last]) m.filesTree with
      | none => Except.error Error.ErrNotExist
      | some currentFolder => Except.ok currentFolder := by
  have h1 : ReplaceAll (joinSep '/' (init ++ [last])) '\\' '/' = joinSep '/' (init ++ [last]) := by
    apply ReplaceAll_of_not_mem
    intro hc
    rcases mem_joinSep hc with e | ⟨s, hs, hcs⟩
    · exact absurd e (by decide)
    · exact (h s hs).2.2.1 hcs
  have h2 := TrimSpace_joinSep init last fun s hs => ⟨(h s hs).1, (h s hs).2.2.2⟩
  have h3 : TrimLeft (joinSep '/' (init ++ [last])) '/' = joinSep '/' (init ++ [last]) := by
    cases hs : init ++ [last] with
    | nil => simp at hs
    | cons f rest =>
      have hf := h f (by rw [hs]; exact List.mem_cons_self _ _)
      cases f with
      | nil => exact absurd rfl hf.1
      | cons c cs =>
        obtain ⟨t, e⟩ := joinSep_head '/' c cs rest
        have hc : c ≠ '/' := fun e2 => hf.2.1 (e2 ▸ List.mem_cons_self _ _)
        rw [e]
        unfold TrimLeft
        rw [List.dropWhile_cons]
        simp [hc]
  have h4 : Split '/' (joinSep '/' (init ++ [last])) = init ++ [last] :=
    Split_joinSep '/' _ (by simp) fun s hs => (h s hs).2.1
  unfold readDir
  simp only [h1, h2, h3, h4]

/-- On such a path, in a tree with distinct sibling names whose file nodes have no children,
`readDir` returns a child list exactly when the first part of `ReadPath` reaches that child list
as the level to be listed. -/
theorem readDir_iff_resolve (m : SevenZ) (init : List Str) (last : Str)
    (hu : UniqueNames m.filesTree) (hl : File.filesAreLeavesList m.filesTree = true)
    (h : ∀ s ∈ init ++ [last], s ≠ [] ∧ '/' ∉ s ∧ '\\' ∉ s ∧ ∀ c ∈ s, isSpace c = false)
    (l : List File) :
    readDir m (joinSep '/' (init ++ [last])) = Except.ok l ↔
      resolve m (joinSep '/' (init ++ [last])) = Resolved.level l := by
  rw [readDir_joinSep m init last h,
    resolve_joinSep m init last fun s hs => ⟨(h s hs).1, (h s hs).2.1, (h s hs).2.2.2⟩]
  have key := walkDirs_iff init last m.filesTree hu hl l
  constructor
  · intro e
    cases hw : walkDirs (init ++ [last]) m.filesTree with
    | none => rw [hw] at e; cases e
    | some l0 =>
      rw [hw] at e
      have e2 : l0 = l := by cases e; rfl
      obtain ⟨cur, v, h1, h2, h3, h4⟩ := key.1 (by rw [hw, e2])
      rw [h1]
      simp only [h2, h3, if_true, h4]
  · intro e
    cases h1 : walkLevels init m.filesTree with
    | none => rw [h1] at e; cases e
    | some cur =>
      rw [h1] at e
      simp only [] at e
      cases h2 : findEntry last cur with
      | none => rw [h2] at e; cases e
      | some v =>
        rw [h2] at e
        simp only [] at e
        cases h3 : v.IsDir with
        | false => simp [h3] at e
        | true =>
          simp only [h3, if_true] at e
          have h4 : v.Children = l := by cases e; rfl
          rw [key.2 ⟨cur, v, h1, h2, h3, h4⟩]

/-- C26, as amended: for every tree in which sibling names are pairwise distinct and file nodes
have no children, and every path of one or more segments that are not empty and hold no slash,
no backslash and no white space, `readDir` succeeds on the path if and only if `ReadPath`
succeeds on it without returning a file, and in that case the listing of `ReadPath` is a
rearrangement of the child list that `readDir` returns. -/
theorem C26_walkers_agree (srt : SortSlice) (m : SevenZ) (segs : List Str)
    (hu : UniqueNames m.filesTree) (hl : File.filesAreLeavesList m.filesTree = true)
    (hne : segs ≠ [])
    (hs : ∀ s ∈ segs, s ≠ [] ∧ '/' ∉ s ∧ '\\' ∉ s ∧ ∀ c ∈ s, isSpace c = false) :
    ((∃ l, readDir m (joinSep '/' segs) = Except.ok l) ↔
      ((ReadPath srt m (joinSep '/' segs)).err = none ∧
        (ReadPath srt m (joinSep '/' segs)).file = none)) ∧
    (∀ l, readDir m (joinSep '/' segs) = Except.ok l →
      ∃ listing, (ReadPath srt m (joinSep '/' segs)).list = some listing ∧ listing.Perm l) := by
  rcases List.eq_nil_or_concat segs with e | ⟨init, last, e⟩
  · exact absurd e hne
  · rw [List.concat_eq_append] at e
    subst e
    have key := readDir_iff_resolve m init last hu hl hs
    refine ⟨⟨?_, ?_⟩, ?_⟩
    · rintro ⟨l, hr⟩
      unfold ReadPath
      rw [(key l).1 hr]
      exact ⟨rfl, rfl⟩
    · intro hp
      unfold ReadPath at hp
      cases hres : resolve m (joinSep '/' (init ++ [last])) with
      | notFound err => rw [hres] at hp; cases hp.1
      | file v => rw [hres] at hp; cases hp.2
      | level l => exact ⟨l, (key l).2 hres⟩
    · intro l hr
      unfold ReadPath
      rw [(key l).1 hr]
      exact ⟨_, rfl, readLevel_perm srt l⟩

/-- A witness of C26: `boot/grub` in the sample tree, where both walkers reach the child list
of the directory `grub`. -/
theorem C26_walkers_agree_witness :
    (∃ l, readDir (handle sampleTree) (joinSep '/' ["boot".toList, "grub".toList])
      = Except.ok l) ↔
      ((ReadPath insertionSort (handle sampleTree)
          (joinSep '/' ["boot".toList, "grub".toList])).err = none ∧
        (ReadPath insertionSort (handle sampleTree)
          (joinSep '/' ["boot".toList, "grub".toList])).file = none) :=
  (C26_walkers_agree insertionSort (handle sampleTree) ["boot".toList, "grub".toList]
    (by decide) (by decide) (by decide) (by decide)).1

/-- C26 as stated fails: in a tree whose only node is a directory named `a\b` (sibling names
are distinct, the segment is not empty and holds no white space), `ReadPath` lists the
directory for the path `a\b`, and `readDir`, which first turns every backslash into a slash,
does not find it. -/
theorem C26_backslash_segment :
    UniqueNames backslashTree ∧
    ("a\\b".toList ≠ [] ∧ ∀ c ∈ "a\\b".toList, isSpace c = false) ∧
    readDir (handle backslashTree) "a\\b".toList = Except.error Error.ErrNotExist ∧
    ReadPath insertionSort (handle backslashTree) "a\\b".toList
      = ⟨none, some [part false "c"], none⟩ :=
  ⟨by decide, by decide, rfl, rfl⟩

/-! ## The order of the listing -/

/-- C21 fails on entries for a file `a` and for a file `a/b` (the chain of the directory `a`
and the file `b`): inserted into the empty tree in this order, they give a tree without a
directory, the file `b` hanging below the file node `a`; inserted in the other order, they give
a tree with the directory `a`.  The two sequences are rearrangements of each other and the sets
of directory paths of the two trees differ. -/
theorem C21_order_changes_directories :
    [[part false "a"], [part true "a", part false "b"]].Perm
      [[part true "a", part false "b"], [part false "a"]] ∧
    recurseFileAdd [part true "a", part false "b"] 0 (recurseFileAdd [part false "a"] 0 [])
      = [File.mk Time.zero false false 0 [] [part false "b"] "a".toList] ∧
    recurseFileAdd [part false "a"] 0 (recurseFileAdd [part true "a", part false "b"] 0 [])
      = [File.mk Time.zero false true 0 [] [part false "b"] "a".toList, part false "a"] ∧
    File.dirPathsList
      (recurseFileAdd [part true "a", part false "b"] 0 (recurseFileAdd [part false "a"] 0 []))
      = [] ∧
    File.dirPathsList
      (recurseFileAdd [part false "a"] 0 (recurseFileAdd [part true "a", part false "b"] 0 []))
      = [["a".toList]] :=
  ⟨List.Perm.swap _ _ _, rfl, rfl, rfl, rfl⟩

/-! ## The numbers of directory and file nodes -/

theorem dirPathsList_append (a b : List File) :
    File.dirPathsList (a ++ b) = File.dirPathsList a ++ File.dirPathsList b := by
  induction a with
  | nil => simp [File.dirPathsList]
  | cons v vs ih => simp [File.dirPathsList, ih]

theorem filePathsList_append (a b : List File) :
    File.filePathsList (a ++ b) = File.filePathsList a ++ File.filePathsList b := by
  induction a with
  | nil => simp [File.filePathsList]
  | cons v vs ih => simp [File.filePathsList, ih]

theorem dirPaths_eq (v : File) :
    File.dirPaths v = (if v.IsDir then [[v.Name]] else []) ++
      (File.dirPathsList v.Children).map fun p => v.Name :: p := by
  cases v; simp [File.dirPaths, File.IsDir, File.Name, File.Children]

theorem filePaths_eq (v : File) :
    File.filePaths v = (if v.IsDir then [] else [[v.Name]]) ++
      (File.filePathsList v.Children).map fun p => v.Name :: p := by
  cases v; simp [File.filePaths, File.IsDir, File.Name, File.Children]

theorem countDirs_eq (v : File) :
    File.countDirs v = (if v.IsDir then 1 else 0) + File.countDirsList v.Children := by
  cases v; simp [File.countDirs, File.IsDir, File.Children]

mutual
/-- A tree has as many directory nodes as directory paths. -/
theorem length_dirPaths : ∀ v : File, (File.dirPaths v).length = File.countDirs v
  | .mk _ _ d _ _ c _ => by
    simp only [File.dirPaths, File.countDirs, List.length_append, List.length_map,
      length_dirPathsList c]
    cases d <;> simp
/-- A list of trees has as many directory nodes as directory paths. -/
theorem length_dirPathsList : ∀ l : List File, (File.dirPathsList l).length = File.countDirsList l
  | [] => rfl
  | v :: vs => by
    simp only [File.dirPathsList, File.countDirsList, List.length_append, length_dirPaths v,
      length_dirPathsList vs]
end

theorem dirPaths_head {v : File} {p : List Str} (h : p ∈ File.dirPaths v) :
    ∃ q, p = v.Name :: q := by
  rw [dirPaths_eq] at h
  rcases List.mem_append.1 h with h | h
  · split_ifs at h
    · simp at h; exact ⟨[], h⟩
    · simp at h
  · obtain ⟨q, _, rfl⟩ := List.mem_map.1 h
    exact ⟨q, rfl⟩

theorem mem_dirPathsList {tree : List File} {p : List Str} :
    p ∈ File.dirPathsList tree ↔ ∃ v ∈ tree, p ∈ File.dirPaths v := by
  induction tree with
  | nil => simp [File.dirPathsList]
  | cons u us ih => simp [File.dirPathsList, ih]

theorem mem_filePathsList {tree : List File} {p : List Str} :
    p ∈ File.filePathsList tree ↔ ∃ v ∈ tree, p ∈ File.filePaths v := by
  induction tree with
  | nil => simp [File.filePathsList]
  | cons u us ih => simp [File.filePathsList, ih]

theorem dirPathsList_head {tree : List File} {p : List Str} (h : p ∈ File.dirPathsList tree) :
    ∃ v ∈ tree, ∃ q, p = v.Name :: q := by
  obtain ⟨v, hv, hp⟩ := mem_dirPathsList.1 h
  exact ⟨v, hv, dirPaths_head hp⟩

theorem dirPaths_setChildren (v : File) (c : List File) :
    File.dirPaths (v.setChildren c) = (if v.IsDir then [[v.Name]] else []) ++
      (File.dirPathsList c).map fun p => v.Name :: p := by
  cases v; simp [File.dirPaths, File.setChildren, File.IsDir, File.Name]

theorem filePaths_setChildren (v : File) (c : List File) :
    File.filePaths (v.setChildren c) = (if v.IsDir then [] else [[v.Name]]) ++
      (File.filePathsList c).map fun p => v.Name :: p := by
  cases v; simp [File.filePaths, File.setChildren, File.IsDir, File.Name]

theorem ancestorsAreDirs_cons {d : File} {rest : List File}
    (h : ancestorsAreDirs (d :: rest) = true) :
    ancestorsAreDirs rest = true ∧ (d.IsDir = false → rest = []) := by
  cases rest with
  | nil => exact ⟨rfl, fun _ => rfl⟩
  | cons t r =>
    simp only [ancestorsAreDirs, Bool.and_eq_true] at h
    exact ⟨h.2, fun hd => by rw [hd] at h; cases h.1⟩

theorem nodup_graft {α : Type} (A B B2 C : List (List α)) (n : α)
    (h : (A ++ (B ++ C)).Nodup) (hB : B2.Nodup) (hhead : ∀ p ∈ B2, ∃ q, p = n :: q)
    (hother : ∀ p ∈ A ++ C, ∀ q, p ≠ n :: q) : (A ++ (B2 ++ C)).Nodup := by
  rw [List.nodup_append] at h ⊢
  obtain ⟨hA, hBC, hdis⟩ := h
  rw [List.nodup_append] at hBC ⊢
  obtain ⟨_, hC, _⟩ := hBC
  refine ⟨hA, ⟨hB, hC, ?_⟩, ?_⟩
  · intro p hp hpc
    obtain ⟨q, rfl⟩ := hhead p hp
    exact hother _ (List.mem_append_right _ hpc) q rfl
  · intro p hp hp2
    rcases List.mem_append.1 hp2 with h2 | h2
    · obtain ⟨q, rfl⟩ := hhead p h2
      exact hother _ (List.mem_append_left _ hp) q rfl
    · exact hdis hp (List.mem_append_right _ h2)

theorem nodup_cons_paths {α : Type} (n : α) (X : List (List α)) (hX : X.Nodup)
    (h0 : [] ∉ X) : ([[n]] ++ X.map fun p => n :: p).Nodup := by
  rw [List.singleton_append, List.nodup_cons]
  refine ⟨?_, hX.map (List.cons_injective)⟩
  intro h
  obtain ⟨q, hq, e⟩ := List.mem_map.1 h
  simp at e
  exact h0 (e ▸ hq)

theorem cons_paths_head {α : Type} {n : α} {X : List (List α)} {p : List α}
    (h : p ∈ [[n]] ++ X.map fun p => n :: p) : ∃ q, p = n :: q := by
  rcases List.mem_append.1 h with h | h
  · exact ⟨[], by simpa using h⟩
  · obtain ⟨q, _, rfl⟩ := List.mem_map.1 h
    exact ⟨q, rfl⟩

theorem nil_not_mem_dirPathsList (tree : List File) : [] ∉ File.dirPathsList tree := by
  intro h
  obtain ⟨v, _, q, e⟩ := dirPathsList_head h
  cases e

theorem file_mem_filePathsList {tree : List File} {u : File} (hu : u ∈ tree)
    (hf : u.IsDir = false) : [u.Name] ∈ File.filePathsList tree := by
  refine mem_filePathsList.2 ⟨u, hu, ?_⟩
  rw [filePaths_eq, hf]
  simp

theorem child_mem_filePathsList {tree : List File} {u : File} (hu : u ∈ tree) {q : List Str}
    (hq : q ∈ File.filePathsList u.Children) : u.Name :: q ∈ File.filePathsList tree := by
  refine mem_filePathsList.2 ⟨u, hu, ?_⟩
  rw [filePaths_eq]
  exact List.mem_append_right _ (List.mem_map_of_mem _ hq)

theorem dir_mem_dirPathsList {tree : List File} {u : File} (hu : u ∈ tree)
    (hd : u.IsDir = true) : [u.Name] ∈ File.dirPathsList tree := by
  refine mem_dirPathsList.2 ⟨u, hu, ?_⟩
  rw [dirPaths_eq, hd]
  simp

/-- When no directory path of the chain is the path of a file node of the tree, inserting the
chain adds the directory paths of the chain to those of the tree, and adds none twice. -/
theorem recurseFileAddFrom_dirPaths (c : List File) :
    ancestorsAreDirs c = true → ∀ tree, (File.dirPathsList tree).Nodup →
      (∀ p ∈ chainDirPaths c, p ∉ File.filePathsList tree) →
      (File.dirPathsList (recurseFileAddFrom c tree)).Nodup ∧
      ∀ p, p ∈ File.dirPathsList (recurseFileAddFrom c tree) ↔
        p ∈ File.dirPathsList tree ∨ p ∈ chainDirPaths c := by
  induction c with
  | nil =>
    intro _ tree hnd _
    have e : recurseFileAddFrom [] tree = tree := by simp [recurseFileAddFrom]
    rw [e]
    exact ⟨hnd, fun p => by simp [chainDirPaths]⟩
  | cons d rest ih =>
    intro hshape tree hnd hclash
    obtain ⟨hrest, hfile⟩ := ancestorsAreDirs_cons hshape
    rcases recurseFileAddFrom_cons d rest tree with ⟨hd, e⟩ | ⟨hd, hno, e⟩ |
      ⟨hd, pre, v, post, et, hpre, hv, e⟩
    · have hr := hfile hd
      subst hr
      have e1 : File.dirPathsList [newFile d] = [] := by
        simp [File.dirPathsList, dirPaths_eq, newFile, File.IsDir, File.Children]
      have e2 : chainDirPaths [d] = [] := by simp [chainDirPaths, hd]
      rw [e, dirPathsList_append, e1, e2, List.append_nil]
      exact ⟨hnd, fun p => by simp⟩
    · obtain ⟨hn2, hm2⟩ := ih hrest [] (by simp [File.dirPathsList])
        (by simp [File.filePathsList])
      have e1 : File.dirPathsList
          [File.mk Time.zero false true 0 [] (recurseFileAddFrom rest []) d.Name] =
          [[d.Name]] ++ (File.dirPathsList (recurseFileAddFrom rest [])).map
            fun p => d.Name :: p := by
        simp [File.dirPathsList, File.dirPaths]
      have e2 : chainDirPaths (d :: rest) =
          [[d.Name]] ++ (chainDirPaths rest).map fun p => d.Name :: p := by
        simp [chainDirPaths, hd]
      rw [e, dirPathsList_append, e1, e2]
      constructor
      · rw [List.nodup_append]
        refine ⟨hnd, nodup_cons_paths d.Name _ hn2 (nil_not_mem_dirPathsList _), ?_⟩
        intro p hp hp2
        obtain ⟨u, hu, q, rfl⟩ := dirPathsList_head hp
        obtain ⟨q2, e3⟩ := cons_paths_head hp2
        exact hno u hu (List.cons.inj e3).1
      · intro p
        simp only [List.mem_append, List.mem_map, hm2, File.dirPathsList, List.not_mem_nil,
          false_or]
    · subst et
      have hvm : v ∈ pre ++ v :: post := by simp
      have hhead : [d.Name] ∈ chainDirPaths (d :: rest) := by simp [chainDirPaths, hd]
      have hvd : v.IsDir = true := by
        cases hvd : v.IsDir with
        | true => rfl
        | false =>
          exact absurd (hv ▸ file_mem_filePathsList hvm hvd) (hclash _ hhead)
      have es : File.dirPathsList (pre ++ v :: post) =
          File.dirPathsList pre ++ (File.dirPaths v ++ File.dirPathsList post) := by
        rw [dirPathsList_append]; rfl
      have es2 : File.dirPathsList
          (pre ++ v.setChildren (recurseFileAddFrom rest v.Children) :: post) =
          File.dirPathsList pre ++
            (File.dirPaths (v.setChildren (recurseFileAddFrom rest v.Children))
              ++ File.dirPathsList post) := by
        rw [dirPathsList_append]; rfl
      rw [es] at hnd
      have hnd2 := hnd
      rw [List.nodup_append] at hnd2
      obtain ⟨_, hvp, _⟩ := hnd2
      rw [List.nodup_append] at hvp
      obtain ⟨hvn, _, hdis⟩ := hvp
      have hself : [v.Name] ∈ File.dirPaths v := by rw [dirPaths_eq, hvd]; simp
      have hothers : ∀ u ∈ pre ++ post, u.Name ≠ d.Name := by
        intro u hu hname
        rcases List.mem_append.1 hu with hu | hu
        · exact hpre u hu hname
        · have hum : u ∈ pre ++ v :: post := by simp [hu]
          cases hud : u.IsDir with
          | true =>
            have h1 : [u.Name] ∈ File.dirPathsList post := dir_mem_dirPathsList hu hud
            rw [hname, ← hv] at h1
            exact hdis hself h1
          | false =>
            exact absurd (hname ▸ file_mem_filePathsList hum hud) (hclash _ hhead)
      have hvn2 : (File.dirPathsList v.Children).Nodup := by
        rw [dirPaths_eq, hvd] at hvn
        simp only [if_true] at hvn
        rw [List.nodup_append] at hvn
        exact List.Nodup.of_map _ hvn.2.1
      have hclash2 : ∀ p ∈ chainDirPaths rest, p ∉ File.filePathsList v.Children := by
        intro p hp hp2
        have h1 := child_mem_filePathsList hvm hp2
        rw [hv] at h1
        refine hclash _ ?_ h1
        simp only [chainDirPaths, List.mem_append, List.mem_map]
        exact Or.inr ⟨p, hp, rfl⟩
      obtain ⟨hn3, hm3⟩ := ih hrest v.Children hvn2 hclash2
      have ev : File.dirPaths (v.setChildren (recurseFileAddFrom rest v.Children)) =
          [[d.Name]] ++ (File.dirPathsList (recurseFileAddFrom rest v.Children)).map
            fun p => d.Name :: p := by
        rw [dirPaths_setChildren, hvd, hv]; rfl
      have ev0 : File.dirPaths v =
          [[d.Name]] ++ (File.dirPathsList v.Children).map fun p => d.Name :: p := by
        rw [dirPaths_eq, hvd, hv]; rfl
      have e2 : chainDirPaths (d :: rest) =
          [[d.Name]] ++ (chainDirPaths rest).map fun p => d.Name :: p := by
        simp [chainDirPaths, hd]
      rw [e, es2, es]
      constructor
      · refine nodup_graft _ (File.dirPaths v) _ _ d.Name hnd ?_ ?_ ?_
        · rw [ev]
          exact nodup_cons_paths d.Name _ hn3 (nil_not_mem_dirPathsList _)
        · intro p hp
          rw [ev] at hp
          exact cons_paths_head hp
        · intro p hp q e3
          rw [← dirPathsList_append] at hp
          obtain ⟨u, hu, q2, e4⟩ := dirPathsList_head hp
          rw [e3] at e4
          exact hothers u hu (List.cons.inj e4).1.symm
      · intro p
        rw [ev, ev0, e2]
        simp only [List.mem_append, List.mem_map, List.mem_singleton, hm3]
        constructor
        · rintro (h | (h | ⟨q, hq | hq, rfl⟩) | h)
          · exact Or.inl (Or.inl h)
          · exact Or.inr (Or.inl h)
          · exact Or.inl (Or.inr (Or.inl (Or.inr ⟨q, hq, rfl⟩)))
          · exact Or.inr (Or.inr ⟨q, hq, rfl⟩)
          · exact Or.inl (Or.inr (Or.inr h))
        · rintro ((h | (h | ⟨q, hq, rfl⟩) | h) | (h | ⟨q, hq, rfl⟩))
          · exact Or.inl h
          · exact Or.inr (Or.inl (Or.inl h))
          · exact Or.inr (Or.inl (Or.inr ⟨q, Or.inl hq, rfl⟩))
          · exact Or.inr (Or.inr h)
          · exact Or.inr (Or.inl (Or.inl h))
          · exact Or.inr (Or.inl (Or.inr ⟨q, Or.inr hq, rfl⟩))

/-- Every file path of the tree after the insertion of a chain is a file path of the tree
before it or the file path of the chain. -/
theorem recurseFileAddFrom_filePaths (c : List File) :
    ancestorsAreDirs c = true → ∀ tree, ∀ p ∈ File.filePathsList (recurseFileAddFrom c tree),
      p ∈ File.filePathsList tree ∨ p ∈ chainFilePaths c := by
  induction c with
  | nil =>
    intro _ tree p hp
    have e : recurseFileAddFrom [] tree = tree := by simp [recurseFileAddFrom]
    rw [e] at hp
    exact Or.inl hp
  | cons d rest ih =>
    intro hshape tree p hp
    obtain ⟨hrest, hfile⟩ := ancestorsAreDirs_cons hshape
    rcases recurseFileAddFrom_cons d rest tree with ⟨hd, e⟩ | ⟨hd, hno, e⟩ |
      ⟨hd, pre, v, post, et, hpre, hv, e⟩
    · rw [e, filePathsList_append] at hp
      rcases List.mem_append.1 hp with hp | hp
      · exact Or.inl hp
      · right
        have e1 : File.filePathsList [newFile d] = [[d.Name]] := by
          simp [File.filePathsList, filePaths_eq, newFile, File.IsDir, File.Children, File.Name]
        rw [e1] at hp
        simp only [chainFilePaths, hd, List.mem_append]
        exact Or.inl (by simpa using hp)
    · rw [e, filePathsList_append] at hp
      rcases List.mem_append.1 hp with hp | hp
      · exact Or.inl hp
      · right
        have e1 : File.filePathsList
            [File.mk Time.zero false true 0 [] (recurseFileAddFrom rest []) d.Name] =
            (File.filePathsList (recurseFileAddFrom rest [])).map fun p => d.Name :: p := by
          simp [File.filePathsList, File.filePaths]
        rw [e1] at hp
        obtain ⟨q, hq, rfl⟩ := List.mem_map.1 hp
        rcases ih hrest [] q hq with h | h
        · simp [File.filePathsList] at h
        · simp only [chainFilePaths, List.mem_append, List.mem_map]
          exact Or.inr ⟨q, h, rfl⟩
    · subst et
      have hvm : v ∈ pre ++ v :: post := by simp
      have es : ∀ w : File, File.filePathsList (pre ++ w :: post) =
          File.filePathsList pre ++ (File.filePaths w ++ File.filePathsList post) := by
        intro w; rw [filePathsList_append]; rfl
      rw [e, es] at hp
      rw [es]
      rcases List.mem_append.1 hp with hp | hp
      · exact Or.inl (List.mem_append_left _ hp)
      rcases List.mem_append.1 hp with hp | hp
      · rw [filePaths_setChildren] at hp
        rcases List.mem_append.1 hp with hp | hp
        · left
          refine List.mem_append_right _ (List.mem_append_left _ ?_)
          rw [filePaths_eq]
          exact List.mem_append_left _ hp
        · obtain ⟨q, hq, rfl⟩ := List.mem_map.1 hp
          rcases ih hrest v.Children q hq with h | h
          · left
            refine List.mem_append_right _ (List.mem_append_left _ ?_)
            rw [filePaths_eq]
            exact List.mem_append_right _ (List.mem_map_of_mem _ h)
          · right
            rw [hv]
            simp only [chainFilePaths, List.mem_append, List.mem_map]
            exact Or.inr ⟨q, h, rfl⟩
      · exact Or.inl (List.mem_append_right _ (List.mem_append_right _ hp))

/-- Inserting a chain adds as many file nodes as the chain describes file paths: one when it
ends in a file, none when it ends in a directory. -/
theorem countFilesList_chain (c : List File) :
    ancestorsAreDirs c = true → ∀ tree,
      File.countFilesList (recurseFileAddFrom c tree) =
        File.countFilesList tree + (chainFilePaths c).length := by
  induction c with
  | nil =>
    intro _ tree
    have e : recurseFileAddFrom [] tree = tree := by simp [recurseFileAddFrom]
    rw [e]
    simp [chainFilePaths]
  | cons d rest ih =>
    intro hshape tree
    obtain ⟨hrest, hfile⟩ := ancestorsAreDirs_cons hshape
    rcases recurseFileAddFrom_cons d rest tree with ⟨hd, e⟩ | ⟨hd, hno, e⟩ |
      ⟨hd, pre, v, post, et, hpre, hv, e⟩
    · have hr := hfile hd
      subst hr
      rw [e, countFilesList_append]
      simp [File.countFilesList, File.countFiles, newFile, chainFilePaths, hd]
    · have h0 := ih hrest []
      rw [e, countFilesList_append]
      simp [File.countFilesList, File.countFiles, chainFilePaths, hd, h0]
    · subst et
      have h0 := ih hrest v.Children
      have h1 := countFiles_setChildren v (recurseFileAddFrom rest v.Children)
      rw [e, countFilesList_append, countFilesList_append]
      simp only [File.countFilesList, chainFilePaths, hd, if_true, List.nil_append,
        List.length_map]
      omega

theorem allDirPaths_append (a b : List (List File)) :
    allDirPaths (a ++ b) = allDirPaths a ++ allDirPaths b := by
  induction a with
  | nil => rfl
  | cons c cs ih => simp [allDirPaths, ih]

theorem allFilePaths_append (a b : List (List File)) :
    allFilePaths (a ++ b) = allFilePaths a ++ allFilePaths b := by
  induction a with
  | nil => rfl
  | cons c cs ih => simp [allFilePaths, ih]

theorem ancestorsAreDirs_concat (dirs : List File) (t : File)
    (h : ∀ d ∈ dirs, d.IsDir = true) : ancestorsAreDirs (dirs ++ [t]) = true := by
  induction dirs with
  | nil => rfl
  | cons d ds ih =>
    have hds := ih fun x hx => h x (List.mem_cons_of_mem _ hx)
    cases hq : ds ++ [t] with
    | nil => simp at hq
    | cons u us =>
      rw [List.cons_append, hq]
      simp only [ancestorsAreDirs, Bool.and_eq_true]
      exact ⟨h d (List.mem_cons_self _ _), hq ▸ hds⟩

/-- The directory paths of the tree built from chains among which no path is described both as
a file and as a directory are the directory paths that the chains describe, each one once. -/
theorem allDirPaths_of_fold (chains : List (List File)) :
    (∀ c ∈ chains, ancestorsAreDirs c = true) → ∀ (done : List (List File)) (tree : List File),
      (File.dirPathsList tree).Nodup →
      (∀ p, p ∈ File.dirPathsList tree ↔ p ∈ allDirPaths done) →
      (∀ p ∈ File.filePathsList tree, p ∈ allFilePaths done) →
      NoClash (done ++ chains) →
      (File.dirPathsList (chains.foldl (fun t c => recurseFileAdd c 0 t) tree)).Nodup ∧
      ∀ p, p ∈ File.dirPathsList (chains.foldl (fun t c => recurseFileAdd c 0 t) tree) ↔
        p ∈ allDirPaths (done ++ chains) := by
  induction chains with
  | nil =>
    intro _ done tree hnd hm _ _
    simpa using ⟨hnd, hm⟩
  | cons c cs ih =>
    intro hshape done tree hnd hm hf hno
    have hc := hshape c (List.mem_cons_self _ _)
    have e : recurseFileAdd c 0 tree = recurseFileAddFrom c tree := by simp [recurseFileAdd]
    have hclash : ∀ p ∈ chainDirPaths c, p ∉ File.filePathsList tree := by
      intro p hp hp2
      refine hno p ?_ ?_
      · rw [allFilePaths_append]
        exact List.mem_append_left _ (hf p hp2)
      · rw [allDirPaths_append]
        exact List.mem_append_right _ (List.mem_append_left _ hp)
    obtain ⟨hn1, hm1⟩ := recurseFileAddFrom_dirPaths c hc tree hnd hclash
    have hone : allDirPaths [c] = chainDirPaths c := by simp [allDirPaths]
    have hone2 : allFilePaths [c] = chainFilePaths c := by simp [allFilePaths]
    have happ : done ++ c :: cs = (done ++ [c]) ++ cs := by simp
    rw [List.foldl_cons, e, happ]
    refine ih (fun x hx => hshape x (List.mem_cons_of_mem _ hx)) (done ++ [c]) _ hn1 ?_ ?_
      (happ ▸ hno)
    · intro p
      rw [hm1, allDirPaths_append, hone, List.mem_append, hm]
    · intro p hp
      rw [allFilePaths_append, hone2, List.mem_append]
      rcases recurseFileAddFrom_filePaths c hc tree p hp with h | h
      · exact Or.inl (hf p h)
      · exact Or.inr h

/-- The tree built from chains holds the file nodes it held and one more for every file path
that the chains describe. -/
theorem countFilesList_of_fold (chains : List (List File)) :
    (∀ c ∈ chains, ancestorsAreDirs c = true) → ∀ tree : List File,
      File.countFilesList (chains.foldl (fun t c => recurseFileAdd c 0 t) tree) =
        File.countFilesList tree + (allFilePaths chains).length := by
  induction chains with
  | nil => intro _ tree; simp [allFilePaths]
  | cons c cs ih =>
    intro hshape tree
    have e : recurseFileAdd c 0 tree = recurseFileAddFrom c tree := by simp [recurseFileAdd]
    rw [List.foldl_cons, e, ih fun x hx => hshape x (List.mem_cons_of_mem _ hx),
      countFilesList_chain c (hshape c (List.mem_cons_self _ _))]
    simp only [allFilePaths, List.length_append]
    omega

theorem ancestorsAreDirs_filePathParts (P : Platform) (m : Match) (path : Str) :
    ancestorsAreDirs (filePathParts P m path) = true := by
  unfold filePathParts
  apply ancestorsAreDirs_concat
  intro d hd
  obtain ⟨x, _, rfl⟩ := List.mem_map.1 hd
  rfl

theorem ancestorsAreDirs_listingChains (P : Platform) (lines : List Str) :
    ∀ pathPrefix, ∀ c ∈ listingChains P pathPrefix lines, ancestorsAreDirs c = true := by
  induction lines with
  | nil => intro _ c hc; simp [listingChains] at hc
  | cons l ls ih =>
    intro pre c hc
    simp only [listingChains] at hc
    split at hc
    · exact ih pre c hc
    · split_ifs at hc
      · exact ih _ c hc
      · rcases List.mem_cons.1 hc with rfl | hc
        · exact ancestorsAreDirs_filePathParts P _ _
        · exact ih pre c hc

/-- The loop of `readFilesFromISO` inserts the chains of the listing, in order. -/
theorem foldl_readLine_chains (P : Platform) (lines : List Str) :
    ∀ st : ParseState, (lines.foldl (readLine P) st).result =
      (listingChains P st.pathPrefix lines).foldl (fun t c => recurseFileAdd c 0 t)
        st.result := by
  induction lines with
  | nil => intro st; rfl
  | cons l ls ih =>
    intro st
    rw [List.foldl_cons, ih]
    simp only [listingChains, readLine]
    cases FindStringSubmatch (TrimSpace l) with
    | none => rfl
    | some m =>
      simp only []
      split_ifs
      · rfl
      · rfl

/-- C22, as amended: for every listing, `readFilesFromISO` returns a tree; the chains of the
listing being those of its matching lines other than the line of the path `.`, each for the
path of the line after the removal of the path prefix, the tree holds exactly as many file nodes
as the chains describe file paths, a path described by several lines counted once per line; and
when no path is described both as a file and as a directory, the tree holds exactly as many
directory nodes as the chains describe distinct directory paths, ancestors included. -/
theorem C22_node_counts (P : Platform) (m : SevenZ) (output : Str) :
    ∃ tree, (readFilesFromISO P m (Except.ok output)).2 = Except.ok tree ∧
      File.countFilesList tree =
        (allFilePaths (listingChains P m.pathPrefix (Split '\n' output))).length ∧
      (NoClash (listingChains P m.pathPrefix (Split '\n' output)) →
        File.countDirsList tree =
          (allDirPaths (listingChains P m.pathPrefix (Split '\n' output))).dedup.length) := by
  have hshape := ancestorsAreDirs_listingChains P (Split '\n' output) m.pathPrefix
  have hfold := foldl_readLine_chains P (Split '\n' output) ⟨m.pathPrefix, []⟩
  refine ⟨_, rfl, ?_, ?_⟩
  · show File.countFilesList ((Split '\n' output).foldl (readLine P) ⟨m.pathPrefix, []⟩).result
      = _
    rw [hfold, countFilesList_of_fold _ hshape]
    simp [File.countFilesList]
  · intro hno
    show File.countDirsList ((Split '\n' output).foldl (readLine P) ⟨m.pathPrefix, []⟩).result
      = _
    rw [hfold, ← length_dirPathsList]
    obtain ⟨hn, hm⟩ := allDirPaths_of_fold _ hshape [] []
      (by simp [File.dirPathsList]) (by simp [File.dirPathsList, allDirPaths])
      (by simp [File.filePathsList]) (by simpa using hno)
    apply List.Perm.length_eq
    rw [List.perm_ext_iff_of_nodup hn (List.nodup_dedup _)]
    intro p
    rw [hm, List.mem_dedup, List.nil_append]

/-- A witness of C22: the listing of a TAR archive with the entries `.`, `.\dists` and
`.\dists\Release` describes one file and, twice, the directory `dists`; the tree holds one
file node and one directory node. -/
theorem C22_node_counts_witness :
    NoClash (listingChains windows (handle []).pathPrefix
      (Split '\n' (joinSep '\n' tarListing))) ∧
    ∃ tree, (readFilesFromISO windows (handle []) (Except.ok (joinSep '\n' tarListing))).2
        = Except.ok tree ∧
      File.countFilesList tree = 1 ∧ File.countDirsList tree = 1 := by
  have hno : NoClash (listingChains windows (handle []).pathPrefix
      (Split '\n' (joinSep '\n' tarListing))) := by decide
  obtain ⟨tree, h1, h2, h3⟩ := C22_node_counts windows (handle []) (joinSep '\n' tarListing)
  exact ⟨hno, tree, h1, h2.trans rfl, (h3 hno).trans rfl⟩

/-- C22 as stated fails: the listing of the single line `D.... .` is made of one matching line,
which describes the directory path `.` and no file, and the tree that `readFilesFromISO` builds
from it holds no directory node, the line of the path `.` being the marker of a TAR archive and
never inserted. -/
theorem C22_marker_line_not_counted :
    matchesLine dotLine = true ∧
    (FindStringSubmatch (TrimSpace dotLine)).map (fun m => (m.flag, m.path))
      = some (['D'], ['.']) ∧
    (readFilesFromISO windows (handle []) (Except.ok dotLine)).2 = Except.ok [] ∧
    File.countDirsList [] = 0 :=
  ⟨by decide, rfl, rfl, rfl⟩

/-! ## Paths written with backslashes -/

theorem volumeNameLenWindows_zero (c0 : Char) (t : Str) (h0 : isSlash c0 = false)
    (h1 : ∀ r, t ≠ ':' :: r) : volumeNameLenWindows (c0 :: t) = 0 := by
  unfold volumeNameLenWindows
  cases t with
  | nil => simp [h0]
  | cons c1 r =>
    have hc : c1 ≠ ':' := fun e => h1 r (by rw [e])
    simp [h0, hc]

/-- The chain that `readFilesFromISO` builds on Windows for a path written with backslashes
whose second character is not a colon. -/
theorem filePathParts_windows (m : Match) (init : List Str) (last : Str)
    (hseg : ∀ s ∈ init ++ [last], s ≠ [] ∧ '/' ∉ s ∧ '\\' ∉ s)
    (hcolon : (joinSep '\\' (init ++ [last])).tail.head? ≠ some ':') :
    filePathParts windows m (joinSep '\\' (init ++ [last])) =
      init.map dirPart ++ [lineEntry m last] := by
  have hl := hseg last (by simp)
  have hvol : volumeNameLenWindows (joinSep '\\' (init ++ [last])) = 0 := by
    cases hs : init ++ [last] with
    | nil => simp at hs
    | cons f rest =>
      have hf := hseg f (by rw [hs]; exact List.mem_cons_self _ _)
      cases f with
      | nil => exact absurd rfl hf.1
      | cons c cs =>
        obtain ⟨t, e⟩ := joinSep_head '\\' c cs rest
        have h1 : c ≠ '/' := fun e2 => hf.2.1 (e2 ▸ List.mem_cons_self _ _)
        have h2 : c ≠ '\\' := fun e2 => hf.2.2 (e2 ▸ List.mem_cons_self _ _)
        rw [e]
        refine volumeNameLenWindows_zero c t (by simp [isSlash, h1, h2]) ?_
        intro r hr
        apply hcolon
        rw [hs, e, hr]
        rfl
  have hbase : filepathBase windows (joinSep '\\' (init ++ [last])) = last := by
    refine baseWith_joinSep isSlash '\\' volumeNameLenWindows '\\' init last (by decide) hl.1 ?_
      hvol
    intro c hc
    have h1 : c ≠ '/' := fun e => hl.2.1 (e ▸ hc)
    have h2 : c ≠ '\\' := fun e => hl.2.2 (e ▸ hc)
    simp [isSlash, h1, h2]
  have hrep : ReplaceAll (joinSep '\\' (init ++ [last])) '\\' '/' = joinSep '/' (init ++ [last]) :=
    ReplaceAll_joinSep '\\' '/' _ fun s hs => (hseg s hs).2.2
  have htrim := trim_joinSep init last fun s hs => ⟨(hseg s hs).1, (hseg s hs).2.1⟩
  have hsplit : Split '/' (joinSep '/' (init ++ [last])) = init ++ [last] :=
    Split_joinSep '/' _ (by simp) fun s hs => (hseg s hs).2.1
  unfold filePathParts
  simp only [hbase, hrep, htrim, hsplit, List.dropLast_concat]
  rfl

theorem chainDirPaths_append (a b : List File) :
    chainDirPaths (a ++ b) =
      chainDirPaths a ++ (chainDirPaths b).map fun p => a.map File.Name ++ p := by
  induction a with
  | nil => simp [chainDirPaths]
  | cons d ds ih =>
    rw [List.cons_append]
    show (if d.IsDir then [[d.Name]] else []) ++
      (chainDirPaths (ds ++ b)).map (fun p => d.Name :: p) = _
    rw [ih]
    simp [chainDirPaths, List.map_append, Function.comp]

theorem walkDirs_nil_getD (names : List Str) : (walkDirs names []).getD [] = [] := by
  cases names <;> simp [walkDirs, findDir]

/-- When no file node of the tree has the path of one of the directories `dirs`, the walk of
`readDir`, which enters directories only, along the names of `dirs` reaches, after the insertion
of a chain that starts with `dirs`, the level into which the rest of the chain was inserted;
and the file paths of the level reached before are file paths of the tree. -/
theorem walkDirs_recurseFileAddFrom (dirs rest : List File) (hd : ∀ d ∈ dirs, d.IsDir = true) :
    ∀ tree, (∀ p ∈ chainDirPaths dirs, p ∉ File.filePathsList tree) →
      walkDirs (dirs.map File.Name) (recurseFileAddFrom (dirs ++ rest) tree) =
        some (recurseFileAddFrom rest ((walkDirs (dirs.map File.Name) tree).getD [])) ∧
      ∀ q ∈ File.filePathsList ((walkDirs (dirs.map File.Name) tree).getD []),
        dirs.map File.Name ++ q ∈ File.filePathsList tree := by
  induction dirs with
  | nil => intro tree _; simp [walkDirs]
  | cons d ds ih =>
    intro tree hfree
    have hds : ∀ x ∈ ds, x.IsDir = true := fun x hx => hd x (List.mem_cons_of_mem _ hx)
    have hdd : d.IsDir = true := hd d (List.mem_cons_self _ _)
    have hhead : [d.Name] ∈ chainDirPaths (d :: ds) := by simp [chainDirPaths, hdd]
    have htail : ∀ p ∈ chainDirPaths ds, d.Name :: p ∈ chainDirPaths (d :: ds) := by
      intro p hp
      simp only [chainDirPaths, List.mem_append, List.mem_map]
      exact Or.inr ⟨p, hp, rfl⟩
    rcases recurseFileAddFrom_cons d (ds ++ rest) tree with ⟨hf, _⟩ | ⟨_, hno, e⟩ |
      ⟨_, pre, v, post, et, hpre, hv, e⟩
    · rw [hdd] at hf; cases hf
    · have hno2 : ∀ u ∈ tree, ¬ (u.Name = d.Name ∧ u.IsDir = true) := fun u hu h => hno u hu h.1
      obtain ⟨h1, _⟩ := ih hds [] (by simp [File.filePathsList])
      rw [List.cons_append, e]
      simp only [List.map_cons, walkDirs]
      rw [findDir_append (File.mk Time.zero false true 0 []
        (recurseFileAddFrom (ds ++ rest) []) d.Name) [] hno2 rfl rfl, findDir_none hno2]
      simp only [File.Children]
      rw [h1, walkDirs_nil_getD]
      exact ⟨rfl, by simp [File.filePathsList]⟩
    · subst et
      have hvm : v ∈ pre ++ v :: post := by simp
      have hvd : v.IsDir = true := by
        cases hvd : v.IsDir with
        | true => rfl
        | false => exact absurd (hv ▸ file_mem_filePathsList hvm hvd) (hfree _ hhead)
      have hpre2 : ∀ u ∈ pre, ¬ (u.Name = d.Name ∧ u.IsDir = true) :=
        fun u hu h => hpre u hu h.1
      have hfree2 : ∀ p ∈ chainDirPaths ds, p ∉ File.filePathsList v.Children := by
        intro p hp hp2
        have h1 := child_mem_filePathsList hvm hp2
        rw [hv] at h1
        exact hfree _ (htail p hp) h1
      obtain ⟨h1, h2⟩ := ih hds v.Children hfree2
      rw [List.cons_append, e]
      simp only [List.map_cons, walkDirs]
      rw [findDir_append _ post hpre2 (by simpa using hv) (by simpa using hvd),
        findDir_append _ post hpre2 hv hvd]
      simp only [File.Children_setChildren]
      refine ⟨h1, ?_⟩
      intro q hq
      have h3 := child_mem_filePathsList hvm (h2 q hq)
      rw [hv] at h3
      exact h3

/-- C9, as amended: on the Windows build, for every line that matches the line shape and whose
path is not the marker `.`, if the path that remains after the recorded prefix is removed is
`s1\s2\...\sn` with every segment non-empty and free of slashes and backslashes, its second
character is not a colon, and no file node of the tree built so far has the path of a directory
that the line describes (`s1`, `s1/s2`, ..., and the whole path for a directory line), then
`readFilesFromISO` gives `recurseFileAdd` the chain of the directories `s1`, ..., `s(n-1)`
followed by the entry named `sn`, and afterwards the walk that enters directories only, along
`s1`, ..., `s(n-1)`, reaches a level that holds a node named `sn` which is a directory exactly
when the line is a directory line; for a file line that node is the new file node with the size
of the line, the last of its level. -/
theorem C9_backslash_path_chain (st : ParseState) (line : Str) (m : Match) (init : List Str)
    (last : Str)
    (hm : FindStringSubmatch (TrimSpace line) = some m)
    (hdot : m.path ≠ ['.'])
    (hpath : TrimPrefix m.path st.pathPrefix = joinSep '\\' (init ++ [last]))
    (hseg : ∀ s ∈ init ++ [last], s ≠ [] ∧ '/' ∉ s ∧ '\\' ∉ s)
    (hcolon : (joinSep '\\' (init ++ [last])).tail.head? ≠ some ':')
    (hfree : ∀ p ∈ chainDirPaths (init.map dirPart ++ [lineEntry m last]),
      p ∉ File.filePathsList st.result) :
    (readLine windows st line).result =
      recurseFileAdd (init.map dirPart ++ [lineEntry m last]) 0 st.result ∧
    ∃ lvl v, walkDirs init (readLine windows st line).result = some lvl ∧
      v ∈ lvl ∧ v.Name = last ∧ v.IsDir = decide (m.flag = ['D']) ∧
      (m.flag ≠ ['D'] →
        v = File.mk Time.zero false false (castToInt m.size1) [] [] last ∧
        lvl.getLast? = some v) := by
  have e : (readLine windows st line).result =
      recurseFileAdd (init.map dirPart ++ [lineEntry m last]) 0 st.result := by
    unfold readLine
    simp only [hm, if_neg hdot, hpath, filePathParts_windows m init last hseg hcolon]
  refine ⟨e, ?_⟩
  rw [e]
  have happ := chainDirPaths_append (init.map dirPart) [lineEntry m last]
  rw [map_Name_dirPart] at happ
  have hfree1 : ∀ p ∈ chainDirPaths (init.map dirPart), p ∉ File.filePathsList st.result := by
    intro p hp
    refine hfree p ?_
    rw [happ]
    exact List.mem_append_left _ hp
  obtain ⟨w, hw2⟩ := walkDirs_recurseFileAddFrom (init.map dirPart) [lineEntry m last]
    (dirPart_IsDir init) st.result hfree1
  rw [map_Name_dirPart] at w hw2
  have hw : walkDirs init
      (recurseFileAdd (init.map dirPart ++ [lineEntry m last]) 0 st.result) =
      some (recurseFileAddFrom [lineEntry m last] ((walkDirs init st.result).getD [])) := by
    simpa [recurseFileAdd] using w
  have hflag : (lineEntry m last).IsDir = decide (m.flag = ['D']) := rfl
  have hname : (lineEntry m last).Name = last := rfl
  rcases recurseFileAddFrom_cons (lineEntry m last) [] ((walkDirs init st.result).getD [])
    with ⟨hf, e2⟩ | ⟨hdir, _, e2⟩ | ⟨hdir, pre, v, post, et, _, hv, e2⟩
  · refine ⟨_, newFile (lineEntry m last), hw, by rw [e2]; simp, rfl, ?_, fun _ => ⟨rfl, ?_⟩⟩
    · rw [← hflag, hf]; rfl
    · rw [e2]; simp
  · refine ⟨_, File.mk Time.zero false true 0 [] (recurseFileAddFrom [] []) last, hw,
      by rw [e2]; simp [hname], rfl, ?_, fun hn => ?_⟩
    · rw [← hflag, hdir]; rfl
    · rw [hflag] at hdir
      exact absurd (of_decide_eq_true hdir) hn
  · have hvd : v.IsDir = true := by
      cases hvd : v.IsDir with
      | true => rfl
      | false =>
        have hvm : v ∈ (walkDirs init st.result).getD [] := by rw [et]; simp
        have h1 := hw2 _ (file_mem_filePathsList hvm hvd)
        rw [hv, hname] at h1
        refine absurd h1 (hfree _ ?_)
        rw [happ]
        refine List.mem_append_right _ (List.mem_map.2 ⟨[last], ?_, rfl⟩)
        simp [chainDirPaths, hdir, hname]
    refine ⟨_, v.setChildren (recurseFileAddFrom [] v.Children), hw,
      by rw [e2]; simp, by simpa [hname] using hv, ?_, fun hn => ?_⟩
    · rw [← hflag, hdir]; simpa using hvd
    · rw [hflag] at hdir
      exact absurd (of_decide_eq_true hdir) hn

/-- A witness of C9: the directory line with the path `boot\grub\i386-efi`, read into the empty
tree, yields the directory `i386-efi` inside the directory `grub` inside the directory `boot`;
read into the sample tree, which holds the directory `boot` with the directory `grub` and the
file `grub.cfg`, it yields a directory `i386-efi` at the level of `boot/grub`. -/
theorem C9_backslash_path_chain_witness :
    FindStringSubmatch (TrimSpace bootLine) =
      some ⟨"2018-06-20".toList, "20:52:22".toList, "D".toList, [], [],
        "boot\\grub\\i386-efi".toList⟩ ∧
    (readLine windows ⟨[], []⟩ bootLine).result =
      [File.mk Time.zero false true 0 []
        [File.mk Time.zero false true 0 []
          [File.mk Time.zero false true 0 [] [] "i386-efi".toList] "grub".toList]
        "boot".toList] ∧
    ∃ lvl v, walkDirs ["boot".toList, "grub".toList]
        (readLine windows ⟨[], sampleTree⟩ bootLine).result = some lvl ∧
      v ∈ lvl ∧ v.Name = "i386-efi".toList ∧ v.IsDir = true := by
  obtain ⟨lvl, v, h1, h2, h3, h4, _⟩ := (C9_backslash_path_chain ⟨[], sampleTree⟩ bootLine
    ⟨"2018-06-20".toList, "20:52:22".toList, "D".toList, [], [], "boot\\grub\\i386-efi".toList⟩
    ["boot".toList, "grub".toList] "i386-efi".toList rfl (by decide) rfl (by decide)
    (by decide) (by decide)).2
  exact ⟨rfl, rfl, lvl, v, h1, h2, h3, h4.trans (by decide)⟩

/-- C9 as stated fails on the Linux build at its own example: the directory line with the path
`boot\grub\i386-efi` matches the line shape, and `readFilesFromISO` inserts, inside the
directory `grub` inside the directory `boot`, a node whose name is the whole path
`boot\grub\i386-efi` and not the final segment `i386-efi`: the name is what `filepath.Base`
gives for the path as the line writes it, and on Linux the backslash does not separate. -/
theorem C9_linux_name_is_whole_path :
    FindStringSubmatch (TrimSpace bootLine) =
      some ⟨"2018-06-20".toList, "20:52:22".toList, "D".toList, [], [],
        "boot\\grub\\i386-efi".toList⟩ ∧
    (readFilesFromISO linux (handle []) (Except.ok bootLine)).2 =
      Except.ok [File.mk Time.zero false true 0 []
        [File.mk Time.zero false true 0 []
          [File.mk Time.zero false true 0 [] [] "boot\\grub\\i386-efi".toList] "grub".toList]
        "boot".toList] :=
  ⟨rfl, rfl⟩

end Iso2Repo
